import Mathlib

/-!
# Synth signal chain: envelope, MIDI frequency table, oscillator, LFO, filters

Shallow embedding of `src/adsr/adsr.h`, `src/midi_freq/midi_freq.h`,
`src/oscillator/oscillator.h`, `src/lfo/lfo.h` and `src/filter/filter.h`.

Conventions of the embedding

* `uint8_t`, `uint16_t`, `uint32_t` values are natural numbers; every C++
  operation that can leave the range of its result type is followed by an
  explicit `% 256`, `% 65536` or `% 4294967296`.
* The sketches target AVR boards (`pwm_audio.h` programs the ATmega timers
  `TCCR1A`, `OCR2A`, ... and the tables live in `PROGMEM`).  There `int` has
  16 bits, so two `uint16_t` operands of `+` are added as `unsigned int` and
  the sum wraps at 65536; where `int` is wider the same sum is exact.  The one
  place of the envelope where this is visible takes the width of `int` as the
  parameter `intBits`.
* A division whose divisor can be zero makes the operation return `none`.
* A finite `float` is an exact rational.  The setters that turn a `float` into a
  stored integer or coefficient round every operation to the 32-bit binary format
  (`roundF32`).  The table conversions `/ 100.0f` and `* 10.0f`, the DC blocker and
  the state variable filter's `process` are evaluated in exact rational
  arithmetic; pitch bend, detune and `midiNoteToFrequencyCalc` are evaluated over
  the reals with the real `pow`.  The inverse MIDI conversion is given twice: in
  exact real arithmetic with the real `log2` (`frequencyToMidiNote`) and in
  `float` arithmetic with the library `log2` as a parameter
  (`frequencyToMidiNoteF32`).
-/

namespace Synth

/-! ## ADSR envelope (`src/adsr/adsr.h`) -/

/-- States of the envelope, `enum class EnvelopeState`. -/
inductive EnvelopeState where
  | IDLE
  | ATTACK
  | DECAY
  | SUSTAIN
  | RELEASE
  deriving DecidableEq, Repr

/-- Data members of `class ADSR`. -/
structure ADSR where
  _sampleRate : Nat
  _state : EnvelopeState
  _level : Nat
  _attackRate : Nat
  _decayRate : Nat
  _sustainLevel : Nat
  _releaseRate : Nat
  _releaseStartLevel : Nat
  _attackMs : Nat
  _decayMs : Nat
  _releaseMs : Nat
  deriving DecidableEq, Repr

/-- Every member holds a value of its declared C++ type. -/
def ADSR.InRange (e : ADSR) : Prop :=
  e._sampleRate < 4294967296 ∧ e._level < 65536 ∧ e._attackRate < 65536 ∧
  e._decayRate < 65536 ∧ e._sustainLevel < 256 ∧ e._releaseRate < 65536

instance (e : ADSR) : Decidable e.InRange := by
  unfold ADSR.InRange
  infer_instance

/-- Sum of two `uint16_t` operands after the usual arithmetic conversions:
computed in `unsigned int` (wrapping at 65536) when `int` has 16 bits, and in
`int` without wrapping when `int` is wider. -/
def promotedSum16 (intBits a b : Nat) : Nat :=
  if intBits ≤ 16 then (a + b) % 65536 else a + b

/-- `ADSR::setAttack(uint16_t ms)`; `none` when `65535 / samples` divides by zero. -/
def ADSR.setAttack (e : ADSR) (ms : Nat) : Option ADSR :=
  if ms = 0 then
    some { e with _attackMs := ms, _attackRate := 65535 }
  else
    let samples := (ms * e._sampleRate) % 4294967296 / 1000
    if samples = 0 then none
    else some { e with _attackMs := ms, _attackRate := (65535 / samples) % 65536 }

/-- `ADSR::setDecay(uint16_t ms)`; `none` when `65535 / samples` divides by zero. -/
def ADSR.setDecay (e : ADSR) (ms : Nat) : Option ADSR :=
  if ms = 0 then
    some { e with _decayMs := ms, _decayRate := 65535 }
  else
    let samples := (ms * e._sampleRate) % 4294967296 / 1000
    if samples = 0 then none
    else some { e with _decayMs := ms, _decayRate := (65535 / samples) % 65536 }

/-- `ADSR::setSustain(uint8_t level)`. -/
def ADSR.setSustain (e : ADSR) (level : Nat) : ADSR :=
  { e with _sustainLevel := level }

/-- `ADSR::setRelease(uint16_t ms)`; `none` when `65535 / samples` divides by zero. -/
def ADSR.setRelease (e : ADSR) (ms : Nat) : Option ADSR :=
  if ms = 0 then
    some { e with _releaseMs := ms, _releaseRate := 65535 }
  else
    let samples := (ms * e._sampleRate) % 4294967296 / 1000
    if samples = 0 then none
    else some { e with _releaseMs := ms, _releaseRate := (65535 / samples) % 65536 }

/-- Constructor `ADSR::ADSR(uint32_t sampleRate)`: the member initialisers, then
`setAttack(10)`, `setDecay(50)`, `setRelease(100)`.  The members the
initialiser list leaves out start at 0 here. -/
def ADSR.new (sampleRate : Nat) : Option ADSR :=
  let e0 : ADSR :=
    { _sampleRate := sampleRate, _state := EnvelopeState.IDLE, _level := 0,
      _attackRate := 0, _decayRate := 0, _sustainLevel := 180, _releaseRate := 0,
      _releaseStartLevel := 0, _attackMs := 0, _decayMs := 0, _releaseMs := 0 }
  (e0.setAttack 10).bind fun e1 => (e1.setDecay 50).bind fun e2 => e2.setRelease 100

/-- `ADSR::noteOn()`. -/
def ADSR.noteOn (e : ADSR) : ADSR :=
  { e with _state := EnvelopeState.ATTACK }

/-- `ADSR::noteOff()`. -/
def ADSR.noteOff (e : ADSR) : ADSR :=
  if e._state ≠ EnvelopeState.IDLE then
    { e with _state := EnvelopeState.RELEASE, _releaseStartLevel := e._level }
  else e

/-- `ADSR::nextSample()`: the envelope after the call and the returned byte. -/
def ADSR.nextSample (intBits : Nat) (e : ADSR) : ADSR × Nat :=
  let e1 : ADSR :=
    match e._state with
    | EnvelopeState.IDLE => { e with _level := 0 }
    | EnvelopeState.ATTACK =>
      let lvl := (e._level + e._attackRate) % 65536
      if lvl ≥ 65535 then { e with _level := 65535, _state := EnvelopeState.DECAY }
      else { e with _level := lvl }
    | EnvelopeState.DECAY =>
      let sustainLevel16 := (e._sustainLevel * 256) % 65536
      if e._level > promotedSum16 intBits sustainLevel16 e._decayRate then
        { e with _level := (e._level + 65536 - e._decayRate) % 65536 }
      else { e with _level := sustainLevel16, _state := EnvelopeState.SUSTAIN }
    | EnvelopeState.SUSTAIN => e
    | EnvelopeState.RELEASE =>
      if e._level > e._releaseRate then
        { e with _level := (e._level + 65536 - e._releaseRate) % 65536 }
      else { e with _level := 0, _state := EnvelopeState.IDLE }
  (e1, (e1._level / 256) % 256)

/-- The envelope after one `nextSample()` call. -/
def ADSR.tick (intBits : Nat) (e : ADSR) : ADSR :=
  (e.nextSample intBits).1

/-- The envelope after `n` successive `nextSample()` calls. -/
def ADSR.ticks (intBits : Nat) : Nat → ADSR → ADSR
  | 0, e => e
  | n + 1, e => (ADSR.ticks intBits n e).tick intBits

/-- Number of steps of size `r` needed to cover `a`: `ceil (a / r)`. -/
def ceilDiv (a r : Nat) : Nat :=
  (a + r - 1) / r

/-- Rate formula in the words of the specification:
`rate = 65535 / max(1, ms * sampleRate / 1000)`. -/
def rateSpec (ms sampleRate : Nat) : Nat :=
  65535 / max 1 (ms * sampleRate / 1000)

/-! ## `float` arithmetic (IEEE 754 binary32)

On the AVR target `float` and `double` are both the 32-bit binary format.  A finite
`float` is an exact rational; every arithmetic operation and every decimal literal
yields the exact result rounded to the nearest `float`, ties to the even mantissa. -/

/-- Rounding of a rational to the nearest integer, ties to the even integer. -/
def roundHalfEven (x : ℚ) : Int :=
  let f := Int.floor x
  if x - f < 1 / 2 then f
  else if 1 / 2 < x - f then f + 1
  else if f % 2 = 0 then f else f + 1

/-- The `float` nearest to a non-negative rational `a`: with `2 ^ e ≤ a < 2 ^ (e + 1)`
(`e` not below -126, the exponent of the subnormal numbers) the spacing of the
format is `2 ^ (e - 23)` and `a` is rounded to a multiple of it. -/
def roundF32Mag (a : ℚ) : ℚ :=
  let e : Int := max (Int.log 2 a) (-126)
  (roundHalfEven (a / 2 ^ (e - 23)) : ℚ) * 2 ^ (e - 23)

/-- The `float` nearest to a rational, the sign treated apart.  No infinity: the
magnitudes from `2 ^ 128` on, which the format cannot hold, are out of the range
of every conversion to an integer type that follows such a value here. -/
def roundF32 (x : ℚ) : ℚ :=
  if 0 ≤ x then roundF32Mag x else -roundF32Mag (-x)

/-- Conversion `(uint8_t)q` of a float: truncation toward zero, `none` when the
truncated value is not a `uint8_t`. -/
def truncToUInt8 (q : ℚ) : Option Nat :=
  if -1 < q ∧ q < 256 then some (Int.toNat (Int.floor (|q|))) else none

/-! ## MIDI note / frequency conversion (`src/midi_freq/midi_freq.h`) -/

/-- The 128 initialisers of `MIDI_FREQ_TABLE`, as written in the source. -/
def MIDI_FREQ_LITERALS : List Nat :=
  [817, 866, 918, 972, 1030, 1091, 1156, 1225, 1297, 1375, 1457, 1543,
   1635, 1732, 1835, 1945, 2060, 2183, 2312, 2450, 2596, 2750, 2914, 3087,
   3270, 3465, 3671, 3889, 4120, 4365, 4625, 4900, 5191, 5500, 5827, 6174,
   6541, 6930, 7342, 7778, 8241, 8731, 9250, 9800, 10383, 11000, 11654, 12347,
   13081, 13859, 14683, 15556, 16481, 17461, 18500, 19600, 20765, 22000, 23308, 24694,
   26163, 27718, 29366, 31113, 32963, 34923, 36999, 39200, 41530, 44000, 46616, 49388,
   52325, 55437, 58733, 62225, 65926, 69846, 73999, 78399, 83061, 88000, 93233, 98777,
   10465, 11087, 11747, 12445, 13185, 13969, 14800, 15680, 16612, 17600, 18647, 19755,
   20930, 22175, 23493, 24890, 26370, 27938, 29600, 31360, 33224, 35200, 37293, 39511,
   41860, 44349, 46986, 49780, 52740, 55877, 59199, 62719, 66449, 70400, 74586, 79021,
   83720, 88698, 93973, 99561, 105481, 111753, 118398, 125439]

/-- The array `const uint16_t MIDI_FREQ_TABLE[128]`: each initialiser converted
to the 16-bit element type. -/
def MIDI_FREQ_TABLE : List Nat :=
  MIDI_FREQ_LITERALS.map fun v => v % 65536

/-- `pgm_read_word(&table[i])`: the 16-bit element at index `i`. -/
def pgm_read_word (table : List Nat) (i : Nat) : Nat :=
  table.getD i 0

/-- `midiNoteToFrequency(uint8_t note)`, the float result as an exact rational. -/
def midiNoteToFrequency (note : Nat) : ℚ :=
  let note := if note > 127 then 127 else note
  let tableValue := pgm_read_word MIDI_FREQ_TABLE note
  if note < 84 then (tableValue : ℚ) / 100 else (tableValue : ℚ) * 10

/-- `midiNoteToFrequencyCalc(uint8_t note)` over the reals:
`440 * 2 ^ ((note - 69) / 12)`, the difference `note - 69` taken in `int`. -/
noncomputable def midiNoteToFrequencyCalc (note : Nat) : ℝ :=
  440 * (2 : ℝ) ^ ((((note : ℤ) - 69 : ℤ) : ℝ) / 12)

/-- `frequencyToMidiNote(float freq)` evaluated in exact real arithmetic with the
real `log2`; the final conversion to `uint8_t` truncates toward zero. -/
noncomputable def frequencyToMidiNote (freq : ℝ) : Nat :=
  if freq ≤ 0 then 0
  else
    let note : ℝ := 12 * Real.logb 2 (freq / 440) + 69
    if note < 0 then 0
    else if note > 127 then 127
    else (Int.toNat ⌊note + 1 / 2⌋) % 256

/-- Waveform selector, `enum class Waveform`. -/
inductive Waveform where
  | SINE
  | SQUARE
  | SAWTOOTH
  | TRIANGLE
  | PULSE
  deriving DecidableEq, Repr

/-- The 256 entries of `SINE_TABLE`. -/
def SINE_TABLE : List Nat :=
  [128,131,134,137,140,143,146,149,152,155,158,162,165,167,170,173,
   176,179,182,185,188,190,193,196,198,201,203,206,208,211,213,215,
   218,220,222,224,226,228,230,232,234,235,237,238,240,241,243,244,
   245,246,248,249,250,250,251,252,253,253,254,254,254,255,255,255,
   255,255,255,255,254,254,254,253,253,252,251,250,250,249,248,246,
   245,244,243,241,240,238,237,235,234,232,230,228,226,224,222,220,
   218,215,213,211,208,206,203,201,198,196,193,190,188,185,182,179,
   176,173,170,167,165,162,158,155,152,149,146,143,140,137,134,131,
   128,124,121,118,115,112,109,106,103,100,97,93,90,88,85,82,
   79,76,73,70,67,65,62,59,57,54,52,49,47,44,42,40,
   37,35,33,31,29,27,25,23,21,20,18,17,15,14,12,11,
   10,9,7,6,5,5,4,3,2,2,1,1,1,0,0,0,
   0,0,0,0,1,1,1,2,2,3,4,5,5,6,7,9,
   10,11,12,14,15,17,18,20,21,23,25,27,29,31,33,35,
   37,40,42,44,47,49,52,54,57,59,62,65,67,70,73,76,
   79,82,85,88,90,93,97,100,103,106,109,112,115,118,121,124]

/-- `pgm_read_byte(&table[i])`: the 8-bit element at index `i`. -/
def pgm_read_byte (table : List Nat) (i : Nat) : Nat :=
  table.getD i 0

/-- Data members of `class Oscillator`; `_frequency` is an exact rational. -/
structure Oscillator where
  _sampleRate : Nat
  _frequency : ℚ
  _phase : Nat
  _phaseIncrement : Nat
  _waveform : Waveform
  _pulseWidth : Nat
  deriving DecidableEq

/-- `Oscillator::setFrequency(float freq)`: the product `freq * 65536.0f`, the sample
rate converted to `float` and their quotient are each rounded to `float`; the
quotient is converted to `uint16_t` by truncation; `none` when the quotient is not
defined (sample rate 0) or its truncation is not a `uint16_t` value. -/
def Oscillator.setFrequency (o : Oscillator) (freq : ℚ) : Option Oscillator :=
  if o._sampleRate = 0 then none
  else
    let q : ℚ := roundF32 (roundF32 (freq * 65536) / roundF32 (o._sampleRate : ℚ))
    if -1 < q ∧ q < 65536 then
      some { o with _frequency := freq, _phaseIncrement := Int.toNat (Int.floor (|q|)) }
    else none

/-- Constructor `Oscillator::Oscillator(uint32_t sampleRate)`. -/
def Oscillator.new (sampleRate : Nat) : Option Oscillator :=
  let o0 : Oscillator :=
    { _sampleRate := sampleRate, _frequency := 440, _phase := 0, _phaseIncrement := 0,
      _waveform := Waveform.SINE, _pulseWidth := 128 }
  o0.setFrequency o0._frequency

/-- `Oscillator::setWaveform(Waveform wf)`. -/
def Oscillator.setWaveform (o : Oscillator) (wf : Waveform) : Oscillator :=
  { o with _waveform := wf }

/-- `Oscillator::nextSample()`: the oscillator after the call and the returned byte. -/
def Oscillator.nextSample (o : Oscillator) : Oscillator × Nat :=
  let phaseIndex := (o._phase / 256) % 256
  let sample : Nat :=
    match o._waveform with
    | Waveform.SINE => pgm_read_byte SINE_TABLE phaseIndex
    | Waveform.SQUARE => if phaseIndex < 128 then 255 else 0
    | Waveform.SAWTOOTH => phaseIndex
    | Waveform.TRIANGLE =>
      (if phaseIndex < 128 then phaseIndex * 2 else 255 - (phaseIndex - 128) * 2) % 256
    | Waveform.PULSE => if phaseIndex < o._pulseWidth then 255 else 0
  ({ o with _phase := (o._phase + o._phaseIncrement) % 65536 }, sample)

/-- The oscillator after `k` successive `nextSample()` calls. -/
def Oscillator.ticks : Nat → Oscillator → Oscillator
  | 0, o => o
  | k + 1, o => (Oscillator.ticks k o).nextSample.1

/-- The byte returned by call number `k` (counted from 0) of `nextSample()`. -/
def Oscillator.sampleAt (k : Nat) (o : Oscillator) : Nat :=
  (Oscillator.ticks k o).nextSample.2


/-! ## LFO (`src/lfo/lfo.h`) -/

/-- Data members of `class LFO`; `_rate` is an exact rational. -/
structure LFO where
  _sampleRate : Nat
  _rate : ℚ
  _depth : Nat
  _phase : Nat
  _phaseIncrement : Nat
  _waveform : Waveform
  deriving DecidableEq

/-- `LFO::setRate(float hz)`: the product `hz * 16777216.0f`, the sample rate
converted to `float` and their quotient are each rounded to `float`; the quotient is
converted to `uint32_t` by truncation; `none` when the quotient is not defined
(sample rate 0) or its truncation is not a `uint32_t` value. -/
def LFO.setRate (l : LFO) (hz : ℚ) : Option LFO :=
  if l._sampleRate = 0 then none
  else
    let q : ℚ := roundF32 (roundF32 (hz * 16777216) / roundF32 (l._sampleRate : ℚ))
    if -1 < q ∧ q < 4294967296 then
      some { l with _rate := hz, _phaseIncrement := Int.toNat (Int.floor (|q|)) }
    else none

/-- Constructor `LFO::LFO(uint32_t sampleRate)`. -/
def LFO.new (sampleRate : Nat) : Option LFO :=
  let l0 : LFO :=
    { _sampleRate := sampleRate, _rate := 1, _depth := 127, _phase := 0,
      _phaseIncrement := 0, _waveform := Waveform.SINE }
  l0.setRate l0._rate

/-- `LFO::setDepth(uint8_t depth)`. -/
def LFO.setDepth (l : LFO) (depth : Nat) : LFO :=
  { l with _depth := depth }

/-- `LFO::setWaveform(Waveform wf)`. -/
def LFO.setWaveform (l : LFO) (wf : Waveform) : LFO :=
  { l with _waveform := wf }

/-- The `switch (_waveform)` of `LFO::nextSample()`: the value of the local `sample`
for the 8-bit index `phaseIndex`. -/
def LFO.waveformValue (wf : Waveform) (phaseIndex : Nat) : Nat :=
  match wf with
  | Waveform.SINE => pgm_read_byte SINE_TABLE phaseIndex
  | Waveform.SQUARE => if phaseIndex < 128 then 255 else 0
  | Waveform.SAWTOOTH => phaseIndex
  | Waveform.TRIANGLE =>
    (if phaseIndex < 128 then phaseIndex * 2 else 255 - (phaseIndex - 128) * 2) % 256
  | Waveform.PULSE => if phaseIndex < 64 then 255 else 0

/-- `LFO::nextSample()`: the LFO after the call and the returned byte.  The index is
`_phase >> 16` converted to `uint8_t`; the phase sum is a `uint32_t` and one
conditional subtraction of 16777216 follows it. -/
def LFO.nextSample (l : LFO) : LFO × Nat :=
  let phaseIndex := (l._phase / 65536) % 256
  let sample := LFO.waveformValue l._waveform phaseIndex
  let p1 := (l._phase + l._phaseIncrement) % 4294967296
  let p2 := if p1 ≥ 16777216 then p1 - 16777216 else p1
  ({ l with _phase := p2 }, ((sample * l._depth) % 65536 / 256) % 256)

/-- Conversion of an integer to `int8_t` (two's complement). -/
def toInt8 (x : Int) : Int :=
  (x + 128) % 256 - 128

/-- `LFO::nextSampleBipolar()`. -/
def LFO.nextSampleBipolar (l : LFO) : LFO × Int :=
  let r := l.nextSample
  (r.1, toInt8 ((r.2 : Int) - ((l._depth / 2 : Nat) : Int)))

/-- `LFO::nextSampleFloat()`, the float result as an exact rational. -/
def LFO.nextSampleFloat (l : LFO) : LFO × ℚ :=
  let r := l.nextSample
  let bipolar : Int := (r.2 : Int) - 128
  (r.1, (bipolar : ℚ) / 128 * ((l._depth : ℚ) / 255))

/-- `LFO::modulateAmplitude(uint8_t baseAmp)`.  The product `(255 - lfoVal) * _depth`
is an `int`; `none` when it overflows a 16-bit `int`. -/
def LFO.modulateAmplitude (intBits : Nat) (l : LFO) (baseAmp : Nat) : Option (LFO × Nat) :=
  let r := l.nextSample
  let lfoVal := r.2
  let prod := (255 - lfoVal) * l._depth
  if intBits ≤ 16 ∧ 32767 < prod then none
  else
    let modAmount := (255 - prod / 256) % 65536
    some (r.1, ((baseAmp * modAmount) % 65536 / 256) % 256)

/-! ## Filters (`src/filter/filter.h`) -/

/-- Data members of `class OnePoleFilter`. -/
structure OnePoleFilter where
  _coefficient : Nat
  _lastOutput : Nat
  _lastOutputSigned : Int
  deriving DecidableEq, Repr

/-- Constructor `OnePoleFilter::OnePoleFilter()`; the member the initialiser list
leaves out starts at 0 here. -/
def OnePoleFilter.new : OnePoleFilter :=
  { _coefficient := 128, _lastOutput := 0, _lastOutputSigned := 0 }

/-- `OnePoleFilter::setCoefficient(uint8_t coeff)`. -/
def OnePoleFilter.setCoefficient (f : OnePoleFilter) (coeff : Nat) : OnePoleFilter :=
  { f with _coefficient := coeff }

/-- `OnePoleFilter::process(uint8_t input)`: the filter after the call and the
returned byte; `temp` is a `uint16_t`. -/
def OnePoleFilter.process (f : OnePoleFilter) (input : Nat) : OnePoleFilter × Nat :=
  let temp0 := (input * (256 - f._coefficient)) % 65536
  let temp1 := (temp0 + (f._lastOutput * f._coefficient) % 65536) % 65536
  let out := (temp1 / 256) % 256
  ({ f with _lastOutput := out }, out)

/-- `OnePoleFilter::reset()`. -/
def OnePoleFilter.reset (f : OnePoleFilter) : OnePoleFilter :=
  { f with _lastOutput := 0, _lastOutputSigned := 0 }

/-- Data members of `class DCBlocker`, the floats as exact rationals. -/
structure DCBlocker where
  _R : ℚ
  _xPrev : ℚ
  _yPrev : ℚ
  deriving DecidableEq

/-- Constructor `DCBlocker::DCBlocker(float coefficient)`. -/
def DCBlocker.new (coefficient : ℚ) : DCBlocker :=
  { _R := coefficient, _xPrev := 0, _yPrev := 0 }

/-- Default argument of the constructor, the decimal 0.995 taken exactly (the
`float` literal `0.995f` is 8346665 / 8388608). -/
def DCBlocker.defaultCoefficient : ℚ := 995 / 1000

/-- `DCBlocker::reset()`. -/
def DCBlocker.reset (d : DCBlocker) : DCBlocker :=
  { d with _xPrev := 0, _yPrev := 0 }

/-- The local `output` of `DCBlocker::process`: `input - _xPrev + _R * _yPrev`. -/
def DCBlocker.output (d : DCBlocker) (input : Int) : ℚ :=
  (input : ℚ) - d._xPrev + d._R * d._yPrev

/-- Conversion `(int16_t)output` of a float: truncation toward zero, `none` when the
truncated value is not an `int16_t`. -/
def truncToInt16 (q : ℚ) : Option Int :=
  let t : Int := if 0 ≤ q then Int.floor q else Int.ceil q
  if -32768 ≤ t ∧ t ≤ 32767 then some t else none

/-- `DCBlocker::process(int16_t input)`: the filter after the call and the returned
sample. -/
def DCBlocker.process (d : DCBlocker) (input : Int) : Option (DCBlocker × Int) :=
  let output := d.output input
  (truncToInt16 output).map fun r => ({ d with _xPrev := (input : ℚ), _yPrev := output }, r)

/-- The filter after `n` calls of `process` with the same input `c`. -/
def DCBlocker.feed (c : Int) : Nat → DCBlocker → Option DCBlocker
  | 0, d => some d
  | n + 1, d => (DCBlocker.feed c n d).bind fun s => (s.process c).map Prod.fst

/-! ## State variable filter (`src/filter/filter.h`) -/

/-- The Arduino macro `constrain(amt, low, high)`:
`(amt) < (low) ? (low) : ((amt) > (high) ? (high) : (amt))`. -/
def constrain {α : Type} [LinearOrder α] (amt low high : α) : α :=
  if amt < low then low else if amt > high then high else amt

/-- The Arduino constant `PI`. -/
def PI : ℚ := 3.1415926535897932384626433832795

/-- Data members of `class StateVariableFilter`; a `float` is an exact rational. -/
structure StateVariableFilter where
  _sampleRate : Nat
  _cutoff : ℚ
  _resonance : ℚ
  _f : ℚ
  _q : ℚ
  _scale : ℚ
  _low : Int
  _band : Int
  _high : Int
  deriving DecidableEq

/-- `StateVariableFilter::calculateCoefficients()`, every operation rounded to
`float`.  The library functions `sin` and `sqrt` are the parameters `sinf` and
`sqrtf`. -/
def StateVariableFilter.calculateCoefficients (sinf sqrtf : ℚ → ℚ)
    (s : StateVariableFilter) : StateVariableFilter :=
  let f := roundF32 (2 * sinf (roundF32 (roundF32 (roundF32 PI * s._cutoff)
    / roundF32 (s._sampleRate : ℚ))))
  let q := roundF32 (2 - roundF32 (2 * s._resonance))
  { s with _f := f, _q := q, _scale := sqrtf q }

/-- Constructor `StateVariableFilter::StateVariableFilter(uint32_t sampleRate)`. -/
def StateVariableFilter.new (sinf sqrtf : ℚ → ℚ) (sampleRate : Nat) : StateVariableFilter :=
  StateVariableFilter.calculateCoefficients sinf sqrtf
    { _sampleRate := sampleRate, _cutoff := 1000, _resonance := 1 / 2,
      _f := 0, _q := 0, _scale := 0, _low := 0, _band := 0, _high := 0 }

/-- `StateVariableFilter::setCutoff(float freq)`. -/
def StateVariableFilter.setCutoff (sinf sqrtf : ℚ → ℚ) (s : StateVariableFilter)
    (freq : ℚ) : StateVariableFilter :=
  StateVariableFilter.calculateCoefficients sinf sqrtf
    { s with _cutoff := constrain freq 20 (roundF32 (roundF32 (s._sampleRate : ℚ) / 2)) }

/-- `StateVariableFilter::setResonance(float res)`; the upper limit is the `float`
literal `0.99f`, the float nearest to 99 / 100. -/
def StateVariableFilter.setResonance (sinf sqrtf : ℚ → ℚ) (s : StateVariableFilter)
    (res : ℚ) : StateVariableFilter :=
  StateVariableFilter.calculateCoefficients sinf sqrtf
    { s with _resonance := constrain res 0 (roundF32 (99 / 100)) }

/-- `StateVariableFilter::reset()`. -/
def StateVariableFilter.reset (s : StateVariableFilter) : StateVariableFilter :=
  { s with _low := 0, _band := 0, _high := 0 }

/-- `StateVariableFilter::process(int16_t input)`.  Each of the three assignments
converts a float to the `int16_t` member (`truncToInt16`, `none` when the value is
out of range); `_high` reads the new `_low`, `_band` reads the new `_high`; the three
`constrain` calls then act on the `int16_t` members. -/
def StateVariableFilter.process (s : StateVariableFilter) (input : Int) :
    Option StateVariableFilter :=
  (truncToInt16 ((s._low : ℚ) + s._f * (s._band : ℚ))).bind fun low =>
  (truncToInt16 (s._scale * (input : ℚ) - (low : ℚ) - s._q * (s._band : ℚ))).bind fun high =>
  (truncToInt16 ((s._band : ℚ) + s._f * (high : ℚ))).map fun band =>
  { s with _low := constrain low (-32768) 32767,
           _band := constrain band (-32768) 32767,
           _high := constrain high (-32768) 32767 }

/-- The update formulas of `process` in the words of the specification: each value
saturated into `[-32768, 32767]` (truncated toward zero to an integer). -/
def saturateInt16 (q : ℚ) : Int :=
  constrain (if 0 ≤ q then Int.floor q else Int.ceil q) (-32768) 32767

/-! ## Further envelope and MIDI operations -/

/-- `ADSR::apply(uint8_t sample)`: the envelope after the call and the returned byte. -/
def ADSR.apply (intBits : Nat) (e : ADSR) (sample : Nat) : ADSR × Nat :=
  let r := e.nextSample intBits
  (r.1, ((sample * r.2) % 65536 / 256) % 256)

/-- `applyPitchBend(float baseFreq, uint16_t bendValue, float range)` over the reals. -/
noncomputable def applyPitchBend (baseFreq : ℝ) (bendValue : Nat) (range : ℝ) : ℝ :=
  let bendSemitones : ℝ := ((bendValue : ℝ) - 8192) / 8192 * range
  baseFreq * (2 : ℝ) ^ (bendSemitones / 12)

/-- `detuneByCents(float freq, int16_t cents)` over the reals. -/
noncomputable def detuneByCents (freq : ℝ) (cents : Int) : ℝ :=
  freq * (2 : ℝ) ^ ((cents : ℝ) / 1200)

/-! ## Ladder filter, cutoff setter and vibrato (`src/filter/filter.h`, `src/lfo/lfo.h`) -/

/-- `MoogFilter::tanh(float x)`, the fast approximation, over exact rationals. -/
def MoogFilter.tanh (x : ℚ) : ℚ :=
  if x < -3 then -1
  else if x > 3 then 1
  else
    let x2 := x * x
    x * (27 + x2) / (27 + 9 * x2)

/-- `OnePoleFilter::setCutoff(float ratio)`: the difference `1.0f - ratio` and its
product with 255 are each rounded to `float`, then converted to `uint8_t`. -/
def OnePoleFilter.setCutoff (f : OnePoleFilter) (ratio : ℚ) : Option OnePoleFilter :=
  if ratio ≥ 1 then some { f with _coefficient := 0 }
  else if ratio ≤ 0 then some { f with _coefficient := 255 }
  else (truncToUInt8 (roundF32 (roundF32 (1 - ratio) * 255))).map
    fun c => { f with _coefficient := c }

/-- Coefficient of `setCutoff` in the words of the specification: 0 from ratio 1 on,
255 up to ratio 0, and `floor ((1 - ratio) * 255)` in between. -/
def cutoffCoefficientSpec (ratio : ℚ) : Nat :=
  if 1 ≤ ratio then 0
  else if ratio ≤ 0 then 255
  else Int.toNat (Int.floor ((1 - ratio) * 255))

/-- The filter after `process` has been called on each input of the list in turn,
and the list of returned bytes. -/
def OnePoleFilter.processAll (f : OnePoleFilter) : List Nat → OnePoleFilter × List Nat
  | [] => (f, [])
  | x :: xs =>
    let r := f.process x
    let rest := OnePoleFilter.processAll r.1 xs
    (rest.1, r.2 :: rest.2)

/-- `LFO::modulateFrequency(float baseFreq, float maxDeviation)` over exact rationals. -/
def LFO.modulateFrequency (l : LFO) (baseFreq maxDeviation : ℚ) : LFO × ℚ :=
  let r := l.nextSampleFloat
  let mod := r.2 * maxDeviation
  (r.1, baseFreq * (1 + mod))

/-! ## `float` rounding -/

/-- The rounded value is the floor or the floor plus one. -/
theorem roundHalfEven_bounds (x : ℚ) :
    ⌊x⌋ ≤ roundHalfEven x ∧ roundHalfEven x ≤ ⌊x⌋ + 1 := by
  unfold roundHalfEven
  simp only
  split_ifs <;> omega

/-- An integer is its own rounding. -/
theorem roundHalfEven_intCast (n : ℤ) : roundHalfEven (n : ℚ) = n := by
  unfold roundHalfEven
  simp

/-- A rational less than one half away from an integer rounds to it. -/
theorem roundHalfEven_eq_of_lt (x : ℚ) (n : ℤ) (h1 : (n : ℚ) - 1 / 2 < x)
    (h2 : x < (n : ℚ) + 1 / 2) : roundHalfEven x = n := by
  by_cases hx : (n : ℚ) ≤ x
  · have hfl : ⌊x⌋ = n := by
      rw [Int.floor_eq_iff]
      exact ⟨hx, by linarith⟩
    unfold roundHalfEven
    simp only [hfl]
    rw [if_pos (by linarith)]
  · have hx' : x < (n : ℚ) := not_le.1 hx
    have hfl : ⌊x⌋ = n - 1 := by
      rw [Int.floor_eq_iff]
      push_cast
      exact ⟨by linarith, by linarith⟩
    unfold roundHalfEven
    simp only [hfl]
    push_cast
    rw [if_neg (by linarith), if_pos (by linarith)]
    ring

/-- Rounding to the nearest integer does not reverse the order. -/
theorem roundHalfEven_mono {x y : ℚ} (h : x ≤ y) : roundHalfEven x ≤ roundHalfEven y := by
  have hfl : ⌊x⌋ ≤ ⌊y⌋ := Int.floor_le_floor h
  rcases lt_or_eq_of_le hfl with hlt | heq
  · have h1 := (roundHalfEven_bounds x).2
    have h2 := (roundHalfEven_bounds y).1
    omega
  · unfold roundHalfEven
    simp only [heq]
    have hxy : x - (⌊y⌋ : ℚ) ≤ y - (⌊y⌋ : ℚ) := by linarith
    split_ifs <;> first | omega | (exfalso; linarith)

/-- The two powers of two that bound a binade, in units of its spacing. -/
theorem two_zpow_split (e : ℤ) :
    (2 : ℚ) ^ e = 8388608 * 2 ^ (e - 23) ∧ (2 : ℚ) ^ (e + 1) = 16777216 * 2 ^ (e - 23) := by
  have h23 : (2 : ℚ) ^ e = 2 ^ (23 : ℤ) * 2 ^ (e - 23) := by
    rw [← zpow_add₀ (by norm_num : (2 : ℚ) ≠ 0)]
    congr 1
    ring
  have h24 : (2 : ℚ) ^ (e + 1) = 2 ^ (24 : ℤ) * 2 ^ (e - 23) := by
    rw [← zpow_add₀ (by norm_num : (2 : ℚ) ≠ 0)]
    congr 1
    ring
  have e23 : (2 : ℚ) ^ (23 : ℤ) = 8388608 := by norm_num
  have e24 : (2 : ℚ) ^ (24 : ℤ) = 16777216 := by norm_num
  rw [h23, h24, e23, e24]
  exact ⟨rfl, rfl⟩

/-- The exponent chosen for a positive rational: it is at least -126, the rational
lies below the next power of two, and at or above the power itself unless the
exponent is -126. -/
theorem float_exponent_spec (a : ℚ) (ha : 0 < a) :
    -126 ≤ max (Int.log 2 a) (-126) ∧
    a < (2 : ℚ) ^ (max (Int.log 2 a) (-126) + 1) ∧
    ((2 : ℚ) ^ max (Int.log 2 a) (-126) ≤ a ∨ max (Int.log 2 a) (-126) = -126) := by
  have hlt : a < (2 : ℚ) ^ (Int.log 2 a + 1) := by
    have := Int.lt_zpow_succ_log_self (b := 2) (by norm_num) a
    simpa using this
  have hle : (2 : ℚ) ^ Int.log 2 a ≤ a := by
    have := Int.zpow_log_le_self (b := 2) (r := a) (by norm_num) ha
    simpa using this
  refine ⟨le_max_right _ _, ?_, ?_⟩
  · exact lt_of_lt_of_le hlt
      (zpow_le_zpow_right₀ (by norm_num) (by have := le_max_left (Int.log 2 a) (-126); omega))
  · rcases le_total (Int.log 2 a) (-126) with h | h
    · right; exact max_eq_right h
    · left; rw [max_eq_left h]; exact hle

/-- The exponent is determined by the binade that holds the rational. -/
theorem float_exponent_eq (a : ℚ) (e : ℤ) (ha : 0 < a) (he : -126 ≤ e)
    (h2 : a < (2 : ℚ) ^ (e + 1)) (h1 : (2 : ℚ) ^ e ≤ a ∨ e = -126) :
    max (Int.log 2 a) (-126) = e := by
  have hlog : Int.log 2 a < e + 1 := by
    have := (Int.lt_zpow_iff_log_lt (b := 2) (by norm_num) (x := e + 1) ha).1
      (by simpa using h2)
    exact this
  rcases h1 with h1 | h1
  · have hge : e ≤ Int.log 2 a := by
      have := (Int.zpow_le_iff_le_log (b := 2) (by norm_num) (x := e) ha).1
        (by simpa using h1)
      exact this
    have : Int.log 2 a = e := by omega
    rw [this]
    exact max_eq_left he
  · rw [h1] at hlog ⊢
    exact max_eq_right (by omega)

/-- Zero rounds to zero. -/
theorem roundF32Mag_zero : roundF32Mag 0 = 0 := by
  unfold roundF32Mag
  simp only [zero_div]
  have := roundHalfEven_intCast 0
  simp only [Int.cast_zero] at this
  rw [this]
  simp

/-- The rounded magnitude is not negative. -/
theorem roundF32Mag_nonneg (a : ℚ) (ha : 0 ≤ a) : 0 ≤ roundF32Mag a := by
  unfold roundF32Mag
  simp only
  have hpos : (0 : ℚ) < 2 ^ (max (Int.log 2 a) (-126) - 23) := by positivity
  have hfl : 0 ≤ roundHalfEven (a / 2 ^ (max (Int.log 2 a) (-126) - 23)) := by
    have h1 := (roundHalfEven_bounds (a / 2 ^ (max (Int.log 2 a) (-126) - 23))).1
    have h2 : 0 ≤ ⌊a / 2 ^ (max (Int.log 2 a) (-126) - 23)⌋ :=
      Int.floor_nonneg.2 (div_nonneg ha (le_of_lt hpos))
    omega
  exact mul_nonneg (by exact_mod_cast hfl) (le_of_lt hpos)

/-- Rounding in a known binade. -/
theorem roundF32Mag_eq (a : ℚ) (e : ℤ) (ha : 0 < a) (he : -126 ≤ e)
    (h2 : a < (2 : ℚ) ^ (e + 1)) (h1 : (2 : ℚ) ^ e ≤ a ∨ e = -126) :
    roundF32Mag a = (roundHalfEven (a / 2 ^ (e - 23)) : ℚ) * 2 ^ (e - 23) := by
  unfold roundF32Mag
  simp only [float_exponent_eq a e ha he h2 h1]

/-- Rounding of magnitudes does not reverse the order. -/
theorem roundF32Mag_mono (a b : ℚ) (ha : 0 ≤ a) (hab : a ≤ b) :
    roundF32Mag a ≤ roundF32Mag b := by
  rcases eq_or_lt_of_le ha with h0 | hpos
  · rw [← h0, roundF32Mag_zero]
    exact roundF32Mag_nonneg b (le_trans ha hab)
  · have hbpos : 0 < b := lt_of_lt_of_le hpos hab
    obtain ⟨_, ha2, _⟩ := float_exponent_spec a hpos
    obtain ⟨_, _, hb1⟩ := float_exponent_spec b hbpos
    have hlog : Int.log 2 a ≤ Int.log 2 b := Int.log_mono_right hpos hab
    have hexp : max (Int.log 2 a) (-126) ≤ max (Int.log 2 b) (-126) :=
      max_le_max hlog (le_refl _)
    unfold roundF32Mag
    simp only
    generalize max (Int.log 2 a) (-126) = ea at *
    generalize max (Int.log 2 b) (-126) = eb at *
    have hua : (0 : ℚ) < 2 ^ (ea - 23) := by positivity
    have hub : (0 : ℚ) < 2 ^ (eb - 23) := by positivity
    rcases eq_or_lt_of_le hexp with heq | hlt
    · rw [← heq]
      have hdiv : a / 2 ^ (ea - 23) ≤ b / 2 ^ (ea - 23) :=
        div_le_div_of_nonneg_right hab (le_of_lt hua)
      have := roundHalfEven_mono hdiv
      exact mul_le_mul_of_nonneg_right (by exact_mod_cast this) (le_of_lt hua)
    · have hb1' : (2 : ℚ) ^ eb ≤ b := by
        rcases hb1 with h | h
        · exact h
        · omega
      have hsa := (two_zpow_split ea).2
      have hsb := (two_zpow_split eb).1
      have hstep : (2 : ℚ) ^ (ea + 1) ≤ 2 ^ eb :=
        zpow_le_zpow_right₀ (by norm_num) (by omega)
      have hA : (roundHalfEven (a / 2 ^ (ea - 23)) : ℚ) ≤ 16777216 := by
        have hle : a / 2 ^ (ea - 23) ≤ ((16777216 : ℤ) : ℚ) := by
          rw [div_le_iff₀ hua]
          push_cast
          linarith
        have := roundHalfEven_mono hle
        rw [roundHalfEven_intCast] at this
        exact_mod_cast this
      have hB : (8388608 : ℚ) ≤ (roundHalfEven (b / 2 ^ (eb - 23)) : ℚ) := by
        have hle : ((8388608 : ℤ) : ℚ) ≤ b / 2 ^ (eb - 23) := by
          rw [le_div_iff₀ hub]
          push_cast
          linarith
        have := roundHalfEven_mono hle
        rw [roundHalfEven_intCast] at this
        exact_mod_cast this
      calc (roundHalfEven (a / 2 ^ (ea - 23)) : ℚ) * 2 ^ (ea - 23)
          ≤ 16777216 * 2 ^ (ea - 23) := mul_le_mul_of_nonneg_right hA (le_of_lt hua)
        _ = 2 ^ (ea + 1) := hsa.symm
        _ ≤ 2 ^ eb := hstep
        _ = 8388608 * 2 ^ (eb - 23) := hsb
        _ ≤ (roundHalfEven (b / 2 ^ (eb - 23)) : ℚ) * 2 ^ (eb - 23) :=
          mul_le_mul_of_nonneg_right hB (le_of_lt hub)

/-- A number `m * 2 ^ k` with a mantissa below `2 ^ 24` and an exponent of at least
-149 is a `float`: rounding leaves it unchanged. -/
theorem roundF32Mag_repr (m : ℕ) (k : ℤ) (hm : m < 16777216) (hk : -149 ≤ k) :
    roundF32Mag ((m : ℚ) * 2 ^ k) = (m : ℚ) * 2 ^ k := by
  rcases Nat.eq_zero_or_pos m with h0 | hpos
  · rw [h0]
    simp only [Nat.cast_zero, zero_mul]
    exact roundF32Mag_zero
  · have hk0 : (0 : ℚ) < 2 ^ k := by positivity
    have ha : (0 : ℚ) < (m : ℚ) * 2 ^ k := mul_pos (by exact_mod_cast hpos) hk0
    obtain ⟨he, _, _⟩ := float_exponent_spec ((m : ℚ) * 2 ^ k) ha
    have hlt : (m : ℚ) * 2 ^ k < 2 ^ (k + 24) := by
      have : (2 : ℚ) ^ (k + 24) = 2 ^ (24 : ℤ) * 2 ^ k := by
        rw [← zpow_add₀ (by norm_num : (2 : ℚ) ≠ 0)]
        congr 1
        ring
      rw [this]
      have e24 : (2 : ℚ) ^ (24 : ℤ) = 16777216 := by norm_num
      rw [e24]
      exact mul_lt_mul_of_pos_right (by exact_mod_cast hm) hk0
    have hlog : Int.log 2 ((m : ℚ) * 2 ^ k) < k + 24 :=
      (Int.lt_zpow_iff_log_lt (b := 2) (by norm_num) (x := k + 24) ha).1 (by simpa using hlt)
    have hexp : max (Int.log 2 ((m : ℚ) * 2 ^ k)) (-126) - 23 ≤ k := by
      have := max_le (show Int.log 2 ((m : ℚ) * 2 ^ k) ≤ k + 23 by omega)
        (show (-126 : ℤ) ≤ k + 23 by omega)
      omega
    unfold roundF32Mag
    simp only
    generalize max (Int.log 2 ((m : ℚ) * 2 ^ k)) (-126) - 23 = s at hexp
    obtain ⟨j, hj⟩ : ∃ j : ℕ, k = s + (j : ℤ) := ⟨(k - s).toNat, by omega⟩
    have hs0 : (2 : ℚ) ^ s ≠ 0 := by positivity
    have hquot : (m : ℚ) * 2 ^ k / 2 ^ s = (((m * 2 ^ j : ℕ) : ℤ) : ℚ) := by
      rw [hj, zpow_add₀ (by norm_num : (2 : ℚ) ≠ 0), zpow_natCast]
      push_cast
      field_simp
      ring
    rw [hquot, roundHalfEven_intCast, ← hquot]
    field_simp

/-- Rounding does not reverse the order. -/
theorem roundF32_mono {x y : ℚ} (h : x ≤ y) : roundF32 x ≤ roundF32 y := by
  unfold roundF32
  by_cases hx : 0 ≤ x
  · rw [if_pos hx, if_pos (le_trans hx h)]
    exact roundF32Mag_mono x y hx h
  · have hx' : x < 0 := not_le.1 hx
    rw [if_neg hx]
    have hnx := roundF32Mag_nonneg (-x) (by linarith)
    by_cases hy : 0 ≤ y
    · rw [if_pos hy]
      have := roundF32Mag_nonneg y hy
      linarith
    · have hy' : y < 0 := not_le.1 hy
      rw [if_neg hy]
      have := roundF32Mag_mono (-y) (-x) (by linarith) (by linarith)
      linarith

/-- A float `m * 2 ^ k` is its own rounding. -/
theorem roundF32_repr (m : ℕ) (k : ℤ) (hm : m < 16777216) (hk : -149 ≤ k) :
    roundF32 ((m : ℚ) * 2 ^ k) = (m : ℚ) * 2 ^ k := by
  have h0 : (0 : ℚ) ≤ (m : ℚ) * 2 ^ k := by positivity
  unfold roundF32
  rw [if_pos h0]
  exact roundF32Mag_repr m k hm hk

/-- A rational equal to a float `m * 2 ^ k` is its own rounding. -/
theorem roundF32_of_eq (x : ℚ) (m : ℕ) (k : ℤ) (hm : m < 16777216) (hk : -149 ≤ k)
    (hx : x = (m : ℚ) * 2 ^ k) : roundF32 x = x := by
  rw [hx]
  exact roundF32_repr m k hm hk

/-- Every natural number up to `2 ^ 24` is a float. -/
theorem roundF32_natCast (n : ℕ) (hn : n ≤ 16777216) : roundF32 (n : ℚ) = (n : ℚ) := by
  rcases Nat.lt_or_ge n 16777216 with h | h
  · exact roundF32_of_eq (n : ℚ) n 0 h (by norm_num) (by simp)
  · have : n = 16777216 := by omega
    rw [this]
    exact roundF32_of_eq _ 1 24 (by norm_num) (by norm_num) (by norm_num)

/-- Rounding of a non-negative rational gives a non-negative float. -/
theorem roundF32_nonneg (x : ℚ) (h : 0 ≤ x) : 0 ≤ roundF32 x := by
  unfold roundF32
  rw [if_pos h]
  exact roundF32Mag_nonneg x h

/-- Rounding in a known binade: a positive rational in `[2 ^ e, 2 ^ (e + 1))`, given
in units `u = 2 ^ (e - 23)`, less than half a unit away from `n * u`, rounds to
`n * u`. -/
theorem roundF32_of_near (x u : ℚ) (e n : ℤ) (he : -126 ≤ e) (hu : u = 2 ^ (e - 23))
    (h1 : 8388608 * u ≤ x) (h2 : x < 16777216 * u)
    (h3 : ((n : ℚ) - 1 / 2) * u < x) (h4 : x < ((n : ℚ) + 1 / 2) * u) :
    roundF32 x = (n : ℚ) * u := by
  have hupos : 0 < u := by rw [hu]; positivity
  have hx : 0 < x := lt_of_lt_of_le (by positivity) h1
  obtain ⟨s1, s2⟩ := two_zpow_split e
  unfold roundF32
  rw [if_pos (le_of_lt hx),
    roundF32Mag_eq x e hx he (by rw [s2, ← hu]; exact h2) (Or.inl (by rw [s1, ← hu]; exact h1)),
    ← hu, roundHalfEven_eq_of_lt (x / u) n (by rw [lt_div_iff₀ hupos]; exact h3)
      (by rw [div_lt_iff₀ hupos]; exact h4)]

/-- The floor of a rounded non-negative rational below `2 ^ 24` is the floor of the
rational or one more. -/
theorem floor_roundF32_bounds (q : ℚ) (h0 : 0 ≤ q) (h : q < 16777216) :
    ⌊q⌋ ≤ ⌊roundF32 q⌋ ∧ ⌊roundF32 q⌋ ≤ ⌊q⌋ + 1 := by
  have hfl0 : 0 ≤ ⌊q⌋ := Int.floor_nonneg.2 h0
  have hfl1 : ⌊q⌋ < 16777216 := Int.floor_lt.2 (by exact_mod_cast h)
  obtain ⟨n, hn⟩ : ∃ n : ℕ, ⌊q⌋ = (n : ℤ) := ⟨⌊q⌋.toNat, by omega⟩
  have hlo : ((n : ℕ) : ℚ) ≤ q := by
    have := Int.floor_le q
    rw [hn] at this
    exact_mod_cast this
  have hhi : q ≤ ((n + 1 : ℕ) : ℚ) := by
    have := Int.lt_floor_add_one q
    rw [hn] at this
    push_cast at this ⊢
    linarith
  have h1 := roundF32_mono hlo
  have h2 := roundF32_mono hhi
  rw [roundF32_natCast n (by omega)] at h1
  rw [roundF32_natCast (n + 1) (by omega)] at h2
  rw [hn]
  constructor
  · exact Int.le_floor.2 (by exact_mod_cast h1)
  · have : ⌊roundF32 q⌋ ≤ ⌊((n + 1 : ℕ) : ℚ)⌋ := Int.floor_le_floor h2
    rw [Int.floor_natCast] at this
    push_cast at this
    exact this

/-- A rational between a natural number `n` and `n + 1/2` rounds to a float with
floor `n`. -/
theorem floor_roundF32_of_le_half (q : ℚ) (n : ℕ) (hn : n < 8388608) (h1 : (n : ℚ) ≤ q)
    (h2 : q ≤ (n : ℚ) + 1 / 2) : ⌊roundF32 q⌋ = (n : ℤ) := by
  have hlo := roundF32_mono h1
  have hhi := roundF32_mono h2
  rw [roundF32_natCast n (by omega)] at hlo
  rw [roundF32_of_eq ((n : ℚ) + 1 / 2) (2 * n + 1) (-1) (by omega) (by norm_num)
    (by push_cast; rw [zpow_neg_one]; ring)] at hhi
  rw [Int.floor_eq_iff]
  constructor
  · exact_mod_cast hlo
  · push_cast
    linarith

/-- A rational between a natural number `n` and a float below `n + 1` rounds to a
float with floor `n`. -/
theorem floor_roundF32_of_bracket (q r : ℚ) (n : ℕ) (hn : n ≤ 16777216) (h1 : (n : ℚ) ≤ q)
    (h2 : q ≤ r) (hr : roundF32 r = r) (hr1 : r < (n : ℚ) + 1) : ⌊roundF32 q⌋ = (n : ℤ) := by
  have hlo := roundF32_mono h1
  have hhi := roundF32_mono h2
  rw [roundF32_natCast n hn] at hlo
  rw [hr] at hhi
  rw [Int.floor_eq_iff]
  constructor
  · exact_mod_cast hlo
  · push_cast
    linarith

/-- The float of a positive natural number is at least 1. -/
theorem one_le_roundF32_natCast (n : ℕ) (hn : 0 < n) : 1 ≤ roundF32 (n : ℚ) := by
  have h1 : ((1 : ℕ) : ℚ) ≤ (n : ℚ) := by exact_mod_cast hn
  have := roundF32_mono h1
  rw [roundF32_natCast 1 (by norm_num)] at this
  exact_mod_cast this

/-- A value strictly between -1 and 256 converts to `uint8_t`; for a non-negative
value the result is its floor. -/
theorem truncToUInt8_of_nonneg (q : ℚ) (h0 : 0 ≤ q) (h1 : q < 256) :
    truncToUInt8 q = some (Int.toNat (Int.floor q)) := by
  unfold truncToUInt8
  rw [if_pos ⟨by linarith, h1⟩, abs_of_nonneg h0]

/-! ## Envelope: attack stage -/

/-- One attack tick: the 16-bit sum wraps, and only the wrapped value 65535 moves on to decay. -/
theorem ADSR.tick_attack (w : Nat) (e : ADSR) (hs : e._state = EnvelopeState.ATTACK) :
    e.tick w =
      if (e._level + e._attackRate) % 65536 = 65535 then
        { e with _level := 65535, _state := EnvelopeState.DECAY }
      else { e with _level := (e._level + e._attackRate) % 65536 } := by
  have hlt : (e._level + e._attackRate) % 65536 < 65536 := Nat.mod_lt _ (by norm_num)
  unfold ADSR.tick ADSR.nextSample
  simp only [hs]
  by_cases h : (e._level + e._attackRate) % 65536 = 65535
  · simp [h]
  · have h2 : ¬ (e._level + e._attackRate) % 65536 ≥ 65535 := by omega
    simp [h, h2]

/-- While the running sum stays below full scale the attack is a plain ramp. -/
theorem ADSR.ticks_attack_ramp (w : Nat) (e : ADSR) (hs : e._state = EnvelopeState.ATTACK)
    (n : Nat) (h : e._level + n * e._attackRate < 65535) :
    ADSR.ticks w n e = { e with _level := e._level + n * e._attackRate } := by
  induction n with
  | zero => simp [ADSR.ticks]
  | succ n ih =>
    have hn : e._level + n * e._attackRate < 65535 := by
      have : n * e._attackRate ≤ (n + 1) * e._attackRate :=
        Nat.mul_le_mul_right _ (Nat.le_succ n)
      omega
    have hstep : (n + 1) * e._attackRate = n * e._attackRate + e._attackRate := by ring
    rw [ADSR.ticks, ih hn,
      ADSR.tick_attack w { e with _level := e._level + n * e._attackRate } hs]
    have hmod : (e._level + n * e._attackRate + e._attackRate) % 65536
        = e._level + (n + 1) * e._attackRate := by
      rw [Nat.mod_eq_of_lt (by omega)]; omega
    have hne : e._level + (n + 1) * e._attackRate ≠ 65535 := by omega
    simp [hmod, hne]

/-- With an even attack rate and an even level the envelope stays in attack for ever. -/
theorem ADSR.ticks_attack_even (w : Nat) (e : ADSR) (hs : e._state = EnvelopeState.ATTACK)
    (hr : e._attackRate % 2 = 0) (hl : e._level % 2 = 0) (n : Nat) :
    (ADSR.ticks w n e)._state = EnvelopeState.ATTACK ∧
      (ADSR.ticks w n e)._attackRate = e._attackRate ∧
      (ADSR.ticks w n e)._level % 2 = 0 := by
  induction n with
  | zero => exact ⟨hs, rfl, hl⟩
  | succ n ih =>
    obtain ⟨h1, h2, h3⟩ := ih
    rw [ADSR.ticks, ADSR.tick_attack w _ h1]
    have hne : ((ADSR.ticks w n e)._level + (ADSR.ticks w n e)._attackRate) % 65536 ≠ 65535 := by
      omega
    rw [if_neg hne]
    refine ⟨h1, h2, ?_⟩
    show ((ADSR.ticks w n e)._level + (ADSR.ticks w n e)._attackRate) % 65536 % 2 = 0
    omega


/-- When the attack rate divides 65535 the ramp from level 0 lands exactly on full
scale: decay is entered after `65535 / rate` ticks with level 65535, not earlier. -/
theorem ADSR.attack_reaches_decay_of_dvd (w : Nat) (e : ADSR)
    (hs : e._state = EnvelopeState.ATTACK) (hl : e._level = 0)
    (hr : e._attackRate ∣ 65535) :
    (ADSR.ticks w (65535 / e._attackRate) e)._state = EnvelopeState.DECAY ∧
    (ADSR.ticks w (65535 / e._attackRate) e)._level = 65535 ∧
    ∀ k, k < 65535 / e._attackRate →
      (ADSR.ticks w k e)._state = EnvelopeState.ATTACK := by
  have hmul : 65535 / e._attackRate * e._attackRate = 65535 := Nat.div_mul_cancel hr
  have hrpos : 0 < e._attackRate := Nat.pos_of_dvd_of_pos hr (by norm_num)
  have hqpos : 0 < 65535 / e._attackRate := Nat.div_pos (Nat.le_of_dvd (by norm_num) hr) hrpos
  obtain ⟨m, hm⟩ : ∃ m, 65535 / e._attackRate = m + 1 :=
    ⟨65535 / e._attackRate - 1, by omega⟩
  rw [hm] at hmul ⊢
  have e2 : (m + 1) * e._attackRate = m * e._attackRate + e._attackRate := by ring
  rw [e2] at hmul
  have hramp : ∀ k, k ≤ m →
      ADSR.ticks w k e = { e with _level := e._level + k * e._attackRate } := by
    intro k hk
    have : k * e._attackRate ≤ m * e._attackRate := Nat.mul_le_mul_right _ hk
    exact ADSR.ticks_attack_ramp w e hs k (by omega)
  have hlast : ADSR.ticks w (m + 1) e
      = { e with _level := 65535, _state := EnvelopeState.DECAY } := by
    rw [ADSR.ticks, hramp m (le_refl m),
      ADSR.tick_attack w { e with _level := e._level + m * e._attackRate } hs]
    have hsum : (e._level + m * e._attackRate + e._attackRate) % 65536 = 65535 := by
      rw [hl, Nat.zero_add, hmul]
    simp [hsum]
  refine ⟨by rw [hlast], by rw [hlast], ?_⟩
  intro k hk
  rw [hramp k (by omega)]
  exact hs

/-- C1 (code defect): the default envelope (44100 Hz, attack 10 ms, rate 148) never
leaves attack after `noteOn()`: the level wraps at 65536 and, being even, never
equals 65535.  The specification expects decay within `ceil (65535 / 148) = 443` ticks. -/
theorem default_envelope_attack_never_ends :
    ∃ e : ADSR, ADSR.new 44100 = some e ∧ e._state = EnvelopeState.IDLE ∧ e._level = 0 ∧
      e._attackRate = 148 ∧ ceilDiv 65535 e._attackRate = 443 ∧
      ∀ w n : Nat, (ADSR.ticks w n e.noteOn)._state = EnvelopeState.ATTACK ∧
        (ADSR.ticks w n e.noteOn)._level ≠ 65535 := by
  refine ⟨⟨44100, EnvelopeState.IDLE, 0, 148, 29, 180, 14, 0, 10, 50, 100⟩,
    rfl, rfl, rfl, rfl, by decide, ?_⟩
  intro w n
  have h := ADSR.ticks_attack_even w
    (ADSR.noteOn ⟨44100, EnvelopeState.IDLE, 0, 148, 29, 180, 14, 0, 10, 50, 100⟩)
    rfl (by decide) (by decide) n
  refine ⟨h.1, ?_⟩
  have h3 := h.2.2
  omega

/-- C2 (code defect): 442 ticks after `noteOn()` the default envelope is in attack
with level 65416 and rate 148, so the mathematical sum 65564 exceeds 65535; the
next tick stores the wrapped sum 28, stays in attack and returns 0, where the
specification expects level 65535, state decay and the byte 255. -/
theorem default_envelope_attack_wraps :
    ∃ e : ADSR, ADSR.new 44100 = some e ∧ ∀ w : Nat,
      (ADSR.ticks w 442 e.noteOn)._state = EnvelopeState.ATTACK ∧
      (ADSR.ticks w 442 e.noteOn)._level = 65416 ∧
      (ADSR.ticks w 442 e.noteOn)._attackRate = 148 ∧
      65535 ≤ (ADSR.ticks w 442 e.noteOn)._level + (ADSR.ticks w 442 e.noteOn)._attackRate ∧
      ((ADSR.ticks w 442 e.noteOn).nextSample w).1._level = 28 ∧
      ((ADSR.ticks w 442 e.noteOn).nextSample w).1._state = EnvelopeState.ATTACK ∧
      ((ADSR.ticks w 442 e.noteOn).nextSample w).2 = 0 := by
  refine ⟨⟨44100, EnvelopeState.IDLE, 0, 148, 29, 180, 14, 0, 10, 50, 100⟩, rfl, ?_⟩
  intro w
  have h := ADSR.ticks_attack_ramp w
    (ADSR.noteOn ⟨44100, EnvelopeState.IDLE, 0, 148, 29, 180, 14, 0, 10, 50, 100⟩)
    rfl 442 (by decide)
  rw [h]
  refine ⟨rfl, rfl, rfl, by decide, ?_, ?_, ?_⟩ <;> simp [ADSR.nextSample, ADSR.noteOn]


/-! ## Envelope: release stage -/

/-- One release tick. -/
theorem ADSR.tick_release (w : Nat) (e : ADSR) (hs : e._state = EnvelopeState.RELEASE) :
    e.tick w =
      if e._level > e._releaseRate then
        { e with _level := (e._level + 65536 - e._releaseRate) % 65536 }
      else { e with _level := 0, _state := EnvelopeState.IDLE } := by
  unfold ADSR.tick ADSR.nextSample
  simp only [hs]

/-- While more than `n` release steps fit under the level, release is a plain ramp down. -/
theorem ADSR.ticks_release_ramp (w : Nat) (e : ADSR) (hs : e._state = EnvelopeState.RELEASE)
    (hl : e._level < 65536) (n : Nat) (h : n * e._releaseRate < e._level) :
    ADSR.ticks w n e = { e with _level := e._level - n * e._releaseRate } := by
  induction n with
  | zero => simp [ADSR.ticks]
  | succ n ih =>
    have hstep : (n + 1) * e._releaseRate = n * e._releaseRate + e._releaseRate := by ring
    have hn : n * e._releaseRate < e._level := by omega
    rw [ADSR.ticks, ih hn,
      ADSR.tick_release w { e with _level := e._level - n * e._releaseRate } hs]
    have hgt : e._level - n * e._releaseRate > e._releaseRate := by omega
    have hmod : (e._level - n * e._releaseRate + 65536 - e._releaseRate) % 65536
        = e._level - (n + 1) * e._releaseRate := by
      rw [hstep]
      have : e._level - n * e._releaseRate + 65536 - e._releaseRate
          = (e._level - (n * e._releaseRate + e._releaseRate)) + 65536 := by omega
      rw [this, Nat.add_mod_right, Nat.mod_eq_of_lt (by omega)]
    simp [hgt, hmod]

/-- Bounds that characterise `ceilDiv a r` for a positive step. -/
theorem ceilDiv_bounds (a r : Nat) (ha : 0 < a) (hr : 0 < r) :
    0 < ceilDiv a r ∧ (ceilDiv a r - 1) * r < a ∧ a ≤ ceilDiv a r * r := by
  unfold ceilDiv
  have h1 := Nat.div_add_mod (a + r - 1) r
  have h2 := Nat.mod_lt (a + r - 1) hr
  have hpos : 0 < (a + r - 1) / r := Nat.div_pos (by omega) hr
  obtain ⟨m, hm⟩ : ∃ m, (a + r - 1) / r = m + 1 := ⟨(a + r - 1) / r - 1, by omega⟩
  rw [hm] at h1 ⊢
  have e1 : r * (m + 1) = m * r + r := by ring
  have e2 : (m + 1) * r = m * r + r := by ring
  have e3 : (m + 1 - 1) * r = m * r := by simp
  rw [e1] at h1
  rw [e2, e3]
  refine ⟨by omega, by omega, by omega⟩

/-- C4 (counterexample): with sustain level 0 the stated tick count is
`ceil (0 / 1) = 0`, but right after `noteOff()` the envelope is in release, not idle. -/
theorem release_from_zero_sustain_not_idle_at_once :
    ceilDiv (0 * 256) 1 = 0 ∧
    ¬ ((ADSR.ticks 16 (ceilDiv (0 * 256) 1)
        (ADSR.noteOff ⟨44100, EnvelopeState.SUSTAIN, 0 * 256, 148, 29, 0, 1, 0, 10, 50, 1000⟩))._state
          = EnvelopeState.IDLE) := by
  decide

/-- C4 (amended): from sustain with level `sustainLevel * 256` and a release rate of at
least 1, after `noteOff()` the envelope is idle with level 0 after exactly
`max 1 (ceil (sustainLevel * 256 / releaseRate))` ticks, and in release before that. -/
theorem release_reaches_idle (w : Nat) (e : ADSR)
    (hs : e._state = EnvelopeState.SUSTAIN) (hS : e._sustainLevel ≤ 255)
    (hl : e._level = e._sustainLevel * 256) (hr : 1 ≤ e._releaseRate) :
    (ADSR.ticks w (max 1 (ceilDiv (e._sustainLevel * 256) e._releaseRate)) e.noteOff)._state
        = EnvelopeState.IDLE ∧
    (ADSR.ticks w (max 1 (ceilDiv (e._sustainLevel * 256) e._releaseRate)) e.noteOff)._level = 0 ∧
    ∀ k, k < max 1 (ceilDiv (e._sustainLevel * 256) e._releaseRate) →
      (ADSR.ticks w k e.noteOff)._state = EnvelopeState.RELEASE := by
  have hoff : e.noteOff = { e with _state := EnvelopeState.RELEASE, _releaseStartLevel := e._level } := by
    simp [ADSR.noteOff, hs]
  have hst : e.noteOff._state = EnvelopeState.RELEASE := by rw [hoff]
  have hlv : e.noteOff._level = e._sustainLevel * 256 := by rw [hoff]; exact hl
  have hrr : e.noteOff._releaseRate = e._releaseRate := by rw [hoff]
  have hlt : e.noteOff._level < 65536 := by omega
  -- every tick count `k` with `k * r < level` is still on the ramp
  have hramp : ∀ k, k * e._releaseRate < e._sustainLevel * 256 →
      ADSR.ticks w k e.noteOff
        = { e.noteOff with _level := e.noteOff._level - k * e.noteOff._releaseRate } := by
    intro k hk
    exact ADSR.ticks_release_ramp w e.noteOff hst hlt k (by rw [hrr, hlv]; exact hk)
  rcases Nat.eq_zero_or_pos (e._sustainLevel * 256) with h0 | hpos
  · -- level 0: one tick is needed to leave release
    have hc : ceilDiv (e._sustainLevel * 256) e._releaseRate = 0 := by
      unfold ceilDiv
      rw [h0]
      exact Nat.div_eq_of_lt (by omega)
    have hmax : max 1 (ceilDiv (e._sustainLevel * 256) e._releaseRate) = 1 := by
      rw [hc]; rfl
    rw [hmax]
    have hle : ¬ e.noteOff._level > e.noteOff._releaseRate := by omega
    have h1 : ADSR.ticks w 1 e.noteOff
        = { e.noteOff with _level := 0, _state := EnvelopeState.IDLE } := by
      show (ADSR.ticks w 0 e.noteOff).tick w = _
      rw [ADSR.ticks, ADSR.tick_release w _ hst, if_neg hle]
    refine ⟨by rw [h1], by rw [h1], ?_⟩
    intro k hk
    have hk0 : k = 0 := by omega
    subst hk0
    exact hst
  · obtain ⟨hc0, hc1, hc2⟩ := ceilDiv_bounds _ _ hpos hr
    have hmax : max 1 (ceilDiv (e._sustainLevel * 256) e._releaseRate)
        = ceilDiv (e._sustainLevel * 256) e._releaseRate := max_eq_right hc0
    rw [hmax]
    obtain ⟨m, hm⟩ : ∃ m, ceilDiv (e._sustainLevel * 256) e._releaseRate = m + 1 :=
      ⟨ceilDiv (e._sustainLevel * 256) e._releaseRate - 1, by omega⟩
    rw [hm] at hc1 hc2 ⊢
    have e3 : (m + 1 - 1) * e._releaseRate = m * e._releaseRate := by simp
    have e2 : (m + 1) * e._releaseRate = m * e._releaseRate + e._releaseRate := by ring
    rw [e3] at hc1
    rw [e2] at hc2
    have hlast : ADSR.ticks w (m + 1) e.noteOff
        = { e.noteOff with _level := 0, _state := EnvelopeState.IDLE } := by
      rw [ADSR.ticks, hramp m hc1,
        ADSR.tick_release w
          { e.noteOff with _level := e.noteOff._level - m * e.noteOff._releaseRate } hst]
      have hle : ¬ (e.noteOff._level - m * e.noteOff._releaseRate > e.noteOff._releaseRate) := by
        rw [hrr, hlv]; omega
      simp [hle]
    refine ⟨by rw [hlast], by rw [hlast], ?_⟩
    intro k hk
    have hkm : k * e._releaseRate ≤ m * e._releaseRate :=
      Nat.mul_le_mul_right _ (by omega)
    rw [hramp k (by omega)]
    exact hst

/-- C4 (witness): the default release rate 14 and sustain level 180. -/
theorem release_reaches_idle_witness :
    (ADSR.ticks 16 (max 1 (ceilDiv (180 * 256) 14))
        (ADSR.noteOff ⟨44100, EnvelopeState.SUSTAIN, 180 * 256, 148, 29, 180, 14, 0, 10, 50, 100⟩))._state
      = EnvelopeState.IDLE ∧
    (ADSR.ticks 16 (max 1 (ceilDiv (180 * 256) 14))
        (ADSR.noteOff ⟨44100, EnvelopeState.SUSTAIN, 180 * 256, 148, 29, 180, 14, 0, 10, 50, 100⟩))._level
      = 0 ∧
    ∀ k, k < max 1 (ceilDiv (180 * 256) 14) →
      (ADSR.ticks 16 k
        (ADSR.noteOff ⟨44100, EnvelopeState.SUSTAIN, 180 * 256, 148, 29, 180, 14, 0, 10, 50, 100⟩))._state
        = EnvelopeState.RELEASE :=
  release_reaches_idle 16 ⟨44100, EnvelopeState.SUSTAIN, 180 * 256, 148, 29, 180, 14, 0, 10, 50, 100⟩
    rfl (by decide) rfl (by decide)


/-! ## Envelope: rate setters -/

/-- When the sample count `ms * sampleRate / 1000` is at least 1 and the product fits
32 bits, `setAttack` stores the rate of the specification's formula. -/
theorem ADSR.setAttack_eq_rateSpec (e : ADSR) (ms : Nat) (h0 : ms ≠ 0)
    (h1 : 1000 ≤ ms * e._sampleRate) (h2 : ms * e._sampleRate < 4294967296) :
    e.setAttack ms
      = some { e with _attackMs := ms, _attackRate := rateSpec ms e._sampleRate } := by
  have hs : 1 ≤ ms * e._sampleRate / 1000 := (Nat.one_le_div_iff (by norm_num)).2 h1
  have hq : 65535 / (ms * e._sampleRate / 1000) < 65536 :=
    Nat.lt_of_le_of_lt (Nat.div_le_self _ _) (by norm_num)
  unfold ADSR.setAttack rateSpec
  rw [if_neg h0]
  simp only [Nat.mod_eq_of_lt h2, max_eq_right hs, Nat.mod_eq_of_lt hq]
  rw [if_neg (by omega)]

/-- The three setters compute their rate in the same way. -/
theorem ADSR.setters_same_rate (e : ADSR) (ms : Nat) :
    (e.setAttack ms).map ADSR._attackRate = (e.setDecay ms).map ADSR._decayRate ∧
    (e.setAttack ms).map ADSR._attackRate = (e.setRelease ms).map ADSR._releaseRate := by
  unfold ADSR.setAttack ADSR.setDecay ADSR.setRelease
  by_cases h0 : ms = 0
  · simp [h0]
  · by_cases h1 : ms * e._sampleRate % 4294967296 / 1000 = 0
    · simp only [if_neg h0, h1]; simp
    · simp only [if_neg h0, h1]; simp

/-- C5 (code defect): at sample rate 500 the envelope constructs, but a duration of
1 ms gives `samples = 1 * 500 / 1000 = 0` and each setter divides 65535 by zero; the
specification's formula gives 65535 there.  With a sample rate below 100 already
the constructor's `setAttack(10)` divides by zero. -/
theorem setters_divide_by_zero :
    ∃ e : ADSR, ADSR.new 500 = some e ∧ e._sampleRate = 500 ∧
      e.setAttack 1 = none ∧ e.setDecay 1 = none ∧ e.setRelease 1 = none ∧
      rateSpec 1 500 = 65535 ∧ ADSR.new 99 = none := by
  refine ⟨⟨500, EnvelopeState.IDLE, 0, 13107, 2621, 180, 1310, 0, 10, 50, 100⟩, ?_⟩
  decide

/-! ## Envelope: decay stage -/

/-- One decay tick where `int` is wider than 16 bits: the comparison uses the exact sum. -/
theorem ADSR.tick_decay_wide (w : Nat) (hw : 16 < w) (e : ADSR)
    (hs : e._state = EnvelopeState.DECAY) (hS : e._sustainLevel ≤ 255) :
    e.tick w =
      if e._level > e._sustainLevel * 256 + e._decayRate then
        { e with _level := (e._level + 65536 - e._decayRate) % 65536 }
      else { e with _level := e._sustainLevel * 256, _state := EnvelopeState.SUSTAIN } := by
  have hm : e._sustainLevel * 256 % 65536 = e._sustainLevel * 256 :=
    Nat.mod_eq_of_lt (by omega)
  have hnw : ¬ w ≤ 16 := by omega
  unfold ADSR.tick ADSR.nextSample promotedSum16
  simp only [hs, hm, if_neg hnw]

/-- A tick in sustain changes nothing. -/
theorem ADSR.tick_sustain (w : Nat) (e : ADSR) (hs : e._state = EnvelopeState.SUSTAIN) :
    e.tick w = e := by
  unfold ADSR.tick ADSR.nextSample
  simp only [hs]

/-- Ticks in sustain change nothing. -/
theorem ADSR.ticks_sustain (w : Nat) (e : ADSR) (hs : e._state = EnvelopeState.SUSTAIN)
    (n : Nat) : ADSR.ticks w n e = e := by
  induction n with
  | zero => rfl
  | succ n ih => rw [ADSR.ticks, ih, ADSR.tick_sustain w e hs]

/-- Ticks compose. -/
theorem ADSR.ticks_add (w : Nat) (e : ADSR) (m n : Nat) :
    ADSR.ticks w (m + n) e = ADSR.ticks w n (ADSR.ticks w m e) := by
  induction n with
  | zero => rfl
  | succ n ih =>
    show ADSR.ticks w (m + n + 1) e = _
    rw [ADSR.ticks, ih, ADSR.ticks]

/-- Where `int` is wider than 16 bits, decay keeps the level between the sustain
floor and full scale, never raises it, and only moves on to sustain. -/
theorem ADSR.decay_invariant_wide (w : Nat) (hw : 16 < w) (e : ADSR)
    (hs : e._state = EnvelopeState.DECAY) (hl : e._level = 65535)
    (hS : e._sustainLevel ≤ 255) (n : Nat) :
    (ADSR.ticks w n e)._sustainLevel = e._sustainLevel ∧
    (ADSR.ticks w n e)._decayRate = e._decayRate ∧
    e._sustainLevel * 256 ≤ (ADSR.ticks w n e)._level ∧
    (ADSR.ticks w n e)._level < 65536 ∧
    ((ADSR.ticks w n e)._state = EnvelopeState.DECAY ∨
      (ADSR.ticks w n e)._state = EnvelopeState.SUSTAIN) ∧
    (ADSR.ticks w (n + 1) e)._level ≤ (ADSR.ticks w n e)._level := by
  have step : ∀ x : ADSR, x._sustainLevel = e._sustainLevel →
      e._sustainLevel * 256 ≤ x._level → x._level < 65536 →
      (x._state = EnvelopeState.DECAY ∨ x._state = EnvelopeState.SUSTAIN) →
      (x.tick w)._sustainLevel = e._sustainLevel ∧ (x.tick w)._decayRate = x._decayRate ∧
      e._sustainLevel * 256 ≤ (x.tick w)._level ∧ (x.tick w)._level < 65536 ∧
      ((x.tick w)._state = EnvelopeState.DECAY ∨ (x.tick w)._state = EnvelopeState.SUSTAIN) ∧
      (x.tick w)._level ≤ x._level := by
    intro x h1 h2 h3 h4
    rcases h4 with h4 | h4
    · rw [ADSR.tick_decay_wide w hw x h4 (by omega)]
      by_cases hc : x._level > x._sustainLevel * 256 + x._decayRate
      · rw [if_pos hc]
        have hmod : (x._level + 65536 - x._decayRate) % 65536 = x._level - x._decayRate := by
          have : x._level + 65536 - x._decayRate = (x._level - x._decayRate) + 65536 := by omega
          rw [this, Nat.add_mod_right, Nat.mod_eq_of_lt (by omega)]
        refine ⟨h1, rfl, ?_, ?_, Or.inl h4, ?_⟩
        · show e._sustainLevel * 256 ≤ (x._level + 65536 - x._decayRate) % 65536
          rw [hmod]; omega
        · show (x._level + 65536 - x._decayRate) % 65536 < 65536
          rw [hmod]; omega
        · show (x._level + 65536 - x._decayRate) % 65536 ≤ x._level
          rw [hmod]; omega
      · rw [if_neg hc]
        refine ⟨h1, rfl, ?_, ?_, Or.inr rfl, ?_⟩
        · show e._sustainLevel * 256 ≤ x._sustainLevel * 256
          omega
        · show x._sustainLevel * 256 < 65536
          omega
        · show x._sustainLevel * 256 ≤ x._level
          omega
    · rw [ADSR.tick_sustain w x h4]
      exact ⟨h1, rfl, h2, h3, Or.inr h4, le_refl _⟩
  have inv : ∀ k, (ADSR.ticks w k e)._sustainLevel = e._sustainLevel ∧
      (ADSR.ticks w k e)._decayRate = e._decayRate ∧
      e._sustainLevel * 256 ≤ (ADSR.ticks w k e)._level ∧
      (ADSR.ticks w k e)._level < 65536 ∧
      ((ADSR.ticks w k e)._state = EnvelopeState.DECAY ∨
        (ADSR.ticks w k e)._state = EnvelopeState.SUSTAIN) := by
    intro k
    induction k with
    | zero => exact ⟨rfl, rfl, by show _ ≤ e._level; omega, by show e._level < _; omega, Or.inl hs⟩
    | succ k ih =>
      obtain ⟨a1, a2, a3, a4, a5⟩ := ih
      obtain ⟨b1, b2, b3, b4, b5, _⟩ := step _ a1 a3 a4 a5
      exact ⟨b1, b2.trans a2, b3, b4, b5⟩
  obtain ⟨a1, a2, a3, a4, a5⟩ := inv n
  exact ⟨a1, a2, a3, a4, a5, (step _ a1 a3 a4 a5).2.2.2.2.2⟩


/-- Where `int` is wider than 16 bits: while `n` further decay steps stay above the
sustain floor, decay is a plain ramp down. -/
theorem ADSR.ticks_decay_ramp_wide (w : Nat) (hw : 16 < w) (e : ADSR)
    (hs : e._state = EnvelopeState.DECAY) (hS : e._sustainLevel ≤ 255)
    (hl : e._level < 65536) (n : Nat)
    (h : e._sustainLevel * 256 + n * e._decayRate < e._level) :
    ADSR.ticks w n e = { e with _level := e._level - n * e._decayRate } := by
  induction n with
  | zero => simp [ADSR.ticks]
  | succ n ih =>
    have hstep : (n + 1) * e._decayRate = n * e._decayRate + e._decayRate := by ring
    have hn : e._sustainLevel * 256 + n * e._decayRate < e._level := by omega
    rw [ADSR.ticks, ih hn,
      ADSR.tick_decay_wide w hw { e with _level := e._level - n * e._decayRate } hs hS]
    have hgt : e._level - n * e._decayRate > e._sustainLevel * 256 + e._decayRate := by omega
    have hmod : (e._level - n * e._decayRate + 65536 - e._decayRate) % 65536
        = e._level - (n + 1) * e._decayRate := by
      rw [hstep]
      have : e._level - n * e._decayRate + 65536 - e._decayRate
          = (e._level - (n * e._decayRate + e._decayRate)) + 65536 := by omega
      rw [this, Nat.add_mod_right, Nat.mod_eq_of_lt (by omega)]
    simp [hgt, hmod]

/-- Where `int` is wider than 16 bits, the statement of C3 holds: from decay at full
scale the levels never rise, never fall below `sustainLevel * 256`, sustain is
reached with exactly that level, and nothing changes afterwards. -/
theorem ADSR.decay_reaches_sustain_wide (w : Nat) (hw : 16 < w) (e : ADSR)
    (hs : e._state = EnvelopeState.DECAY) (hl : e._level = 65535)
    (hS : e._sustainLevel ≤ 255) (hd : 1 ≤ e._decayRate) :
    (∀ n, (ADSR.ticks w (n + 1) e)._level ≤ (ADSR.ticks w n e)._level) ∧
    (∀ n, e._sustainLevel * 256 ≤ (ADSR.ticks w n e)._level) ∧
    ∃ N, (ADSR.ticks w N e)._state = EnvelopeState.SUSTAIN ∧
      (ADSR.ticks w N e)._level = e._sustainLevel * 256 ∧
      ∀ m, N ≤ m → ADSR.ticks w m e = ADSR.ticks w N e := by
  refine ⟨fun n => (ADSR.decay_invariant_wide w hw e hs hl hS n).2.2.2.2.2,
    fun n => (ADSR.decay_invariant_wide w hw e hs hl hS n).2.2.1, ?_⟩
  -- number of plain decay steps before the snap to the sustain level
  have hA : 1 ≤ e._level - e._sustainLevel * 256 := by omega
  have h1 := Nat.div_add_mod (e._level - e._sustainLevel * 256 - 1) e._decayRate
  have h2 := Nat.mod_lt (e._level - e._sustainLevel * 256 - 1) (show 0 < e._decayRate by omega)
  generalize hK : (e._level - e._sustainLevel * 256 - 1) / e._decayRate = K at h1
  have hc : e._decayRate * K = K * e._decayRate := Nat.mul_comm _ _
  rw [hc] at h1
  have hramp := ADSR.ticks_decay_ramp_wide w hw e hs hS (by omega) K (by omega)
  have hlast : ADSR.ticks w (K + 1) e
      = { e with _level := e._sustainLevel * 256, _state := EnvelopeState.SUSTAIN } := by
    rw [ADSR.ticks, hramp,
      ADSR.tick_decay_wide w hw { e with _level := e._level - K * e._decayRate } hs hS]
    have hle : ¬ (e._level - K * e._decayRate > e._sustainLevel * 256 + e._decayRate) := by
      omega
    simp [hle]
  refine ⟨K + 1, by rw [hlast], by rw [hlast], ?_⟩
  intro m hm
  obtain ⟨j, rfl⟩ : ∃ j, m = (K + 1) + j := ⟨m - (K + 1), by omega⟩
  rw [ADSR.ticks_add, ADSR.ticks_sustain w _ (by rw [hlast])]

/-- C3 (code defect, 16-bit `int`): after `setAttack(0)`, `setSustain(255)`,
`setDecay(5)` at 44100 Hz (decay rate 297) and `noteOn()`, the first tick reaches
decay at level 65535; the comparison sum `65280 + 297` wraps to 41, so the next tick
subtracts and the level 65238 lies below the sustain floor 65280 while the state is
still decay.  The specification says the level never goes below `sustainLevel * 256`. -/
theorem decay_falls_below_sustain_int16 :
    ∃ e : ADSR,
      ((ADSR.new 44100).bind fun a => (a.setAttack 0).bind fun b =>
        (b.setSustain 255).setDecay 5) = some e ∧
      e._sustainLevel = 255 ∧ e._decayRate = 297 ∧
      (ADSR.ticks 16 1 e.noteOn)._state = EnvelopeState.DECAY ∧
      (ADSR.ticks 16 1 e.noteOn)._level = 65535 ∧
      promotedSum16 16 (255 * 256) 297 = 41 ∧
      (ADSR.ticks 16 2 e.noteOn)._state = EnvelopeState.DECAY ∧
      (ADSR.ticks 16 2 e.noteOn)._level = 65238 ∧
      (ADSR.ticks 16 2 e.noteOn)._level < e._sustainLevel * 256 := by
  refine ⟨⟨44100, EnvelopeState.IDLE, 0, 65535, 297, 255, 14, 0, 0, 5, 100⟩, ?_⟩
  decide


/-! ## MIDI frequency table -/

set_option maxRecDepth 16384

/-- Entries of the 16-bit table at the notes used below. -/
theorem MIDI_FREQ_TABLE_samples :
    pgm_read_word MIDI_FREQ_TABLE 69 = 44000 ∧ pgm_read_word MIDI_FREQ_TABLE 76 = 390 ∧
    pgm_read_word MIDI_FREQ_TABLE 81 = 22464 ∧ pgm_read_word MIDI_FREQ_TABLE 84 = 10465 ∧
    pgm_read_word MIDI_FREQ_TABLE 93 = 17600 := by
  decide

/-- C8 (code defect): the table has 128 initialisers, and exactly the twenty at notes
76..83 and 116..127 exceed 65535; for instance note 76 is written 65926 and reads
back as 390 from the 16-bit array. -/
theorem MIDI_FREQ_TABLE_literals_exceed_uint16 :
    MIDI_FREQ_LITERALS.length = 128 ∧
    (List.range 128).filter (fun n => decide (65535 < MIDI_FREQ_LITERALS.getD n 0))
      = [76, 77, 78, 79, 80, 81, 82, 83,
         116, 117, 118, 119, 120, 121, 122, 123, 124, 125, 126, 127] ∧
    MIDI_FREQ_LITERALS.getD 76 0 = 65926 ∧
    pgm_read_word MIDI_FREQ_TABLE 76 = 390 ∧
    pgm_read_word MIDI_FREQ_TABLE 76 ≠ MIDI_FREQ_LITERALS.getD 76 0 := by
  decide

/-- Value of `midiNoteToFrequencyCalc` at the notes 81 and 93 (A5 and A6). -/
theorem midiNoteToFrequencyCalc_A5_A6 :
    midiNoteToFrequencyCalc 81 = 880 ∧ midiNoteToFrequencyCalc 93 = 1760 := by
  unfold midiNoteToFrequencyCalc
  have h1 : ((((81 : ℕ) : ℤ) - 69 : ℤ) : ℝ) / 12 = ((1 : ℕ) : ℝ) := by norm_num
  have h2 : ((((93 : ℕ) : ℤ) - 69 : ℤ) : ℝ) / 12 = ((2 : ℕ) : ℝ) := by norm_num
  rw [h1, h2, Real.rpow_natCast, Real.rpow_natCast]
  norm_num

/-- Values of `midiNoteToFrequency` at the notes 69, 76, 81, 84 and 93. -/
theorem midiNoteToFrequency_samples :
    midiNoteToFrequency 69 = 440 ∧ midiNoteToFrequency 76 = 390 / 100 ∧
    midiNoteToFrequency 81 = 22464 / 100 ∧ midiNoteToFrequency 84 = 104650 ∧
    midiNoteToFrequency 93 = 176000 := by
  obtain ⟨h69, h76, h81, h84, h93⟩ := MIDI_FREQ_TABLE_samples
  norm_num [midiNoteToFrequency, h69, h76, h81, h84, h93]

/-- C6 (code defect): note 69 decodes to 440, but note 81 (A5, 880 Hz) decodes to
224.64 because its initialiser 88000 does not fit 16 bits, and note 93 (A6, 1760 Hz)
decodes to 176000 because the entry 17600 holds ten times the frequency and is
multiplied by 10; both miss the stated tolerance (0.01 Hz and 10 Hz). -/
theorem midiNoteToFrequency_off_above_note_75 :
    midiNoteToFrequency 69 = 440 ∧
    midiNoteToFrequency 81 = 22464 / 100 ∧ midiNoteToFrequencyCalc 81 = 880 ∧
    (1 / 100 : ℝ) < |((midiNoteToFrequency 81 : ℚ) : ℝ) - midiNoteToFrequencyCalc 81| ∧
    midiNoteToFrequency 93 = 176000 ∧ midiNoteToFrequencyCalc 93 = 1760 ∧
    (10 : ℝ) < |((midiNoteToFrequency 93 : ℚ) : ℝ) - midiNoteToFrequencyCalc 93| := by
  obtain ⟨h69, _, h81, _, h93⟩ := midiNoteToFrequency_samples
  obtain ⟨c81, c93⟩ := midiNoteToFrequencyCalc_A5_A6
  refine ⟨h69, h81, c81, ?_, h93, c93, ?_⟩
  · rw [h81, c81]
    norm_num [abs_lt, lt_abs]
  · rw [h93, c93]
    norm_num [abs_lt, lt_abs]

/-- Above 127 semitones the inverse conversion clamps to 127. -/
theorem frequencyToMidiNote_of_large (freq : ℝ) (h : 14080 ≤ freq) :
    frequencyToMidiNote freq = 127 := by
  have hpos : ¬ freq ≤ 0 := by linarith
  have h32 : (32 : ℝ) ≤ freq / 440 := by
    rw [le_div_iff₀ (by norm_num)]; linarith
  have hlog : (5 : ℝ) ≤ Real.logb 2 (freq / 440) := by
    rw [Real.le_logb_iff_rpow_le (by norm_num) (by linarith)]
    have : (2 : ℝ) ^ (5 : ℝ) = 32 := by
      rw [show (5 : ℝ) = ((5 : ℕ) : ℝ) by norm_num, Real.rpow_natCast]; norm_num
    rw [this]; exact h32
  unfold frequencyToMidiNote
  rw [if_neg hpos]
  have h1 : ¬ (12 * Real.logb 2 (freq / 440) + 69 < 0) := by linarith
  have h2 : 12 * Real.logb 2 (freq / 440) + 69 > 127 := by linarith
  simp only [if_neg h1, if_pos h2]

/-- Below 8 Hz the inverse conversion clamps to 0. -/
theorem frequencyToMidiNote_of_small (freq : ℝ) (h : freq ≤ 55 / 8) :
    frequencyToMidiNote freq = 0 := by
  unfold frequencyToMidiNote
  by_cases hpos : freq ≤ 0
  · rw [if_pos hpos]
  · rw [if_neg hpos]
    have hf : 0 < freq / 440 := div_pos (by linarith) (by norm_num)
    have h64 : freq / 440 ≤ 1 / 64 := by
      rw [div_le_iff₀ (by norm_num)]; linarith
    have hlog : Real.logb 2 (freq / 440) ≤ -6 := by
      rw [Real.logb_le_iff_le_rpow (by norm_num) hf]
      have : (2 : ℝ) ^ (-6 : ℝ) = 1 / 64 := by
        rw [Real.rpow_neg (by norm_num),
          show (6 : ℝ) = ((6 : ℕ) : ℝ) by norm_num, Real.rpow_natCast]
        norm_num
      rw [this]; exact h64
    have h1 : 12 * Real.logb 2 (freq / 440) + 69 < 0 := by linarith
    simp only [if_pos h1]

/-- C7 (code defect): the round trip fails at note 76, whose truncated entry decodes
to 3.90 Hz and maps back to note 0, and at note 84, which decodes to 104650 Hz and
maps back to note 127. -/
theorem midi_round_trip_fails_at_76_and_84 :
    frequencyToMidiNote ((midiNoteToFrequency 76 : ℚ) : ℝ) = 0 ∧
    frequencyToMidiNote ((midiNoteToFrequency 84 : ℚ) : ℝ) = 127 := by
  obtain ⟨_, h76, _, h84, _⟩ := midiNoteToFrequency_samples
  rw [h76, h84]
  exact ⟨frequencyToMidiNote_of_small _ (by norm_num), frequencyToMidiNote_of_large _ (by norm_num)⟩


/-! ## MIDI conversion: the notes the table encodes correctly -/

/-- Twelfth-power form of the equal-tempered frequency. -/
theorem midiNoteToFrequencyCalc_pow (n : ℕ) :
    (midiNoteToFrequencyCalc n / 440) ^ 12 * 2 ^ 69 = 2 ^ n := by
  unfold midiNoteToFrequencyCalc
  have h2 : (0 : ℝ) < 2 := by norm_num
  rw [mul_div_cancel_left₀ _ (by norm_num : (440 : ℝ) ≠ 0)]
  rw [← Real.rpow_natCast, ← Real.rpow_mul h2.le]
  have hexp : ((((n : ℤ) - 69 : ℤ) : ℝ) / 12) * ((12 : ℕ) : ℝ) = (n : ℝ) - ((69 : ℕ) : ℝ) := by
    push_cast; ring
  rw [hexp, Real.rpow_sub h2, Real.rpow_natCast, Real.rpow_natCast]
  field_simp

/-- The equal-tempered frequency is positive. -/
theorem midiNoteToFrequencyCalc_pos (n : ℕ) : 0 < midiNoteToFrequencyCalc n := by
  unfold midiNoteToFrequencyCalc
  have := Real.rpow_pos_of_pos (by norm_num : (0 : ℝ) < 2) ((((n : ℤ) - 69 : ℤ) : ℝ) / 12)
  linarith

/-- Integer certificate: below note 76 each table entry is within one unit of
`100 * 440 * 2 ^ ((n - 69) / 12)`, stated on twelfth powers. -/
theorem MIDI_FREQ_TABLE_close_below_76 :
    ∀ n, n < 76 → 1 ≤ pgm_read_word MIDI_FREQ_TABLE n ∧
      (pgm_read_word MIDI_FREQ_TABLE n - 1) ^ 12 * 2 ^ 69 ≤ 2 ^ n * 44000 ^ 12 ∧
      2 ^ n * 44000 ^ 12 ≤ (pgm_read_word MIDI_FREQ_TABLE n + 1) ^ 12 * 2 ^ 69 := by
  decide!


/-- Decoding below note 84 divides the entry by 100. -/
theorem midiNoteToFrequency_of_lt_84 (n : ℕ) (h : n < 84) :
    midiNoteToFrequency n = (pgm_read_word MIDI_FREQ_TABLE n : ℚ) / 100 := by
  have h1 : ¬ n > 127 := by omega
  simp only [midiNoteToFrequency, if_neg h1, if_pos h]

/-- Decoding from note 84 to note 127 multiplies the entry by 10. -/
theorem midiNoteToFrequency_of_ge_84 (n : ℕ) (h : 84 ≤ n) (h2 : n ≤ 127) :
    midiNoteToFrequency n = (pgm_read_word MIDI_FREQ_TABLE n : ℚ) * 10 := by
  have h1 : ¬ n > 127 := by omega
  have h3 : ¬ n < 84 := by omega
  simp only [midiNoteToFrequency, if_neg h1, if_neg h3]

/-- Below note 76 the decoded frequency is within 0.01 Hz of the equal-tempered one. -/
theorem midiNoteToFrequency_accurate_below_76 (n : ℕ) (h : n < 76) :
    |((midiNoteToFrequency n : ℚ) : ℝ) - midiNoteToFrequencyCalc n| ≤ 1 / 100 := by
  obtain ⟨ht1, hlo, hhi⟩ := MIDI_FREQ_TABLE_close_below_76 n h
  rw [midiNoteToFrequency_of_lt_84 n (by omega)]
  have hx := midiNoteToFrequencyCalc_pos n
  have hpow := midiNoteToFrequencyCalc_pow n
  generalize pgm_read_word MIDI_FREQ_TABLE n = t at ht1 hlo hhi ⊢
  generalize midiNoteToFrequencyCalc n = x at hx hpow ⊢
  have h269 : (0 : ℝ) < 2 ^ 69 := by positivity
  have h44 : (0 : ℝ) < 44000 ^ 12 := by positivity
  have hx0 : (0 : ℝ) ≤ x / 440 := by positivity
  have ht0 : (1 : ℝ) ≤ (t : ℝ) := by exact_mod_cast ht1
  have hlo' : (((t - 1 : ℕ) : ℝ)) ^ 12 * 2 ^ 69 ≤ 2 ^ n * 44000 ^ 12 := by exact_mod_cast hlo
  have hhi' : (2 : ℝ) ^ n * 44000 ^ 12 ≤ ((t : ℝ) + 1) ^ 12 * 2 ^ 69 := by exact_mod_cast hhi
  rw [Nat.cast_sub ht1, Nat.cast_one, ← hpow] at hlo'
  rw [← hpow] at hhi'
  have hl : ((t : ℝ) - 1) / 44000 ≤ x / 440 := by
    apply le_of_pow_le_pow_left₀ (by norm_num : (12 : ℕ) ≠ 0) hx0
    rw [div_pow ((t : ℝ) - 1) 44000 12, div_le_iff₀ h44]
    have : ((t : ℝ) - 1) ^ 12 * 2 ^ 69 ≤ (x / 440) ^ 12 * 44000 ^ 12 * 2 ^ 69 := by
      calc ((t : ℝ) - 1) ^ 12 * 2 ^ 69 ≤ (x / 440) ^ 12 * 2 ^ 69 * 44000 ^ 12 := hlo'
        _ = (x / 440) ^ 12 * 44000 ^ 12 * 2 ^ 69 := by ring
    exact le_of_mul_le_mul_right this h269
  have hu : x / 440 ≤ ((t : ℝ) + 1) / 44000 := by
    apply le_of_pow_le_pow_left₀ (by norm_num : (12 : ℕ) ≠ 0) (by positivity)
    rw [div_pow ((t : ℝ) + 1) 44000 12, le_div_iff₀ h44]
    have : (x / 440) ^ 12 * 44000 ^ 12 * 2 ^ 69 ≤ ((t : ℝ) + 1) ^ 12 * 2 ^ 69 := by
      calc (x / 440) ^ 12 * 44000 ^ 12 * 2 ^ 69 = (x / 440) ^ 12 * 2 ^ 69 * 44000 ^ 12 := by ring
        _ ≤ ((t : ℝ) + 1) ^ 12 * 2 ^ 69 := hhi'
    exact le_of_mul_le_mul_right this h269
  have hl2 := (div_le_iff₀ (by norm_num : (0 : ℝ) < 44000)).1 hl
  have hu2 := (le_div_iff₀ (by norm_num : (0 : ℝ) < 44000)).1 hu
  have e1 : x / 440 * 44000 = 100 * x := by ring
  have e2 : (t : ℝ) / 100 - x = ((t : ℝ) - 100 * x) / 100 := by ring
  rw [e1] at hl2 hu2
  push_cast
  rw [e2, abs_le]
  constructor
  · rw [le_div_iff₀ (by norm_num)]
    linarith
  · rw [div_le_iff₀ (by norm_num)]
    linarith


/-- From note 69 upwards the equal-tempered frequency is at least 440 Hz. -/
theorem midiNoteToFrequencyCalc_ge_440 (n : ℕ) (h : 69 ≤ n) :
    440 ≤ midiNoteToFrequencyCalc n := by
  unfold midiNoteToFrequencyCalc
  have hexp : (0 : ℝ) ≤ (((n : ℤ) - 69 : ℤ) : ℝ) / 12 := by
    have : ((69 : ℕ) : ℝ) ≤ (n : ℝ) := by exact_mod_cast h
    push_cast at this ⊢
    linarith
  have := Real.rpow_le_rpow_of_exponent_le (by norm_num : (1 : ℝ) ≤ 2) hexp
  rw [Real.rpow_zero] at this
  linarith

/-- Up to note `69 + 12 * k` the equal-tempered frequency is at most `440 * 2 ^ k`. -/
theorem midiNoteToFrequencyCalc_le (n k : ℕ) (h : n ≤ 69 + 12 * k) :
    midiNoteToFrequencyCalc n ≤ 440 * 2 ^ k := by
  unfold midiNoteToFrequencyCalc
  have hexp : (((n : ℤ) - 69 : ℤ) : ℝ) / 12 ≤ ((k : ℕ) : ℝ) := by
    have : (n : ℝ) ≤ ((69 + 12 * k : ℕ) : ℝ) := by exact_mod_cast h
    push_cast at this ⊢
    linarith
  have := Real.rpow_le_rpow_of_exponent_le (by norm_num : (1 : ℝ) ≤ 2) hexp
  rw [Real.rpow_natCast] at this
  linarith

/-- Size of the stored entries from note 76 on. -/
theorem MIDI_FREQ_TABLE_ranges_from_76 :
    ∀ n, n < 128 →
      (76 ≤ n ∧ n < 84 → pgm_read_word MIDI_FREQ_TABLE n ≤ 33241) ∧
      (84 ≤ n ∧ n < 117 → 913 ≤ pgm_read_word MIDI_FREQ_TABLE n) ∧
      (117 ≤ n → 4864 ≤ pgm_read_word MIDI_FREQ_TABLE n) := by
  decide!

/-- From note 76 to note 127 the decoded frequency is more than 10 Hz away from the
equal-tempered one. -/
theorem midiNoteToFrequency_off_from_76 (n : ℕ) (h1 : 76 ≤ n) (h2 : n ≤ 127) :
    10 < |((midiNoteToFrequency n : ℚ) : ℝ) - midiNoteToFrequencyCalc n| := by
  obtain ⟨c1, c2, c3⟩ := MIDI_FREQ_TABLE_ranges_from_76 n (by omega)
  rw [lt_abs]
  by_cases ha : n < 84
  · right
    have ht : ((pgm_read_word MIDI_FREQ_TABLE n : ℕ) : ℝ) ≤ 33241 := by
      exact_mod_cast c1 ⟨h1, ha⟩
    have hc := midiNoteToFrequencyCalc_ge_440 n (by omega)
    rw [midiNoteToFrequency_of_lt_84 n ha]
    push_cast
    linarith
  · left
    rw [midiNoteToFrequency_of_ge_84 n (by omega) h2]
    push_cast
    by_cases hb : n < 117
    · have ht : (913 : ℝ) ≤ ((pgm_read_word MIDI_FREQ_TABLE n : ℕ) : ℝ) := by
        exact_mod_cast c2 ⟨by omega, hb⟩
      have hc := midiNoteToFrequencyCalc_le n 4 (by omega)
      norm_num at hc
      linarith
    · have ht : (4864 : ℝ) ≤ ((pgm_read_word MIDI_FREQ_TABLE n : ℕ) : ℝ) := by
        exact_mod_cast c3 (by omega)
      have hc := midiNoteToFrequencyCalc_le n 5 (by omega)
      norm_num at hc
      linarith

/-- The decoded frequency meets the stated tolerance (0.01 Hz below note 84, 10 Hz
from note 84 on) exactly for the notes below 76. -/
theorem midiNoteToFrequency_within_tolerance_iff (n : ℕ) (h : n ≤ 127) :
    |((midiNoteToFrequency n : ℚ) : ℝ) - midiNoteToFrequencyCalc n|
        ≤ (if n < 84 then 1 / 100 else 10) ↔ n < 76 := by
  constructor
  · intro hle
    by_contra hn
    have hoff := midiNoteToFrequency_off_from_76 n (by omega) h
    have hb : (if n < 84 then (1 / 100 : ℝ) else 10) ≤ 10 := by
      split_ifs <;> norm_num
    linarith
  · intro hn
    rw [if_pos (by omega)]
    exact midiNoteToFrequency_accurate_below_76 n hn


/-! ## MIDI conversion: round trip -/

/-- The inverse conversion returns `n` when the real note value lies in
`[n - 1/2, n + 1/2)`. -/
theorem frequencyToMidiNote_eq_of_bounds (freq : ℝ) (n : ℕ) (hn : n ≤ 127) (hf : 0 < freq)
    (hlo : (n : ℝ) - 1 / 2 ≤ 12 * Real.logb 2 (freq / 440) + 69)
    (hhi : 12 * Real.logb 2 (freq / 440) + 69 < (n : ℝ) + 1 / 2) :
    frequencyToMidiNote freq = n := by
  unfold frequencyToMidiNote
  rw [if_neg (not_le.2 hf)]
  generalize 12 * Real.logb 2 (freq / 440) + 69 = note at hlo hhi
  have hn' : (n : ℝ) ≤ 127 := by exact_mod_cast hn
  by_cases h0 : note < 0
  · simp only [if_pos h0]
    by_contra hne
    have : (1 : ℝ) ≤ (n : ℝ) := by
      exact_mod_cast Nat.one_le_iff_ne_zero.2 (fun h => hne h.symm)
    linarith
  · by_cases h127 : note > 127
    · simp only [if_neg h0, if_pos h127]
      by_contra hne
      have : (n : ℝ) ≤ 126 := by
        have : n ≤ 126 := by omega
        exact_mod_cast this
      linarith
    · simp only [if_neg h0, if_neg h127]
      have hfl : ⌊note + 1 / 2⌋ = (n : ℤ) := by
        rw [Int.floor_eq_iff]
        constructor
        · push_cast; linarith
        · push_cast; linarith
      rw [hfl, Int.toNat_ofNat]
      omega

/-- Bounds on the real note value of a frequency from bounds on its 24th power. -/
theorem note_value_bounds_of_pow (freq : ℝ) (hf : 0 < freq) (n : ℕ) :
    ((2 : ℝ) ^ (2 * n) * 440 ^ 24 ≤ freq ^ 24 * 2 ^ 139 →
      (n : ℝ) - 1 / 2 ≤ 12 * Real.logb 2 (freq / 440) + 69) ∧
    (freq ^ 24 * 2 ^ 137 < (2 : ℝ) ^ (2 * n) * 440 ^ 24 →
      12 * Real.logb 2 (freq / 440) + 69 < (n : ℝ) + 1 / 2) := by
  have hb : (1 : ℝ) < 2 := by norm_num
  have hx : 0 < freq / 440 := by positivity
  have hx24 : 0 < (freq / 440) ^ 24 := by positivity
  have hlog : Real.logb 2 ((freq / 440) ^ 24) = 24 * Real.logb 2 (freq / 440) := by
    rw [Real.logb_pow]; norm_num
  have hl2 : ∀ a b : ℕ, Real.logb 2 ((2 : ℝ) ^ a / 2 ^ b) = (a : ℝ) - (b : ℝ) := by
    intro a b
    rw [Real.logb_div (by positivity) (by positivity), Real.logb_pow, Real.logb_pow,
      Real.logb_self_eq_one hb]
    ring
  constructor
  · intro h
    have hle : (2 : ℝ) ^ (2 * n) / 2 ^ 139 ≤ (freq / 440) ^ 24 := by
      rw [div_pow, div_le_div_iff₀ (by positivity) (by positivity)]
      exact h
    have := (Real.logb_le_logb hb (by positivity) hx24).2 hle
    rw [hlog, hl2] at this
    push_cast at this
    linarith
  · intro h
    have hlt : (freq / 440) ^ 24 < (2 : ℝ) ^ (2 * n) / 2 ^ 137 := by
      rw [div_pow, div_lt_div_iff₀ (by positivity) (by positivity)]
      exact h
    have := Real.logb_lt_logb hb hx24 hlt
    rw [hlog, hl2] at this
    push_cast at this
    linarith

/-- Integer certificate: below note 76 each entry lies strictly inside the band of
its own note, stated on 24th powers. -/
theorem MIDI_FREQ_TABLE_in_band_below_76 :
    ∀ n, n < 76 → 1 ≤ pgm_read_word MIDI_FREQ_TABLE n ∧
      2 ^ (2 * n) * 44000 ^ 24 ≤ pgm_read_word MIDI_FREQ_TABLE n ^ 24 * 2 ^ 139 ∧
      pgm_read_word MIDI_FREQ_TABLE n ^ 24 * 2 ^ 137 < 2 ^ (2 * n) * 44000 ^ 24 := by
  decide!

/-- Below note 76 the round trip through the table returns the note. -/
theorem midi_round_trip_below_76 (n : ℕ) (h : n < 76) :
    frequencyToMidiNote ((midiNoteToFrequency n : ℚ) : ℝ) = n := by
  obtain ⟨ht1, hlo, hhi⟩ := MIDI_FREQ_TABLE_in_band_below_76 n h
  rw [midiNoteToFrequency_of_lt_84 n (by omega)]
  generalize pgm_read_word MIDI_FREQ_TABLE n = t at ht1 hlo hhi ⊢
  have ht0 : (0 : ℝ) < (t : ℝ) := by exact_mod_cast ht1
  have hlo' : (2 : ℝ) ^ (2 * n) * 44000 ^ 24 ≤ (t : ℝ) ^ 24 * 2 ^ 139 := by exact_mod_cast hlo
  have hhi' : (t : ℝ) ^ 24 * 2 ^ 137 < (2 : ℝ) ^ (2 * n) * 44000 ^ 24 := by exact_mod_cast hhi
  have hf : (0 : ℝ) < (t : ℝ) / 100 := by positivity
  have e44 : (44000 : ℝ) ^ 24 = 440 ^ 24 * 100 ^ 24 := by norm_num
  have h100 : (0 : ℝ) < 100 ^ 24 := by positivity
  obtain ⟨b1, b2⟩ := note_value_bounds_of_pow ((t : ℝ) / 100) hf n
  push_cast
  apply frequencyToMidiNote_eq_of_bounds _ n (by omega) hf
  · apply b1
    rw [div_pow, div_mul_eq_mul_div, le_div_iff₀ h100]
    calc (2 : ℝ) ^ (2 * n) * 440 ^ 24 * 100 ^ 24 = 2 ^ (2 * n) * 44000 ^ 24 := by rw [e44]; ring
      _ ≤ (t : ℝ) ^ 24 * 2 ^ 139 := hlo'
  · apply b2
    rw [div_pow, div_mul_eq_mul_div, div_lt_iff₀ h100]
    calc (t : ℝ) ^ 24 * 2 ^ 137 < 2 ^ (2 * n) * 44000 ^ 24 := hhi'
      _ = (2 : ℝ) ^ (2 * n) * 440 ^ 24 * 100 ^ 24 := by rw [e44]; ring

/-- A frequency of at most 440 Hz maps to note 69 or lower. -/
theorem frequencyToMidiNote_le_69 (freq : ℝ) (h : freq ≤ 440) :
    frequencyToMidiNote freq ≤ 69 := by
  unfold frequencyToMidiNote
  by_cases hpos : freq ≤ 0
  · rw [if_pos hpos]; omega
  · rw [if_neg hpos]
    have hf : 0 < freq / 440 := div_pos (by linarith) (by norm_num)
    have hle : freq / 440 ≤ 1 := by rw [div_le_iff₀ (by norm_num)]; linarith
    have hlog : Real.logb 2 (freq / 440) ≤ 0 := by
      rw [Real.logb_le_iff_le_rpow (by norm_num) hf, Real.rpow_zero]; exact hle
    have hnote : 12 * Real.logb 2 (freq / 440) + 69 ≤ 69 := by linarith
    generalize 12 * Real.logb 2 (freq / 440) + 69 = note at hnote
    by_cases h0 : note < 0
    · simp only [if_pos h0]; omega
    · have h127 : ¬ note > 127 := by linarith
      simp only [if_neg h0, if_neg h127]
      have hfl : ⌊note + 1 / 2⌋ ≤ 69 := by
        have : ⌊note + 1 / 2⌋ < 70 := by
          rw [Int.floor_lt]; push_cast; linarith
        omega
      omega

/-- A frequency of at least 7040 Hz maps to note 117 or higher. -/
theorem frequencyToMidiNote_ge_117 (freq : ℝ) (h : 7040 ≤ freq) :
    117 ≤ frequencyToMidiNote freq := by
  unfold frequencyToMidiNote
  have hpos : ¬ freq ≤ 0 := by linarith
  rw [if_neg hpos]
  have h16 : (16 : ℝ) ≤ freq / 440 := by
    rw [le_div_iff₀ (by norm_num)]; linarith
  have hlog : (4 : ℝ) ≤ Real.logb 2 (freq / 440) := by
    rw [Real.le_logb_iff_rpow_le (by norm_num) (by linarith)]
    have : (2 : ℝ) ^ (4 : ℝ) = 16 := by
      rw [show (4 : ℝ) = ((4 : ℕ) : ℝ) by norm_num, Real.rpow_natCast]; norm_num
    rw [this]; exact h16
  have hnote : 117 ≤ 12 * Real.logb 2 (freq / 440) + 69 := by linarith
  generalize 12 * Real.logb 2 (freq / 440) + 69 = note at hnote
  have h0 : ¬ note < 0 := by linarith
  by_cases h127 : note > 127
  · simp only [if_neg h0, if_pos h127]; omega
  · simp only [if_neg h0, if_neg h127]
    have hfl1 : (117 : ℤ) ≤ ⌊note + 1 / 2⌋ := by
      rw [Int.le_floor]; push_cast; linarith
    have hfl2 : ⌊note + 1 / 2⌋ < 128 := by
      rw [Int.floor_lt]; push_cast; linarith
    omega

/-- The round trip note -> table frequency -> note returns the note exactly for the
notes below 76 and for note 127 (where the result is the clamp value). -/
theorem midi_round_trip_iff (n : ℕ) (h : n ≤ 127) :
    frequencyToMidiNote ((midiNoteToFrequency n : ℚ) : ℝ) = n ↔ n < 76 ∨ n = 127 := by
  obtain ⟨c1, c2, c3⟩ := MIDI_FREQ_TABLE_ranges_from_76 n (by omega)
  constructor
  · intro hrt
    by_contra hn
    have hn1 : 76 ≤ n := by omega
    have hn2 : n ≤ 126 := by omega
    by_cases ha : n < 84
    · have ht : ((pgm_read_word MIDI_FREQ_TABLE n : ℕ) : ℝ) ≤ 33241 := by
        exact_mod_cast c1 ⟨hn1, ha⟩
      have := frequencyToMidiNote_le_69 ((midiNoteToFrequency n : ℚ) : ℝ) (by
        rw [midiNoteToFrequency_of_lt_84 n ha]; push_cast; linarith)
      omega
    · by_cases hb : n < 117
      · have ht : (913 : ℝ) ≤ ((pgm_read_word MIDI_FREQ_TABLE n : ℕ) : ℝ) := by
          exact_mod_cast c2 ⟨by omega, hb⟩
        have := frequencyToMidiNote_ge_117 ((midiNoteToFrequency n : ℚ) : ℝ) (by
          rw [midiNoteToFrequency_of_ge_84 n (by omega) h]; push_cast; linarith)
        omega
      · have ht : (4864 : ℝ) ≤ ((pgm_read_word MIDI_FREQ_TABLE n : ℕ) : ℝ) := by
          exact_mod_cast c3 (by omega)
        have := frequencyToMidiNote_of_large ((midiNoteToFrequency n : ℚ) : ℝ) (by
          rw [midiNoteToFrequency_of_ge_84 n (by omega) h]; push_cast; linarith)
        omega
  · rintro (hn | hn)
    · exact midi_round_trip_below_76 n hn
    · subst hn
      have ht : (4864 : ℝ) ≤ ((pgm_read_word MIDI_FREQ_TABLE 127 : ℕ) : ℝ) := by
        exact_mod_cast c3 (by omega)
      exact frequencyToMidiNote_of_large _ (by
        rw [midiNoteToFrequency_of_ge_84 127 (by omega) (by omega)]; push_cast; linarith)

/-! ## Oscillator phase accumulator -/

/-- The oscillator after `k` calls: only the phase has moved, by `k` increments
modulo 65536. -/
theorem Oscillator.ticks_eq (o : Oscillator) (hp : o._phase < 65536) (k : Nat) :
    Oscillator.ticks k o
      = { o with _phase := (o._phase + k * o._phaseIncrement) % 65536 } := by
  induction k with
  | zero =>
    have : (o._phase + 0 * o._phaseIncrement) % 65536 = o._phase := by
      rw [Nat.zero_mul, Nat.add_zero, Nat.mod_eq_of_lt hp]
    rw [this]
    rfl
  | succ k ih =>
    have hstep : (k + 1) * o._phaseIncrement = k * o._phaseIncrement + o._phaseIncrement := by
      ring
    have hmod : ((o._phase + k * o._phaseIncrement) % 65536 + o._phaseIncrement) % 65536
        = (o._phase + (k + 1) * o._phaseIncrement) % 65536 := by
      rw [hstep]; omega
    rw [Oscillator.ticks, ih]
    simp only [Oscillator.nextSample, hmod]

/-- At 44100 Hz the frequency 441 Hz gives the phase increment 655. -/
theorem Oscillator.setFrequency_441 (o : Oscillator) (h : o._sampleRate = 44100) :
    o.setFrequency 441 = some { o with _frequency := 441, _phaseIncrement := 655 } := by
  have ha : roundF32 ((441 : ℚ) * 65536) = 441 * 65536 :=
    roundF32_of_eq _ 441 16 (by norm_num) (by norm_num) (by norm_num)
  have hb : roundF32 ((44100 : ℕ) : ℚ) = 44100 := by
    rw [roundF32_natCast 44100 (by norm_num)]; norm_num
  have hfl : ⌊roundF32 ((441 : ℚ) * 65536 / 44100)⌋ = ((655 : ℕ) : ℤ) :=
    floor_roundF32_of_le_half _ 655 (by norm_num) (by norm_num) (by norm_num)
  have h0 : 0 ≤ roundF32 ((441 : ℚ) * 65536 / 44100) := roundF32_nonneg _ (by norm_num)
  have hlt : roundF32 ((441 : ℚ) * 65536 / 44100) < 65536 := by
    have := Int.lt_floor_add_one (roundF32 ((441 : ℚ) * 65536 / 44100))
    rw [hfl] at this
    push_cast at this
    linarith
  unfold Oscillator.setFrequency
  rw [h, if_neg (by norm_num)]
  simp only [ha, hb, abs_of_nonneg h0, hfl]
  rw [if_pos ⟨by linarith, hlt⟩]
  rfl

/-- C9: with the sawtooth waveform, call number `k` of `nextSample()` returns
`((p0 + k * inc) mod 65536) div 256`, and after `k` calls the stored phase is
`(p0 + k * inc) mod 65536`. -/
theorem sawtooth_sample_and_phase (o : Oscillator) (hw : o._waveform = Waveform.SAWTOOTH)
    (hp : o._phase < 65536) (k : Nat) :
    Oscillator.sampleAt k o = (o._phase + k * o._phaseIncrement) % 65536 / 256 ∧
    (Oscillator.ticks k o)._phase = (o._phase + k * o._phaseIncrement) % 65536 := by
  have hlt : (o._phase + k * o._phaseIncrement) % 65536 < 65536 := Nat.mod_lt _ (by norm_num)
  have hidx : (o._phase + k * o._phaseIncrement) % 65536 / 256 % 256
      = (o._phase + k * o._phaseIncrement) % 65536 / 256 := by omega
  constructor
  · unfold Oscillator.sampleAt
    rw [Oscillator.ticks_eq o hp k]
    simp only [Oscillator.nextSample, hw, hidx]
  · rw [Oscillator.ticks_eq o hp k]

/-- C9 (witness): sample rate 44100, frequency 441, increment 655, start phase 0,
the last of the first 4096 calls. -/
theorem sawtooth_sample_and_phase_witness :
    Oscillator.sampleAt 4095 ⟨44100, 441, 0, 655, Waveform.SAWTOOTH, 128⟩
      = (0 + 4095 * 655) % 65536 / 256 ∧
    (Oscillator.ticks 4095 ⟨44100, 441, 0, 655, Waveform.SAWTOOTH, 128⟩)._phase
      = (0 + 4095 * 655) % 65536 :=
  sawtooth_sample_and_phase ⟨44100, 441, 0, 655, Waveform.SAWTOOTH, 128⟩ rfl (by decide) 4095

/-- C10 (counterexample): with increment 655 (441 Hz at 44100 Hz) and start phase 0,
after `65536 div 655 = 100` calls the phase is 65500, not 0. -/
theorem phase_not_back_after_quotient_ticks :
    65536 / 655 = 100 ∧
    (Oscillator.ticks (65536 / 655) ⟨44100, 441, 0, 655, Waveform.SINE, 128⟩)._phase = 65500 ∧
    ¬ ((Oscillator.ticks (65536 / 655) ⟨44100, 441, 0, 655, Waveform.SINE, 128⟩)._phase
        = (⟨44100, 441, 0, 655, Waveform.SINE, 128⟩ : Oscillator)._phase) := by
  have h := Oscillator.ticks_eq ⟨44100, 441, 0, 655, Waveform.SINE, 128⟩ (by decide) (65536 / 655)
  rw [h]
  decide

/-- C10 (amended): for a phase increment `inc` with `1 ≤ inc < 65536`, after
`65536 div inc` calls the phase is back at its starting value exactly when `inc`
divides 65536. -/
theorem phase_back_after_quotient_ticks_iff (o : Oscillator) (hp : o._phase < 65536)
    (h1 : 1 ≤ o._phaseIncrement) (h2 : o._phaseIncrement < 65536) :
    (Oscillator.ticks (65536 / o._phaseIncrement) o)._phase = o._phase
      ↔ o._phaseIncrement ∣ 65536 := by
  rw [Oscillator.ticks_eq o hp, Nat.dvd_iff_mod_eq_zero]
  show (o._phase + 65536 / o._phaseIncrement * o._phaseIncrement) % 65536 = o._phase ↔ _
  have hdm := Nat.div_add_mod 65536 o._phaseIncrement
  have hm := Nat.mod_lt 65536 (show 0 < o._phaseIncrement by omega)
  have hc : o._phaseIncrement * (65536 / o._phaseIncrement)
      = 65536 / o._phaseIncrement * o._phaseIncrement := Nat.mul_comm _ _
  rw [hc] at hdm
  generalize 65536 / o._phaseIncrement * o._phaseIncrement = q at hdm ⊢
  generalize 65536 % o._phaseIncrement = m at hdm hm ⊢
  omega

/-- C10 (witness): increment 256 and start phase 12345; 256 divides 65536 and the
phase is back after 256 calls. -/
theorem phase_back_after_quotient_ticks_iff_witness :
    (Oscillator.ticks (65536 / 256) ⟨44100, 440, 12345, 256, Waveform.SINE, 128⟩)._phase = 12345
      ↔ 256 ∣ 65536 :=
  phase_back_after_quotient_ticks_iff ⟨44100, 440, 12345, 256, Waveform.SINE, 128⟩
    (by decide) (by decide) (by decide)

/-! ## Oscillator: frequency setter and waveform shaping -/

/-- For a positive sample rate and a non-negative frequency whose float quotient
`fl (f * 65536) / fl sampleRate` is below 65535.5, `setFrequency` succeeds and stores
the floor of the rounded quotient, a value of at most 65535. -/
theorem Oscillator.setFrequency_eq_floor (o : Oscillator) (freq : ℚ)
    (hsr : 0 < o._sampleRate) (hf : 0 ≤ freq)
    (hq : roundF32 (freq * 65536) / roundF32 (o._sampleRate : ℚ) < 131071 / 2) :
    o.setFrequency freq
      = some { o with _frequency := freq,
                      _phaseIncrement := Int.toNat
                        ⌊roundF32 (roundF32 (freq * 65536) / roundF32 (o._sampleRate : ℚ))⌋ } ∧
    0 ≤ roundF32 (freq * 65536) / roundF32 (o._sampleRate : ℚ) ∧
    0 ≤ roundF32 (roundF32 (freq * 65536) / roundF32 (o._sampleRate : ℚ)) ∧
    roundF32 (roundF32 (freq * 65536) / roundF32 (o._sampleRate : ℚ)) ≤ 131071 / 2 := by
  have hb : 1 ≤ roundF32 (o._sampleRate : ℚ) := one_le_roundF32_natCast _ hsr
  have ha : 0 ≤ roundF32 (freq * 65536) := roundF32_nonneg _ (by positivity)
  have hq0 : 0 ≤ roundF32 (freq * 65536) / roundF32 (o._sampleRate : ℚ) :=
    div_nonneg ha (by linarith)
  have h0 := roundF32_nonneg _ hq0
  have hhi := roundF32_mono (le_of_lt hq)
  rw [roundF32_of_eq (131071 / 2) 131071 (-1) (by norm_num) (by norm_num)
    (by rw [zpow_neg_one]; norm_num)] at hhi
  refine ⟨?_, hq0, h0, hhi⟩
  unfold Oscillator.setFrequency
  rw [if_neg (by omega)]
  simp only [abs_of_nonneg h0]
  rw [if_pos ⟨by linarith, by linarith⟩]

/-- C11 (counterexample): the default oscillator (440 Hz at 44100 Hz) gets the phase
increment 653, while `440 * 65536 / 44100 = 653.87...` rounds to 654. -/
theorem setFrequency_440_not_rounded :
    (Oscillator.new 44100).map Oscillator._phaseIncrement = some 653 ∧
    round ((440 : ℚ) * 65536 / ((44100 : ℕ) : ℚ)) = 654 := by
  constructor
  · have ha : roundF32 ((440 : ℚ) * 65536) = 440 * 65536 :=
      roundF32_of_eq _ 440 16 (by norm_num) (by norm_num) (by norm_num)
    have hb : roundF32 ((44100 : ℕ) : ℚ) = 44100 := by
      rw [roundF32_natCast 44100 (by norm_num)]; norm_num
    have h := (Oscillator.setFrequency_eq_floor ⟨44100, 440, 0, 0, Waveform.SINE, 128⟩ 440
      (by decide) (by norm_num) (by rw [ha, hb]; norm_num)).1
    have hfl : ⌊roundF32 (roundF32 ((440 : ℚ) * 65536) / roundF32 ((44100 : ℕ) : ℚ))⌋
        = ((653 : ℕ) : ℤ) := by
      rw [ha, hb]
      exact floor_roundF32_of_bracket _ (5231 / 8) 653 (by norm_num) (by norm_num) (by norm_num)
        (roundF32_of_eq _ 5231 (-3) (by norm_num) (by norm_num) (by norm_num)) (by norm_num)
    unfold Oscillator.new
    simp only [h, hfl]
    rfl
  · rw [round_eq, Int.floor_eq_iff]
    norm_num

/-- At 44100 Hz the frequency 6536 Hz has the exact quotient 9712.9999..., which
rounds to the float 9713: the stored increment is 9713, one more than the floor of
the exact quotient. -/
theorem Oscillator.setFrequency_6536 (o : Oscillator) (h : o._sampleRate = 44100) :
    o.setFrequency 6536 = some { o with _frequency := 6536, _phaseIncrement := 9713 } ∧
    ⌊(6536 : ℚ) * 65536 / 44100⌋ = 9712 := by
  have ha : roundF32 ((6536 : ℚ) * 65536) = 6536 * 65536 :=
    roundF32_of_eq _ 6536 16 (by norm_num) (by norm_num) (by norm_num)
  have hb : roundF32 (((44100 : ℕ) : ℚ)) = 44100 := by
    rw [roundF32_natCast 44100 (by norm_num)]; norm_num
  have hq : roundF32 ((6536 : ℚ) * 65536 / 44100) = 9713 := by
    have := roundF32_of_near ((6536 : ℚ) * 65536 / 44100) (1 / 1024) 13 9946112
      (by norm_num) (by norm_num) (by norm_num) (by norm_num) (by norm_num) (by norm_num)
    rw [this]
    norm_num
  constructor
  · have hsr : 0 < o._sampleRate := by omega
    have h1 := (Oscillator.setFrequency_eq_floor o 6536 hsr (by norm_num)
      (by rw [h, ha, hb]; norm_num)).1
    rw [h1, h, ha, hb, hq]
    have : ⌊(9713 : ℚ)⌋ = 9713 := by
      exact_mod_cast Int.floor_intCast (α := ℚ) 9713
    rw [this]
    rfl
  · rw [Int.floor_eq_iff]
    norm_num

/-- C11 (amended): for a positive sample rate and a frequency `f ≥ 0` whose float
quotient `q = fl (f * 65536) / fl sampleRate` is below 65535.5, `setFrequency(f)`
stores `f` and sets the phase increment to the float nearest to `q` truncated to an
integer: this is the floor of `q` or one more, never more than 65535; when
`f * 65536` and the sample rate are floats, `q` is the exact `f * 65536 / sampleRate`. -/
theorem setFrequency_truncates (o : Oscillator) (f : ℚ)
    (hsr : 0 < o._sampleRate) (hf : 0 ≤ f)
    (hq : roundF32 (f * 65536) / roundF32 (o._sampleRate : ℚ) < 131071 / 2) :
    ∃ k : ℕ,
      o.setFrequency f = some { o with _frequency := f, _phaseIncrement := k } ∧
      (k : ℤ) = ⌊roundF32 (roundF32 (f * 65536) / roundF32 (o._sampleRate : ℚ))⌋ ∧
      ⌊roundF32 (f * 65536) / roundF32 (o._sampleRate : ℚ)⌋ ≤ (k : ℤ) ∧
      (k : ℤ) ≤ ⌊roundF32 (f * 65536) / roundF32 (o._sampleRate : ℚ)⌋ + 1 ∧
      k ≤ 65535 ∧
      (roundF32 (f * 65536) = f * 65536 →
        roundF32 (o._sampleRate : ℚ) = (o._sampleRate : ℚ) →
        roundF32 (f * 65536) / roundF32 (o._sampleRate : ℚ)
          = f * 65536 / (o._sampleRate : ℚ)) := by
  obtain ⟨hset, hq0, h0, hhi⟩ := Oscillator.setFrequency_eq_floor o f hsr hf hq
  have hb := floor_roundF32_bounds _ hq0 (by linarith)
  have hfl0 : 0 ≤ ⌊roundF32 (roundF32 (f * 65536) / roundF32 (o._sampleRate : ℚ))⌋ :=
    Int.floor_nonneg.2 h0
  have hfl1 : ⌊roundF32 (roundF32 (f * 65536) / roundF32 (o._sampleRate : ℚ))⌋ < 65536 :=
    Int.floor_lt.2 (by push_cast; linarith)
  refine ⟨Int.toNat ⌊roundF32 (roundF32 (f * 65536) / roundF32 (o._sampleRate : ℚ))⌋,
    hset, Int.toNat_of_nonneg hfl0, ?_, ?_, by omega, ?_⟩
  · rw [Int.toNat_of_nonneg hfl0]; exact hb.1
  · rw [Int.toNat_of_nonneg hfl0]; exact hb.2
  · intro h1 h2
    rw [h1, h2]

/-- C11 (witness): 441 Hz at 44100 Hz; the product and the sample rate are floats and
the quotient is 655.36. -/
theorem setFrequency_truncates_witness :
    ∃ k : ℕ,
      Oscillator.setFrequency ⟨44100, 440, 0, 653, Waveform.SINE, 128⟩ 441
        = some ⟨44100, 441, 0, k, Waveform.SINE, 128⟩ ∧
      (k : ℤ) = ⌊roundF32 (roundF32 ((441 : ℚ) * 65536) / roundF32 ((44100 : ℕ) : ℚ))⌋ ∧
      ⌊roundF32 ((441 : ℚ) * 65536) / roundF32 ((44100 : ℕ) : ℚ)⌋ ≤ (k : ℤ) ∧
      (k : ℤ) ≤ ⌊roundF32 ((441 : ℚ) * 65536) / roundF32 ((44100 : ℕ) : ℚ)⌋ + 1 ∧
      k ≤ 65535 ∧
      (roundF32 ((441 : ℚ) * 65536) = 441 * 65536 →
        roundF32 ((44100 : ℕ) : ℚ) = ((44100 : ℕ) : ℚ) →
        roundF32 ((441 : ℚ) * 65536) / roundF32 ((44100 : ℕ) : ℚ)
          = 441 * 65536 / ((44100 : ℕ) : ℚ)) :=
  setFrequency_truncates ⟨44100, 440, 0, 653, Waveform.SINE, 128⟩ 441
    (by decide) (by norm_num)
    (by
      rw [roundF32_of_eq ((441 : ℚ) * 65536) 441 16 (by norm_num) (by norm_num) (by norm_num),
        roundF32_natCast 44100 (by norm_num)]
      norm_num)

/-- Value returned by the triangle branch for a phase below 65536. -/
theorem Oscillator.nextSample_triangle (o : Oscillator)
    (hw : o._waveform = Waveform.TRIANGLE) (hp : o._phase < 65536) :
    o.nextSample.2
      = if o._phase / 256 < 128 then o._phase / 256 * 2
        else 255 - (o._phase / 256 - 128) * 2 := by
  have hi : o._phase / 256 % 256 = o._phase / 256 := by omega
  simp only [Oscillator.nextSample, hw, hi]
  split_ifs <;> omega

/-- C12: with `i = phase div 256` read before the phase advances, `nextSample()`
returns `SINE_TABLE[i]` for sine, 255 or 0 around `i = 128` for square, `i` for
sawtooth, 255 or 0 around `i = pulseWidth` for pulse, and for triangle a value in
0..255 that is 0 at `i = 0`, does not decrease in `i` up to 128 and does not
increase in `i` from 128 on. -/
theorem oscillator_waveform_shaping (o : Oscillator) (hp : o._phase < 65536) :
    (o._waveform = Waveform.SINE →
      o.nextSample.2 = pgm_read_byte SINE_TABLE (o._phase / 256)) ∧
    (o._waveform = Waveform.SQUARE →
      o.nextSample.2 = if o._phase / 256 < 128 then 255 else 0) ∧
    (o._waveform = Waveform.SAWTOOTH → o.nextSample.2 = o._phase / 256) ∧
    (o._waveform = Waveform.PULSE →
      o.nextSample.2 = if o._phase / 256 < o._pulseWidth then 255 else 0) ∧
    (o._waveform = Waveform.TRIANGLE →
      o.nextSample.2 ≤ 255 ∧
      (o._phase / 256 = 0 → o.nextSample.2 = 0) ∧
      ∀ o2 : Oscillator, o2._waveform = Waveform.TRIANGLE → o2._phase < 65536 →
        o._phase / 256 ≤ o2._phase / 256 →
        (o2._phase / 256 ≤ 128 → o.nextSample.2 ≤ o2.nextSample.2) ∧
        (128 ≤ o._phase / 256 → o2.nextSample.2 ≤ o.nextSample.2)) := by
  have hi : o._phase / 256 % 256 = o._phase / 256 := by omega
  refine ⟨?_, ?_, ?_, ?_, ?_⟩
  · intro hw; simp only [Oscillator.nextSample, hw, hi]
  · intro hw; simp only [Oscillator.nextSample, hw, hi]
  · intro hw; simp only [Oscillator.nextSample, hw, hi]
  · intro hw; simp only [Oscillator.nextSample, hw, hi]
  · intro hw
    rw [Oscillator.nextSample_triangle o hw hp]
    refine ⟨?_, ?_, ?_⟩
    · split_ifs <;> omega
    · intro h0; rw [h0]; rfl
    · intro o2 hw2 hp2 hle
      rw [Oscillator.nextSample_triangle o2 hw2 hp2]
      constructor
      · intro h
        split_ifs <;> omega
      · intro h
        split_ifs <;> omega

/-- C12 (witness): a triangle oscillator at phase 40000, index 156. -/
theorem oscillator_waveform_shaping_witness :
    ((⟨44100, 440, 40000, 653, Waveform.TRIANGLE, 128⟩ : Oscillator)._waveform = Waveform.SINE →
      (Oscillator.nextSample ⟨44100, 440, 40000, 653, Waveform.TRIANGLE, 128⟩).2
        = pgm_read_byte SINE_TABLE
            ((⟨44100, 440, 40000, 653, Waveform.TRIANGLE, 128⟩ : Oscillator)._phase / 256)) ∧
    ((⟨44100, 440, 40000, 653, Waveform.TRIANGLE, 128⟩ : Oscillator)._waveform = Waveform.SQUARE →
      (Oscillator.nextSample ⟨44100, 440, 40000, 653, Waveform.TRIANGLE, 128⟩).2
        = if (⟨44100, 440, 40000, 653, Waveform.TRIANGLE, 128⟩ : Oscillator)._phase / 256 < 128
          then 255 else 0) ∧
    ((⟨44100, 440, 40000, 653, Waveform.TRIANGLE, 128⟩ : Oscillator)._waveform = Waveform.SAWTOOTH →
      (Oscillator.nextSample ⟨44100, 440, 40000, 653, Waveform.TRIANGLE, 128⟩).2
        = (⟨44100, 440, 40000, 653, Waveform.TRIANGLE, 128⟩ : Oscillator)._phase / 256) ∧
    ((⟨44100, 440, 40000, 653, Waveform.TRIANGLE, 128⟩ : Oscillator)._waveform = Waveform.PULSE →
      (Oscillator.nextSample ⟨44100, 440, 40000, 653, Waveform.TRIANGLE, 128⟩).2
        = if (⟨44100, 440, 40000, 653, Waveform.TRIANGLE, 128⟩ : Oscillator)._phase / 256
            < (⟨44100, 440, 40000, 653, Waveform.TRIANGLE, 128⟩ : Oscillator)._pulseWidth
          then 255 else 0) ∧
    ((⟨44100, 440, 40000, 653, Waveform.TRIANGLE, 128⟩ : Oscillator)._waveform = Waveform.TRIANGLE →
      (Oscillator.nextSample ⟨44100, 440, 40000, 653, Waveform.TRIANGLE, 128⟩).2 ≤ 255 ∧
      ((⟨44100, 440, 40000, 653, Waveform.TRIANGLE, 128⟩ : Oscillator)._phase / 256 = 0 →
        (Oscillator.nextSample ⟨44100, 440, 40000, 653, Waveform.TRIANGLE, 128⟩).2 = 0) ∧
      ∀ o2 : Oscillator, o2._waveform = Waveform.TRIANGLE → o2._phase < 65536 →
        (⟨44100, 440, 40000, 653, Waveform.TRIANGLE, 128⟩ : Oscillator)._phase / 256
          ≤ o2._phase / 256 →
        (o2._phase / 256 ≤ 128 →
          (Oscillator.nextSample ⟨44100, 440, 40000, 653, Waveform.TRIANGLE, 128⟩).2
            ≤ o2.nextSample.2) ∧
        (128 ≤ (⟨44100, 440, 40000, 653, Waveform.TRIANGLE, 128⟩ : Oscillator)._phase / 256 →
          o2.nextSample.2
            ≤ (Oscillator.nextSample ⟨44100, 440, 40000, 653, Waveform.TRIANGLE, 128⟩).2)) :=
  oscillator_waveform_shaping ⟨44100, 440, 40000, 653, Waveform.TRIANGLE, 128⟩ (by decide)

/-! ## LFO -/

/-- The raw waveform value of the LFO is a byte. -/
theorem LFO.waveformValue_le (wf : Waveform) (i : Nat) (hi : i < 256) :
    LFO.waveformValue wf i ≤ 255 := by
  cases wf
  · -- sine: every table entry is a byte
    have h : ∀ j, j < 256 → pgm_read_byte SINE_TABLE j ≤ 255 := by decide!
    exact h i hi
  · simp only [LFO.waveformValue]; split_ifs <;> omega
  · simp only [LFO.waveformValue]; omega
  · simp only [LFO.waveformValue]; omega
  · simp only [LFO.waveformValue]; split_ifs <;> omega

/-- The byte returned by `nextSample()` in terms of the raw waveform value. -/
theorem LFO.nextSample_snd (l : LFO) (hd : l._depth ≤ 255) :
    l.nextSample.2
      = LFO.waveformValue l._waveform (l._phase / 65536 % 256) * l._depth / 256 ∧
    LFO.waveformValue l._waveform (l._phase / 65536 % 256) ≤ 255 ∧
    l.nextSample.2 ≤ 255 * l._depth / 256 := by
  have hraw := LFO.waveformValue_le l._waveform (l._phase / 65536 % 256)
    (Nat.mod_lt _ (by norm_num))
  have hdef : l.nextSample.2
      = LFO.waveformValue l._waveform (l._phase / 65536 % 256) * l._depth % 65536 / 256 % 256 :=
    rfl
  rw [hdef]
  generalize LFO.waveformValue l._waveform (l._phase / 65536 % 256) = raw at hraw ⊢
  have hprod : raw * l._depth ≤ 255 * l._depth := Nat.mul_le_mul_right _ hraw
  have hprod2 : 255 * l._depth ≤ 255 * 255 := Nat.mul_le_mul_left _ hd
  have hdiv : raw * l._depth / 256 ≤ 255 * l._depth / 256 := Nat.div_le_div_right hprod
  have hval : raw * l._depth % 65536 / 256 % 256 = raw * l._depth / 256 := by omega
  rw [hval]
  exact ⟨rfl, hraw, hdiv⟩

/-- When the increment is at most 16777216 and the phase is below 16777216, one
call advances the phase modulo 16777216. -/
theorem LFO.nextSample_phase_of_le (l : LFO) (hp : l._phase < 16777216)
    (hi : l._phaseIncrement ≤ 16777216) :
    l.nextSample.1._phase = (l._phase + l._phaseIncrement) % 16777216 ∧
    l.nextSample.1._phase < 16777216 := by
  have h : l.nextSample.1._phase
      = if (l._phase + l._phaseIncrement) % 4294967296 ≥ 16777216
        then (l._phase + l._phaseIncrement) % 4294967296 - 16777216
        else (l._phase + l._phaseIncrement) % 4294967296 := rfl
  rw [h]
  split_ifs <;> omega

/-- Whatever the increment, the stored phase after one call is congruent to
`phase + increment` modulo 16777216, so the index byte `phase >> 16` of later calls
is that of the reduced phase. -/
theorem LFO.nextSample_phase_mod (l : LFO) :
    l.nextSample.1._phase % 16777216 = (l._phase + l._phaseIncrement) % 16777216 ∧
    l.nextSample.1._phase / 65536 % 256
      = (l._phase + l._phaseIncrement) % 16777216 / 65536 := by
  have h : l.nextSample.1._phase
      = if (l._phase + l._phaseIncrement) % 4294967296 ≥ 16777216
        then (l._phase + l._phaseIncrement) % 4294967296 - 16777216
        else (l._phase + l._phaseIncrement) % 4294967296 := rfl
  rw [h]
  split_ifs <;> omega

/-- The default LFO at 44100 Hz: rate 1 Hz, increment 380, depth 127, sine. -/
theorem LFO.new_44100 : LFO.new 44100 = some ⟨44100, 1, 127, 0, 380, Waveform.SINE⟩ := by
  have ha : roundF32 ((1 : ℚ) * 16777216) = 1 * 16777216 :=
    roundF32_of_eq _ 1 24 (by norm_num) (by norm_num) (by norm_num)
  have hb : roundF32 ((44100 : ℕ) : ℚ) = 44100 := by
    rw [roundF32_natCast 44100 (by norm_num)]; norm_num
  have hfl : ⌊roundF32 ((1 : ℚ) * 16777216 / 44100)⌋ = ((380 : ℕ) : ℤ) :=
    floor_roundF32_of_le_half _ 380 (by norm_num) (by norm_num) (by norm_num)
  have h0 : 0 ≤ roundF32 ((1 : ℚ) * 16777216 / 44100) := roundF32_nonneg _ (by norm_num)
  have hlt : roundF32 ((1 : ℚ) * 16777216 / 44100) < 4294967296 := by
    have := Int.lt_floor_add_one (roundF32 ((1 : ℚ) * 16777216 / 44100))
    rw [hfl] at this
    push_cast at this
    linarith
  unfold LFO.new LFO.setRate
  simp only [ha, hb, abs_of_nonneg h0, hfl]
  rw [if_neg (by norm_num), if_pos ⟨by linarith, hlt⟩]
  rfl

/-- The rate 88200 Hz at 44100 Hz gives the increment 33554432. -/
theorem LFO.setRate_88200 (l : LFO) (h : l._sampleRate = 44100) :
    l.setRate 88200 = some { l with _rate := 88200, _phaseIncrement := 33554432 } := by
  have ha : roundF32 ((88200 : ℚ) * 16777216) = 88200 * 16777216 :=
    roundF32_of_eq _ 11025 27 (by norm_num) (by norm_num) (by norm_num)
  have hb : roundF32 ((44100 : ℕ) : ℚ) = 44100 := by
    rw [roundF32_natCast 44100 (by norm_num)]; norm_num
  have hq : roundF32 ((88200 : ℚ) * 16777216 / 44100) = 33554432 := by
    have h1 : (88200 : ℚ) * 16777216 / 44100 = 33554432 := by norm_num
    rw [h1]
    exact roundF32_of_eq _ 1 25 (by norm_num) (by norm_num) (by norm_num)
  have hfl : Int.floor (|(33554432 : ℚ)|) = 33554432 := by
    rw [abs_of_pos (by norm_num)]
    exact Int.floor_intCast (33554432 : ℤ)
  unfold LFO.setRate
  rw [h, if_neg (by norm_num)]
  simp only [ha, hb, hq, hfl]
  rw [if_pos (by norm_num)]
  rfl

/-- C13 (code defect): after `setRate(88200)` at 44100 Hz the increment is 33554432;
from phase 0 one `nextSample()` stores the phase 16777216, which is neither below
16777216 nor equal to `(0 + 33554432) mod 16777216 = 0`: a single subtraction of
16777216 follows the addition. -/
theorem lfo_phase_leaves_24_bits :
    ∃ l : LFO, ((LFO.new 44100).bind fun a => a.setRate 88200) = some l ∧
      l._phase = 0 ∧ l._phaseIncrement = 33554432 ∧
      l.nextSample.1._phase = 16777216 ∧
      (l._phase + l._phaseIncrement) % 16777216 = 0 ∧
      ¬ (l.nextSample.1._phase < 16777216) := by
  refine ⟨⟨44100, 88200, 127, 0, 33554432, Waveform.SINE⟩, ?_, rfl, rfl, by decide, by decide,
    by decide⟩
  have h1 := LFO.new_44100
  rw [h1, Option.some_bind,
    LFO.setRate_88200 ⟨44100, 1, 127, 0, 380, Waveform.SINE⟩ rfl]

/-- C14: for a phase below 16777216 and a depth of at most 255, `nextSample()` returns
`floor (raw * depth / 256)`, where `raw ≤ 255` is the waveform value at the index
`phase div 65536` read before the phase advances; the quotient is truncated. -/
theorem lfo_nextSample_depth_scaling (l : LFO) (hp : l._phase < 16777216)
    (hd : l._depth ≤ 255) :
    LFO.waveformValue l._waveform (l._phase / 65536) ≤ 255 ∧
    l.nextSample.2 = LFO.waveformValue l._waveform (l._phase / 65536) * l._depth / 256 ∧
    l.nextSample.2 * 256 ≤ LFO.waveformValue l._waveform (l._phase / 65536) * l._depth ∧
    LFO.waveformValue l._waveform (l._phase / 65536) * l._depth
      < (l.nextSample.2 + 1) * 256 := by
  have hi : l._phase / 65536 % 256 = l._phase / 65536 := by omega
  obtain ⟨h1, h2, _⟩ := LFO.nextSample_snd l hd
  rw [hi] at h1 h2
  rw [h1]
  generalize LFO.waveformValue l._waveform (l._phase / 65536) * l._depth = p
  refine ⟨h2, rfl, ?_, ?_⟩ <;> omega

/-- C14 (witness): the default LFO at 44100 Hz (sine, depth 127) at phase 5000000. -/
theorem lfo_nextSample_depth_scaling_witness :
    LFO.waveformValue (⟨44100, 1, 127, 5000000, 380, Waveform.SINE⟩ : LFO)._waveform
        ((⟨44100, 1, 127, 5000000, 380, Waveform.SINE⟩ : LFO)._phase / 65536) ≤ 255 ∧
    (LFO.nextSample ⟨44100, 1, 127, 5000000, 380, Waveform.SINE⟩).2
      = LFO.waveformValue (⟨44100, 1, 127, 5000000, 380, Waveform.SINE⟩ : LFO)._waveform
          ((⟨44100, 1, 127, 5000000, 380, Waveform.SINE⟩ : LFO)._phase / 65536)
        * (⟨44100, 1, 127, 5000000, 380, Waveform.SINE⟩ : LFO)._depth / 256 ∧
    (LFO.nextSample ⟨44100, 1, 127, 5000000, 380, Waveform.SINE⟩).2 * 256
      ≤ LFO.waveformValue (⟨44100, 1, 127, 5000000, 380, Waveform.SINE⟩ : LFO)._waveform
          ((⟨44100, 1, 127, 5000000, 380, Waveform.SINE⟩ : LFO)._phase / 65536)
        * (⟨44100, 1, 127, 5000000, 380, Waveform.SINE⟩ : LFO)._depth ∧
    LFO.waveformValue (⟨44100, 1, 127, 5000000, 380, Waveform.SINE⟩ : LFO)._waveform
          ((⟨44100, 1, 127, 5000000, 380, Waveform.SINE⟩ : LFO)._phase / 65536)
        * (⟨44100, 1, 127, 5000000, 380, Waveform.SINE⟩ : LFO)._depth
      < ((LFO.nextSample ⟨44100, 1, 127, 5000000, 380, Waveform.SINE⟩).2 + 1) * 256 :=
  lfo_nextSample_depth_scaling ⟨44100, 1, 127, 5000000, 380, Waveform.SINE⟩
    (by decide) (by decide)

/-- `toInt8` leaves the values of the `int8_t` range unchanged. -/
theorem toInt8_of_mem (x : Int) (h1 : -128 ≤ x) (h2 : x ≤ 127) : toInt8 x = x := by
  unfold toInt8
  omega

/-- C15: for a depth of at most 255, `nextSampleBipolar()` returns
`nextSample() - floor (depth / 2)` as an integer; `nextSample()` is at most
`floor (255 * depth / 256)`, the difference lies in `[-127, 127]`, and the state
advances as in `nextSample()`. -/
theorem lfo_bipolar_exact (l : LFO) (hd : l._depth ≤ 255) :
    l.nextSampleBipolar.2 = (l.nextSample.2 : Int) - ((l._depth / 2 : Nat) : Int) ∧
    l.nextSample.2 ≤ 255 * l._depth / 256 ∧
    -127 ≤ (l.nextSample.2 : Int) - ((l._depth / 2 : Nat) : Int) ∧
    (l.nextSample.2 : Int) - ((l._depth / 2 : Nat) : Int) ≤ 127 ∧
    l.nextSampleBipolar.1 = l.nextSample.1 := by
  obtain ⟨_, _, h3⟩ := LFO.nextSample_snd l hd
  have hlo : -127 ≤ (l.nextSample.2 : Int) - ((l._depth / 2 : Nat) : Int) := by omega
  have hhi : (l.nextSample.2 : Int) - ((l._depth / 2 : Nat) : Int) ≤ 127 := by omega
  refine ⟨?_, h3, hlo, hhi, rfl⟩
  show toInt8 ((l.nextSample.2 : Int) - ((l._depth / 2 : Nat) : Int)) = _
  exact toInt8_of_mem _ (by omega) hhi

/-- C15 (witness): a square LFO of depth 255 at phase 0: `254 - 127 = 127`. -/
theorem lfo_bipolar_exact_witness :
    (LFO.nextSampleBipolar ⟨44100, 1, 255, 0, 380, Waveform.SQUARE⟩).2
      = ((LFO.nextSample ⟨44100, 1, 255, 0, 380, Waveform.SQUARE⟩).2 : Int)
        - (((⟨44100, 1, 255, 0, 380, Waveform.SQUARE⟩ : LFO)._depth / 2 : Nat) : Int) ∧
    (LFO.nextSample ⟨44100, 1, 255, 0, 380, Waveform.SQUARE⟩).2
      ≤ 255 * (⟨44100, 1, 255, 0, 380, Waveform.SQUARE⟩ : LFO)._depth / 256 ∧
    -127 ≤ ((LFO.nextSample ⟨44100, 1, 255, 0, 380, Waveform.SQUARE⟩).2 : Int)
        - (((⟨44100, 1, 255, 0, 380, Waveform.SQUARE⟩ : LFO)._depth / 2 : Nat) : Int) ∧
    ((LFO.nextSample ⟨44100, 1, 255, 0, 380, Waveform.SQUARE⟩).2 : Int)
        - (((⟨44100, 1, 255, 0, 380, Waveform.SQUARE⟩ : LFO)._depth / 2 : Nat) : Int) ≤ 127 ∧
    (LFO.nextSampleBipolar ⟨44100, 1, 255, 0, 380, Waveform.SQUARE⟩).1
      = (LFO.nextSample ⟨44100, 1, 255, 0, 380, Waveform.SQUARE⟩).1 :=
  lfo_bipolar_exact ⟨44100, 1, 255, 0, 380, Waveform.SQUARE⟩ (by decide)

/-- C16: for a depth of at most 255, `nextSampleFloat()` over exact rationals is
`((s - 128) / 128) * (depth / 255)` with `s` the value of `nextSample()`; it lies in
`[-1, 1]` and its magnitude is at most `depth / 255`. -/
theorem lfo_float_range (l : LFO) (hd : l._depth ≤ 255) :
    l.nextSampleFloat.2
      = (((l.nextSample.2 : Int) - 128 : Int) : ℚ) / 128 * ((l._depth : ℚ) / 255) ∧
    -1 ≤ l.nextSampleFloat.2 ∧ l.nextSampleFloat.2 ≤ 1 ∧
    |l.nextSampleFloat.2| ≤ (l._depth : ℚ) / 255 := by
  obtain ⟨_, _, h3⟩ := LFO.nextSample_snd l hd
  have hs : l.nextSample.2 ≤ 254 := by omega
  have hval : l.nextSampleFloat.2
      = (((l.nextSample.2 : Int) - 128 : Int) : ℚ) / 128 * ((l._depth : ℚ) / 255) := rfl
  have hd0 : (0 : ℚ) ≤ (l._depth : ℚ) / 255 := by positivity
  have hd1 : (l._depth : ℚ) / 255 ≤ 1 := by
    rw [div_le_one (by norm_num)]
    exact_mod_cast hd
  have hb : |(((l.nextSample.2 : Int) - 128 : Int) : ℚ) / 128| ≤ 1 := by
    have h1 : (((l.nextSample.2 : Int) - 128 : Int) : ℚ) ≤ 126 := by
      exact_mod_cast (show (l.nextSample.2 : Int) - 128 ≤ 126 by omega)
    have h2 : (-128 : ℚ) ≤ (((l.nextSample.2 : Int) - 128 : Int) : ℚ) := by
      exact_mod_cast (show (-128 : Int) ≤ (l.nextSample.2 : Int) - 128 by omega)
    rw [abs_le]
    constructor
    · rw [le_div_iff₀ (by norm_num)]; linarith
    · rw [div_le_iff₀ (by norm_num)]; linarith
  have habs : |l.nextSampleFloat.2| ≤ (l._depth : ℚ) / 255 := by
    rw [hval, abs_mul, abs_of_nonneg hd0]
    calc |(((l.nextSample.2 : Int) - 128 : Int) : ℚ) / 128| * ((l._depth : ℚ) / 255)
        ≤ 1 * ((l._depth : ℚ) / 255) := mul_le_mul_of_nonneg_right hb hd0
      _ = (l._depth : ℚ) / 255 := one_mul _
  have h1 := abs_le.1 (habs.trans hd1)
  exact ⟨hval, h1.1, h1.2, habs⟩

/-- C16 (witness): the default LFO at 44100 Hz (sine, depth 127) at phase 0. -/
theorem lfo_float_range_witness :
    (LFO.nextSampleFloat ⟨44100, 1, 127, 0, 380, Waveform.SINE⟩).2
      = ((((LFO.nextSample ⟨44100, 1, 127, 0, 380, Waveform.SINE⟩).2 : Int) - 128 : Int) : ℚ)
          / 128 * ((((⟨44100, 1, 127, 0, 380, Waveform.SINE⟩ : LFO)._depth : ℕ) : ℚ) / 255) ∧
    -1 ≤ (LFO.nextSampleFloat ⟨44100, 1, 127, 0, 380, Waveform.SINE⟩).2 ∧
    (LFO.nextSampleFloat ⟨44100, 1, 127, 0, 380, Waveform.SINE⟩).2 ≤ 1 ∧
    |(LFO.nextSampleFloat ⟨44100, 1, 127, 0, 380, Waveform.SINE⟩).2|
      ≤ (((⟨44100, 1, 127, 0, 380, Waveform.SINE⟩ : LFO)._depth : ℕ) : ℚ) / 255 :=
  lfo_float_range ⟨44100, 1, 127, 0, 380, Waveform.SINE⟩ (by decide)

/-- With depth 0 the LFO returns 0 and `modulateAmplitude` multiplies by 255 / 256:
the result is `floor (baseAmp * 255 / 256)`, whatever the width of `int`. -/
theorem LFO.modulateAmplitude_depth_zero (w : Nat) (l : LFO) (hd : l._depth = 0)
    (baseAmp : Nat) (hb : baseAmp ≤ 255) :
    l.modulateAmplitude w baseAmp = some (l.nextSample.1, baseAmp * 255 / 256) := by
  have hs : l.nextSample.2 = 0 := by
    show LFO.waveformValue l._waveform (l._phase / 65536 % 256) * l._depth % 65536 / 256 % 256 = 0
    rw [hd]; simp
  have hm : baseAmp * 255 ≤ 255 * 255 := Nat.mul_le_mul_right _ hb
  unfold LFO.modulateAmplitude
  simp only [hs, hd]
  rw [if_neg (by omega)]
  have hmod : (255 - (255 - 0) * 0 / 256) % 65536 = 255 := by norm_num
  rw [hmod]
  generalize baseAmp * 255 = q at hm
  have : q % 65536 / 256 % 256 = q / 256 := by omega
  rw [this]

/-- Where the `int` product cannot overflow, `modulateAmplitude` returns
`floor (baseAmp * modAmount / 256)` with
`modAmount = 255 - floor ((255 - lfoVal) * depth / 256)`. -/
theorem LFO.modulateAmplitude_formula (w : Nat) (l : LFO) (hd : l._depth ≤ 255)
    (baseAmp : Nat) (hb : baseAmp ≤ 255)
    (hw : 16 < w ∨ (255 - l.nextSample.2) * l._depth ≤ 32767) :
    l.modulateAmplitude w baseAmp
      = some (l.nextSample.1,
          baseAmp * (255 - (255 - l.nextSample.2) * l._depth / 256) / 256) := by
  have hp : (255 - l.nextSample.2) * l._depth ≤ 255 * 255 :=
    Nat.mul_le_mul (by omega) hd
  have hc : ¬ (w ≤ 16 ∧ 32767 < (255 - l.nextSample.2) * l._depth) := by
    rcases hw with h | h <;> omega
  unfold LFO.modulateAmplitude
  simp only [if_neg hc]
  generalize (255 - l.nextSample.2) * l._depth = p at hp
  have hm : (255 - p / 256) % 65536 = 255 - p / 256 := by omega
  have hle : baseAmp * (255 - p / 256) ≤ 255 * 255 := Nat.mul_le_mul hb (by omega)
  rw [hm]
  generalize baseAmp * (255 - p / 256) = q at hle
  have : q % 65536 / 256 % 256 = q / 256 := by omega
  rw [this]

/-- C17 (counterexample): with depth 0 `modulateAmplitude` does not return the base
amplitude: 255 gives 254, 128 gives 127 and 1 gives 0, the value
`floor (baseAmp * 255 / 256)` of the formula itself.  With a 16-bit `int` and depth
255 the product `(255 - 0) * 255` overflows `int`. -/
theorem modulateAmplitude_depth_zero_loses_one :
    ∃ l : LFO, (LFO.new 44100).map (fun a => a.setDepth 0) = some l ∧ l._depth = 0 ∧
      (l.modulateAmplitude 16 255).map Prod.snd = some 254 ∧
      (l.modulateAmplitude 32 255).map Prod.snd = some 254 ∧
      (l.modulateAmplitude 16 128).map Prod.snd = some 127 ∧
      (l.modulateAmplitude 16 1).map Prod.snd = some 0 ∧
      ((l.setDepth 255).setWaveform Waveform.SAWTOOTH).modulateAmplitude 16 255 = none := by
  have h1 := LFO.new_44100
  refine ⟨⟨44100, 1, 0, 0, 380, Waveform.SINE⟩, by rw [h1]; rfl, rfl, ?_, ?_, ?_, ?_, ?_⟩
  · rw [LFO.modulateAmplitude_depth_zero 16 _ rfl 255 (by decide)]; rfl
  · rw [LFO.modulateAmplitude_depth_zero 32 _ rfl 255 (by decide)]; rfl
  · rw [LFO.modulateAmplitude_depth_zero 16 _ rfl 128 (by decide)]; rfl
  · rw [LFO.modulateAmplitude_depth_zero 16 _ rfl 1 (by decide)]; rfl
  · decide

/-- C17 (amended): for a depth and a base amplitude of at most 255, wherever the `int`
product `(255 - lfoVal) * depth` does not overflow (always when `int` has more than
16 bits, and with a 16-bit `int` when the product is at most 32767),
`modulateAmplitude(baseAmp)` returns `floor (baseAmp * modAmount / 256)` with
`modAmount = 255 - floor ((255 - lfoVal) * depth / 256)` and `lfoVal` the value of
`nextSample()`; the result never exceeds `baseAmp`, and with depth 0 it is
`floor (baseAmp * 255 / 256)`, which is `baseAmp - 1` for every `baseAmp ≥ 1`. -/
theorem modulateAmplitude_scaled_result (w : Nat) (l : LFO) (baseAmp : Nat)
    (hd : l._depth ≤ 255) (hb : baseAmp ≤ 255)
    (hw : 16 < w ∨ (255 - l.nextSample.2) * l._depth ≤ 32767) :
    l.modulateAmplitude w baseAmp
      = some (l.nextSample.1,
          baseAmp * (255 - (255 - l.nextSample.2) * l._depth / 256) / 256) ∧
    baseAmp * (255 - (255 - l.nextSample.2) * l._depth / 256) / 256 ≤ baseAmp ∧
    (l._depth = 0 →
      l.modulateAmplitude w baseAmp = some (l.nextSample.1, baseAmp * 255 / 256) ∧
      (1 ≤ baseAmp → baseAmp * 255 / 256 = baseAmp - 1) ∧
      (baseAmp = 0 → baseAmp * 255 / 256 = 0)) := by
  refine ⟨LFO.modulateAmplitude_formula w l hd baseAmp hb hw, ?_, ?_⟩
  · generalize (255 - l.nextSample.2) * l._depth / 256 = p
    have : baseAmp * (255 - p) ≤ baseAmp * 255 := Nat.mul_le_mul_left _ (by omega)
    omega
  · intro h0
    refine ⟨LFO.modulateAmplitude_depth_zero w l h0 baseAmp hb, ?_, ?_⟩
    · intro h1; omega
    · intro h1; omega

/-- C17 (witness): depth 0, sine, phase 0, base amplitude 255 with a 16-bit `int`: the
result is 254. -/
theorem modulateAmplitude_scaled_result_witness :
    LFO.modulateAmplitude 16 ⟨44100, 1, 0, 0, 380, Waveform.SINE⟩ 255
      = some ((LFO.nextSample ⟨44100, 1, 0, 0, 380, Waveform.SINE⟩).1, 255 * 255 / 256) ∧
    255 * 255 / 256 = 255 - 1 :=
  ⟨((modulateAmplitude_scaled_result 16 ⟨44100, 1, 0, 0, 380, Waveform.SINE⟩ 255
      (by decide) (by decide) (Or.inr (by decide))).2.2 rfl).1,
   ((modulateAmplitude_scaled_result 16 ⟨44100, 1, 0, 0, 380, Waveform.SINE⟩ 255
      (by decide) (by decide) (Or.inr (by decide))).2.2 rfl).2.1 (by decide)⟩

/-! ## One-pole filter -/

/-- For byte-sized coefficient, state and input the 16-bit intermediate of `process`
does not wrap: the result is `floor ((x * (256 - c) + y * c) / 256)` and the sum
lies between `256 * min x y` and `256 * max x y`. -/
theorem OnePoleFilter.process_eq (f : OnePoleFilter) (x : Nat)
    (hc : f._coefficient ≤ 255) (hy : f._lastOutput ≤ 255) (hx : x ≤ 255) :
    (f.process x).2 = (x * (256 - f._coefficient) + f._lastOutput * f._coefficient) / 256 ∧
    (f.process x).1 = { f with _lastOutput := (f.process x).2 } ∧
    min x f._lastOutput * 256 ≤ x * (256 - f._coefficient) + f._lastOutput * f._coefficient ∧
    x * (256 - f._coefficient) + f._lastOutput * f._coefficient ≤ max x f._lastOutput * 256 := by
  have hsum : ∀ m : Nat, m * (256 - f._coefficient) + m * f._coefficient = m * 256 := by
    intro m
    rw [← Nat.mul_add, Nat.sub_add_cancel (by omega)]
  have hlo : min x f._lastOutput * 256
      ≤ x * (256 - f._coefficient) + f._lastOutput * f._coefficient := by
    rw [← hsum]
    exact Nat.add_le_add (Nat.mul_le_mul_right _ (min_le_left _ _))
      (Nat.mul_le_mul_right _ (min_le_right _ _))
  have hhi : x * (256 - f._coefficient) + f._lastOutput * f._coefficient
      ≤ max x f._lastOutput * 256 := by
    rw [← hsum]
    exact Nat.add_le_add (Nat.mul_le_mul_right _ (le_max_left _ _))
      (Nat.mul_le_mul_right _ (le_max_right _ _))
  have hmax : max x f._lastOutput ≤ 255 := max_le hx hy
  have h1 : x * (256 - f._coefficient) ≤ 255 * 256 := Nat.mul_le_mul hx (by omega)
  have h2 : f._lastOutput * f._coefficient ≤ 255 * 255 := Nat.mul_le_mul hy hc
  have hval : (f.process x).2
      = (x * (256 - f._coefficient) + f._lastOutput * f._coefficient) / 256 := by
    show ((x * (256 - f._coefficient)) % 65536
        + (f._lastOutput * f._coefficient) % 65536) % 65536 / 256 % 256 = _
    generalize x * (256 - f._coefficient) = a at *
    generalize f._lastOutput * f._coefficient = b at *
    generalize max x f._lastOutput = M at *
    omega
  exact ⟨hval, rfl, hlo, hhi⟩

/-- C18: with coefficient 0, `process(x)` returns `x` for every byte `x` and every
previous output, and the stored last output becomes `x`. -/
theorem onePole_coefficient_zero_identity (f : OnePoleFilter) (x : Nat)
    (hc : f._coefficient = 0) (hx : x ≤ 255) :
    (f.process x).2 = x ∧ (f.process x).1._lastOutput = x := by
  have hval : (f.process x).2 = x := by
    show ((x * (256 - f._coefficient)) % 65536
        + (f._lastOutput * f._coefficient) % 65536) % 65536 / 256 % 256 = x
    rw [hc]
    simp only [Nat.sub_zero, Nat.mul_zero, Nat.zero_mod, Nat.add_zero]
    omega
  exact ⟨hval, hval⟩

/-- C18 (witness): coefficient 0, previous output 77, input 200. -/
theorem onePole_coefficient_zero_identity_witness :
    (OnePoleFilter.process ⟨0, 77, 0⟩ 200).2 = 200 ∧
    (OnePoleFilter.process ⟨0, 77, 0⟩ 200).1._lastOutput = 200 :=
  onePole_coefficient_zero_identity ⟨0, 77, 0⟩ 200 rfl (by decide)

/-- C19: for coefficient `c`, previous output `y` and input `x`, all at most 255,
`process(x)` returns `floor ((x * (256 - c) + y * c) / 256)`; neither product nor
their sum exceeds 65535, and the result lies between `min x y` and `max x y`. -/
theorem onePole_process_weighted_mean (f : OnePoleFilter) (x : Nat)
    (hc : f._coefficient ≤ 255) (hy : f._lastOutput ≤ 255) (hx : x ≤ 255) :
    (f.process x).2 = (x * (256 - f._coefficient) + f._lastOutput * f._coefficient) / 256 ∧
    x * (256 - f._coefficient) ≤ 65535 ∧
    f._lastOutput * f._coefficient ≤ 65535 ∧
    x * (256 - f._coefficient) + f._lastOutput * f._coefficient ≤ 65535 ∧
    min x f._lastOutput ≤ (f.process x).2 ∧ (f.process x).2 ≤ max x f._lastOutput := by
  obtain ⟨hval, _, hlo, hhi⟩ := OnePoleFilter.process_eq f x hc hy hx
  have hmax : max x f._lastOutput ≤ 255 := max_le hx hy
  have h1 : x * (256 - f._coefficient) ≤ 255 * 256 := Nat.mul_le_mul hx (by omega)
  have h2 : f._lastOutput * f._coefficient ≤ 255 * 255 := Nat.mul_le_mul hy hc
  rw [hval]
  generalize x * (256 - f._coefficient) = a at *
  generalize f._lastOutput * f._coefficient = b at *
  generalize max x f._lastOutput = M at *
  generalize min x f._lastOutput = m at *
  refine ⟨rfl, ?_, ?_, ?_, ?_, ?_⟩ <;> omega

/-- C19 (witness): the default coefficient 128, previous output 10, input 250. -/
theorem onePole_process_weighted_mean_witness :
    (OnePoleFilter.process ⟨128, 10, 0⟩ 250).2
      = (250 * (256 - (⟨128, 10, 0⟩ : OnePoleFilter)._coefficient)
          + (⟨128, 10, 0⟩ : OnePoleFilter)._lastOutput
            * (⟨128, 10, 0⟩ : OnePoleFilter)._coefficient) / 256 ∧
    250 * (256 - (⟨128, 10, 0⟩ : OnePoleFilter)._coefficient) ≤ 65535 ∧
    (⟨128, 10, 0⟩ : OnePoleFilter)._lastOutput * (⟨128, 10, 0⟩ : OnePoleFilter)._coefficient
      ≤ 65535 ∧
    250 * (256 - (⟨128, 10, 0⟩ : OnePoleFilter)._coefficient)
      + (⟨128, 10, 0⟩ : OnePoleFilter)._lastOutput * (⟨128, 10, 0⟩ : OnePoleFilter)._coefficient
      ≤ 65535 ∧
    min 250 (⟨128, 10, 0⟩ : OnePoleFilter)._lastOutput ≤ (OnePoleFilter.process ⟨128, 10, 0⟩ 250).2 ∧
    (OnePoleFilter.process ⟨128, 10, 0⟩ 250).2 ≤ max 250 (⟨128, 10, 0⟩ : OnePoleFilter)._lastOutput :=
  onePole_process_weighted_mean ⟨128, 10, 0⟩ 250 (by decide) (by decide) (by decide)

/-! ## DC blocker -/

/-- Truncation of an in-range value succeeds; below 1 in magnitude it gives 0. -/
theorem truncToInt16_of_mem (q : ℚ) (h1 : -32768 ≤ q) (h2 : q ≤ 32767) :
    ∃ t, truncToInt16 q = some t ∧ (|q| < 1 → t = 0) := by
  unfold truncToInt16
  by_cases h0 : 0 ≤ q
  · simp only [if_pos h0]
    have hf0 : 0 ≤ ⌊q⌋ := Int.floor_nonneg.2 h0
    have hf1 : ⌊q⌋ ≤ 32767 := by
      have : ((⌊q⌋ : ℤ) : ℚ) ≤ ((32767 : ℤ) : ℚ) := (Int.floor_le q).trans (by exact_mod_cast h2)
      exact_mod_cast this
    refine ⟨⌊q⌋, by rw [if_pos ⟨by omega, hf1⟩], ?_⟩
    intro habs
    rw [abs_of_nonneg h0] at habs
    rw [Int.floor_eq_iff]
    constructor
    · exact_mod_cast h0
    · simpa using habs
  · simp only [if_neg h0]
    have hq : q < 0 := not_le.1 h0
    have hc0 : ⌈q⌉ ≤ 0 := by
      rw [Int.ceil_le]; exact_mod_cast hq.le
    have hc1 : -32768 ≤ ⌈q⌉ := by
      have : ((-32768 : ℤ) : ℚ) ≤ ((⌈q⌉ : ℤ) : ℚ) :=
        le_trans (by exact_mod_cast h1) (Int.le_ceil q)
      exact_mod_cast this
    refine ⟨⌈q⌉, by rw [if_pos ⟨hc1, by omega⟩], ?_⟩
    intro habs
    rw [abs_of_neg hq] at habs
    rw [Int.ceil_eq_iff]
    constructor
    · simp only [Int.cast_zero]; linarith
    · exact_mod_cast hq.le

/-- For `0 ≤ R ≤ 1` the product `R ^ n * c` stays between `c` and 0. -/
theorem pow_mul_mem (R : ℚ) (c : Int) (hR0 : 0 ≤ R) (hR1 : R ≤ 1) (n : Nat)
    (hc1 : -32768 ≤ c) (hc2 : c ≤ 32767) :
    -32768 ≤ R ^ n * (c : ℚ) ∧ R ^ n * (c : ℚ) ≤ 32767 ∧ |R ^ n * (c : ℚ)| ≤ R ^ n * 32768 := by
  have hp0 : 0 ≤ R ^ n := pow_nonneg hR0 n
  have hp1 : R ^ n ≤ 1 := pow_le_one₀ hR0 hR1
  have hc1' : (-32768 : ℚ) ≤ (c : ℚ) := by exact_mod_cast hc1
  have hc2' : (c : ℚ) ≤ 32767 := by exact_mod_cast hc2
  have habs : |(c : ℚ)| ≤ 32768 := by rw [abs_le]; constructor <;> linarith
  refine ⟨?_, ?_, ?_⟩
  · nlinarith
  · nlinarith
  · rw [abs_mul, abs_of_nonneg hp0]
    exact mul_le_mul_of_nonneg_left habs hp0

/-- State of the DC blocker after `n` calls with the constant input `c`, starting
from the reset state. -/
theorem DCBlocker.feed_constant (R : ℚ) (c : Int) (hR0 : 0 ≤ R) (hR1 : R ≤ 1)
    (hc1 : -32768 ≤ c) (hc2 : c ≤ 32767) (n : Nat) :
    DCBlocker.feed c (n + 1) (DCBlocker.new R) = some ⟨R, (c : ℚ), R ^ n * (c : ℚ)⟩ ∧
    (DCBlocker.feed c n (DCBlocker.new R)).map (fun s => s.output c) = some (R ^ n * (c : ℚ)) := by
  induction n with
  | zero =>
    have hout : (DCBlocker.new R).output c = R ^ 0 * (c : ℚ) := by
      simp [DCBlocker.output, DCBlocker.new]
    obtain ⟨t, ht, _⟩ := truncToInt16_of_mem (R ^ 0 * (c : ℚ))
      (pow_mul_mem R c hR0 hR1 0 hc1 hc2).1 (pow_mul_mem R c hR0 hR1 0 hc1 hc2).2.1
    constructor
    · simp only [DCBlocker.feed, Option.some_bind, DCBlocker.process, hout, ht, Option.map_some']
      rfl
    · simp only [DCBlocker.feed, Option.map_some', hout]
  | succ n ih =>
    obtain ⟨ih1, _⟩ := ih
    have hout : (⟨R, (c : ℚ), R ^ n * (c : ℚ)⟩ : DCBlocker).output c = R ^ (n + 1) * (c : ℚ) := by
      simp only [DCBlocker.output]; ring
    obtain ⟨t, ht, _⟩ := truncToInt16_of_mem (R ^ (n + 1) * (c : ℚ))
      (pow_mul_mem R c hR0 hR1 (n + 1) hc1 hc2).1 (pow_mul_mem R c hR0 hR1 (n + 1) hc1 hc2).2.1
    constructor
    · rw [DCBlocker.feed, ih1]
      simp only [Option.some_bind, DCBlocker.process, hout, ht, Option.map_some']
    · rw [ih1]
      simp only [Option.map_some', hout]

/-- Certificate for the default coefficient: `0.995 ^ 2075 * 32768 < 1`. -/
theorem DCBlocker.default_pow_2075 :
    DCBlocker.defaultCoefficient ^ 2075 * 32768 < 1 := by
  have hnat : (199 ^ 25) ^ 83 * 32768 < (200 ^ 25) ^ 83 := by decide!
  have hq : ((199 : ℚ) ^ 25) ^ 83 * 32768 < ((200 : ℚ) ^ 25) ^ 83 := by exact_mod_cast hnat
  have hR : DCBlocker.defaultCoefficient = 199 / 200 := by
    unfold DCBlocker.defaultCoefficient; norm_num
  have h200 : (0 : ℚ) < (200 ^ 25) ^ 83 := by positivity
  have hexp : (2075 : ℕ) = 25 * 83 := by norm_num
  rw [hR, hexp, pow_mul, div_pow, div_pow, div_mul_eq_mul_div, div_lt_one h200]
  exact hq

/-- C20: a DC blocker with coefficient `0 ≤ R < 1`, fed the constant 16-bit input `c`
from the reset state, has `R ^ n * c` as its `n`-th internal output; the magnitudes
do not increase and fall below every `ε > 0` from some tick on; with the default
coefficient 0.995 the returned truncated sample is 0 for every `n ≥ 2075`. -/
theorem dcBlocker_constant_input (R : ℚ) (c : Int) (hR0 : 0 ≤ R) (hR1 : R < 1)
    (hc1 : -32768 ≤ c) (hc2 : c ≤ 32767) :
    (∀ n, (DCBlocker.feed c n (DCBlocker.new R)).map (fun s => s.output c)
        = some (R ^ n * (c : ℚ))) ∧
    (∀ n, |R ^ (n + 1) * (c : ℚ)| ≤ |R ^ n * (c : ℚ)|) ∧
    (∀ ε : ℚ, 0 < ε → ∃ N, ∀ n, N ≤ n → |R ^ n * (c : ℚ)| < ε) ∧
    (∀ n, 2075 ≤ n →
      ((DCBlocker.feed c n (DCBlocker.new DCBlocker.defaultCoefficient)).bind
        fun s => (s.process c).map Prod.snd) = some 0) := by
  have hc1' : (-32768 : ℚ) ≤ (c : ℚ) := by exact_mod_cast hc1
  have hc2' : (c : ℚ) ≤ 32767 := by exact_mod_cast hc2
  have habs : |(c : ℚ)| ≤ 32768 := by rw [abs_le]; constructor <;> linarith
  refine ⟨fun n => (DCBlocker.feed_constant R c hR0 hR1.le hc1 hc2 n).2, ?_, ?_, ?_⟩
  · intro n
    rw [abs_mul, abs_mul, abs_of_nonneg (pow_nonneg hR0 _), abs_of_nonneg (pow_nonneg hR0 _)]
    have : R ^ (n + 1) ≤ R ^ n := pow_le_pow_of_le_one hR0 hR1.le (Nat.le_succ n)
    exact mul_le_mul_of_nonneg_right this (abs_nonneg _)
  · intro ε hε
    have hpos : 0 < ε / 32769 := by positivity
    obtain ⟨N, hN⟩ := exists_pow_lt_of_lt_one hpos hR1
    refine ⟨N, fun n hn => ?_⟩
    have hle : R ^ n ≤ R ^ N := pow_le_pow_of_le_one hR0 hR1.le hn
    have hp0 : 0 ≤ R ^ n := pow_nonneg hR0 n
    rw [abs_mul, abs_of_nonneg hp0]
    have h1 : R ^ n * |(c : ℚ)| ≤ R ^ N * 32768 :=
      mul_le_mul hle habs (abs_nonneg _) (pow_nonneg hR0 N)
    have h2 : R ^ N * 32768 < ε := by
      rw [lt_div_iff₀ (by norm_num)] at hN
      nlinarith [pow_nonneg hR0 N]
    linarith
  · intro n hn
    have hD0 : (0 : ℚ) ≤ DCBlocker.defaultCoefficient := by
      unfold DCBlocker.defaultCoefficient; norm_num
    have hD1 : DCBlocker.defaultCoefficient ≤ 1 := by
      unfold DCBlocker.defaultCoefficient; norm_num
    obtain ⟨m, rfl⟩ : ∃ m, n = m + 1 := ⟨n - 1, by omega⟩
    have hst := (DCBlocker.feed_constant DCBlocker.defaultCoefficient c hD0 hD1 hc1 hc2 m).1
    have hout : (⟨DCBlocker.defaultCoefficient, (c : ℚ),
        DCBlocker.defaultCoefficient ^ m * (c : ℚ)⟩ : DCBlocker).output c
        = DCBlocker.defaultCoefficient ^ (m + 1) * (c : ℚ) := by
      simp only [DCBlocker.output]; ring
    obtain ⟨b1, b2, b3⟩ := pow_mul_mem DCBlocker.defaultCoefficient c hD0 hD1 (m + 1) hc1 hc2
    obtain ⟨t, ht, hzero⟩ := truncToInt16_of_mem _ b1 b2
    have hsmall : |DCBlocker.defaultCoefficient ^ (m + 1) * (c : ℚ)| < 1 := by
      have hle : DCBlocker.defaultCoefficient ^ (m + 1) ≤ DCBlocker.defaultCoefficient ^ 2075 :=
        pow_le_pow_of_le_one hD0 hD1 hn
      have := DCBlocker.default_pow_2075
      linarith
    rw [hst]
    simp only [Option.some_bind, DCBlocker.process, hout, ht, Option.map_some', hzero hsmall]

/-- C20 (witness): coefficient 1/2 and the constant input 1000. -/
theorem dcBlocker_constant_input_witness :
    (∀ n, (DCBlocker.feed 1000 n (DCBlocker.new (1 / 2))).map (fun s => s.output 1000)
        = some ((1 / 2 : ℚ) ^ n * ((1000 : Int) : ℚ))) ∧
    (∀ n, |(1 / 2 : ℚ) ^ (n + 1) * ((1000 : Int) : ℚ)| ≤ |(1 / 2 : ℚ) ^ n * ((1000 : Int) : ℚ)|) ∧
    (∀ ε : ℚ, 0 < ε → ∃ N, ∀ n, N ≤ n → |(1 / 2 : ℚ) ^ n * ((1000 : Int) : ℚ)| < ε) ∧
    (∀ n, 2075 ≤ n →
      ((DCBlocker.feed 1000 n (DCBlocker.new DCBlocker.defaultCoefficient)).bind
        fun s => (s.process 1000).map Prod.snd) = some 0) :=
  dcBlocker_constant_input (1 / 2) 1000 (by norm_num) (by norm_num) (by decide) (by decide)

/-! ## State variable filter -/

/-- A value produced by the conversion to `int16_t` is left unchanged by
`constrain(·, -32768, 32767)`. -/
theorem constrain_of_truncToInt16 (q : ℚ) (t : Int) (h : truncToInt16 q = some t) :
    constrain t (-32768) 32767 = t ∧ -32768 ≤ t ∧ t ≤ 32767 := by
  have hdef : truncToInt16 q
      = if -32768 ≤ (if 0 ≤ q then ⌊q⌋ else ⌈q⌉) ∧ (if 0 ≤ q then ⌊q⌋ else ⌈q⌉) ≤ 32767
        then some (if 0 ≤ q then ⌊q⌋ else ⌈q⌉) else none := rfl
  rw [hdef] at h
  generalize (if 0 ≤ q then ⌊q⌋ else ⌈q⌉) = T at h
  by_cases hr : -32768 ≤ T ∧ T ≤ 32767
  · rw [if_pos hr] at h
    have ht : T = t := Option.some.inj h
    rw [ht] at hr
    refine ⟨?_, hr.1, hr.2⟩
    unfold constrain
    rw [if_neg (by omega), if_neg (by omega)]
  · rw [if_neg hr] at h
    exact absurd h (by simp)

/-- In `process` the three `constrain` calls never change a value: whenever the call
is defined, the members hold the converted values of the three formulas. -/
theorem StateVariableFilter.process_constrain_noop (s : StateVariableFilter) (input : Int) :
    s.process input =
      (truncToInt16 ((s._low : ℚ) + s._f * (s._band : ℚ))).bind fun low =>
      (truncToInt16 (s._scale * (input : ℚ) - (low : ℚ) - s._q * (s._band : ℚ))).bind fun high =>
      (truncToInt16 ((s._band : ℚ) + s._f * (high : ℚ))).map fun band =>
      { s with _low := low, _band := band, _high := high } := by
  unfold StateVariableFilter.process
  cases h1 : truncToInt16 ((s._low : ℚ) + s._f * (s._band : ℚ)) with
  | none => rfl
  | some low =>
    simp only [Option.some_bind]
    cases h2 : truncToInt16 (s._scale * (input : ℚ) - (low : ℚ) - s._q * (s._band : ℚ)) with
    | none => rfl
    | some high =>
      simp only [Option.some_bind]
      cases h3 : truncToInt16 ((s._band : ℚ) + s._f * (high : ℚ)) with
      | none => rfl
      | some band =>
        simp only [Option.map_some', (constrain_of_truncToInt16 _ _ h1).1,
          (constrain_of_truncToInt16 _ _ h2).1, (constrain_of_truncToInt16 _ _ h3).1]

/-- The conversion to `int16_t` is undefined above 32768. -/
theorem truncToInt16_of_large (q : ℚ) (h : 32768 ≤ q) : truncToInt16 q = none := by
  have h0 : (0 : ℚ) ≤ q := by linarith
  have hfl : (32768 : Int) ≤ ⌊q⌋ := by
    rw [Int.le_floor]; exact_mod_cast h
  unfold truncToInt16
  simp only [if_pos h0]
  rw [if_neg (by omega)]

/-- The conversion to `int16_t` is undefined below -32769. -/
theorem truncToInt16_of_small (q : ℚ) (h : q ≤ -32769) : truncToInt16 q = none := by
  have h0 : ¬ (0 : ℚ) ≤ q := by linarith
  have hc : ⌈q⌉ ≤ (-32769 : Int) := by
    rw [Int.ceil_le]; exact_mod_cast h
  unfold truncToInt16
  simp only [if_neg h0]
  rw [if_neg (by omega)]

/-- Conversion of a non-negative value whose floor is a known `int16_t`. -/
theorem truncToInt16_of_floor (q : ℚ) (t : Int) (h0 : 0 ≤ q) (h1 : (t : ℚ) ≤ q)
    (h2 : q < (t : ℚ) + 1) (hlo : -32768 ≤ t) (hhi : t ≤ 32767) :
    truncToInt16 q = some t := by
  have hfl : ⌊q⌋ = t := by rw [Int.floor_eq_iff]; exact ⟨h1, h2⟩
  unfold truncToInt16
  simp only [if_pos h0, hfl]
  rw [if_pos ⟨hlo, hhi⟩]

/-- The saturated value of a formula above the range is 32767, below it -32768. -/
theorem saturateInt16_of_out_of_range (q : ℚ) :
    (32768 ≤ q → saturateInt16 q = 32767) ∧ (q ≤ -32769 → saturateInt16 q = -32768) := by
  constructor
  · intro h
    have h0 : (0 : ℚ) ≤ q := by linarith
    have hfl : (32768 : Int) ≤ ⌊q⌋ := by rw [Int.le_floor]; exact_mod_cast h
    unfold saturateInt16 constrain
    simp only [if_pos h0]
    rw [if_neg (by omega), if_pos (by omega)]
  · intro h
    have h0 : ¬ (0 : ℚ) ≤ q := by linarith
    have hc : ⌈q⌉ ≤ (-32769 : Int) := by rw [Int.ceil_le]; exact_mod_cast h
    unfold saturateInt16 constrain
    simp only [if_neg h0]
    rw [if_pos (by omega)]


/-- `process` is undefined when the high-pass formula leaves the `int16_t` range. -/
theorem StateVariableFilter.process_none_of_high (s : StateVariableFilter) (input low : Int)
    (h1 : truncToInt16 ((s._low : ℚ) + s._f * (s._band : ℚ)) = some low)
    (h2 : truncToInt16 (s._scale * (input : ℚ) - (low : ℚ) - s._q * (s._band : ℚ)) = none) :
    s.process input = none := by
  rw [StateVariableFilter.process_constrain_noop, h1, Option.some_bind, h2, Option.none_bind]

/-- `process` stores the three converted values when each conversion is defined. -/
theorem StateVariableFilter.process_some (s : StateVariableFilter) (input low high band : Int)
    (h1 : truncToInt16 ((s._low : ℚ) + s._f * (s._band : ℚ)) = some low)
    (h2 : truncToInt16 (s._scale * (input : ℚ) - (low : ℚ) - s._q * (s._band : ℚ)) = some high)
    (h3 : truncToInt16 ((s._band : ℚ) + s._f * (high : ℚ)) = some band) :
    s.process input = some { s with _low := low, _band := band, _high := high } := by
  rw [StateVariableFilter.process_constrain_noop, h1, Option.some_bind, h2, Option.some_bind, h3,
    Option.map_some']

/-- C21 (code defect): the members are `int16_t`, so each formula is converted before
`constrain` sees it and nothing is saturated.  With resonance 0 (`q = 2`,
`scale = sqrt 2`) and the reset state, input 32767 makes the high-pass formula
46339.5: the conversion is out of range, where the specification stores 32767.  With
the default coefficients (`q = 1`, `scale = 1`, `f` about 0.142355) the inputs 32767
and then -32768 make it -38095. -/
theorem svf_process_does_not_saturate :
    (∀ f : ℚ, StateVariableFilter.process
        ⟨44100, 1000, 0, f, 2, 11863283 / 8388608, 0, 0, 0⟩ 32767 = none) ∧
    saturateInt16 ((11863283 / 8388608 : ℚ) * ((32767 : Int) : ℚ) - ((0 : Int) : ℚ)
        - 2 * ((0 : Int) : ℚ)) = 32767 ∧
    StateVariableFilter.process ⟨44100, 1000, 1 / 2, 142355 / 1000000, 1, 1, 0, 0, 0⟩ 32767
      = some ⟨44100, 1000, 1 / 2, 142355 / 1000000, 1, 1, 0, 4664, 32767⟩ ∧
    StateVariableFilter.process
        ⟨44100, 1000, 1 / 2, 142355 / 1000000, 1, 1, 0, 4664, 32767⟩ (-32768) = none ∧
    saturateInt16 ((1 : ℚ) * ((-32768 : Int) : ℚ) - ((663 : Int) : ℚ)
        - 1 * ((4664 : Int) : ℚ)) = -32768 := by
  refine ⟨?_, ?_, ?_, ?_, ?_⟩
  · intro f
    have h1 : truncToInt16 (((0 : Int) : ℚ) + f * ((0 : Int) : ℚ)) = some 0 :=
      truncToInt16_of_floor _ 0 (by simp) (by simp) (by simp) (by norm_num) (by norm_num)
    have h2 : truncToInt16 ((11863283 / 8388608 : ℚ) * ((32767 : Int) : ℚ) - ((0 : Int) : ℚ)
        - 2 * ((0 : Int) : ℚ)) = none :=
      truncToInt16_of_large _ (by norm_num)
    exact StateVariableFilter.process_none_of_high
      ⟨44100, 1000, 0, f, 2, 11863283 / 8388608, 0, 0, 0⟩ 32767 0 h1 h2
  · exact (saturateInt16_of_out_of_range _).1 (by norm_num)
  · have h1 : truncToInt16 (((0 : Int) : ℚ) + (142355 / 1000000 : ℚ) * ((0 : Int) : ℚ))
        = some 0 :=
      truncToInt16_of_floor _ 0 (by simp) (by simp) (by simp) (by norm_num) (by norm_num)
    have h2 : truncToInt16 ((1 : ℚ) * ((32767 : Int) : ℚ) - ((0 : Int) : ℚ)
        - 1 * ((0 : Int) : ℚ)) = some 32767 :=
      truncToInt16_of_floor _ 32767 (by norm_num) (by norm_num) (by norm_num)
        (by norm_num) (by norm_num)
    have h3 : truncToInt16 (((0 : Int) : ℚ) + (142355 / 1000000 : ℚ) * ((32767 : Int) : ℚ))
        = some 4664 :=
      truncToInt16_of_floor _ 4664 (by norm_num) (by norm_num) (by norm_num)
        (by norm_num) (by norm_num)
    exact StateVariableFilter.process_some
      ⟨44100, 1000, 1 / 2, 142355 / 1000000, 1, 1, 0, 0, 0⟩ 32767 0 32767 4664 h1 h2 h3
  · have h1 : truncToInt16 (((0 : Int) : ℚ) + (142355 / 1000000 : ℚ) * ((4664 : Int) : ℚ))
        = some 663 :=
      truncToInt16_of_floor _ 663 (by norm_num) (by norm_num) (by norm_num)
        (by norm_num) (by norm_num)
    have h2 : truncToInt16 ((1 : ℚ) * ((-32768 : Int) : ℚ) - ((663 : Int) : ℚ)
        - 1 * ((4664 : Int) : ℚ)) = none :=
      truncToInt16_of_small _ (by norm_num)
    exact StateVariableFilter.process_none_of_high
      ⟨44100, 1000, 1 / 2, 142355 / 1000000, 1, 1, 0, 4664, 32767⟩ (-32768) 663 h1 h2
  · exact (saturateInt16_of_out_of_range _).2 (by norm_num)

/-- The `float` literal `0.99f` is 4152361 / 4194304, slightly above 99 / 100. -/
theorem roundF32_literal_099 : roundF32 (99 / 100) = 4152361 / 4194304 := by
  have := roundF32_of_near (99 / 100) (1 / 16777216) (-1) 16609444
    (by norm_num) (by norm_num) (by norm_num) (by norm_num) (by norm_num) (by norm_num)
  rw [this]
  norm_num

/-- The resonance `setResonance` stores and the damping it computes from it. -/
theorem StateVariableFilter.setResonance_fields (sinf sqrtf : ℚ → ℚ)
    (s : StateVariableFilter) (res : ℚ) :
    (s.setResonance sinf sqrtf res)._resonance = constrain res 0 (4152361 / 4194304) ∧
    (s.setResonance sinf sqrtf res)._q
      = roundF32 (2 - roundF32 (2 * (s.setResonance sinf sqrtf res)._resonance)) := by
  have h1 : (s.setResonance sinf sqrtf res)._resonance
      = constrain res 0 (roundF32 (99 / 100)) := rfl
  have h2 : (s.setResonance sinf sqrtf res)._q
      = roundF32 (2 - roundF32 (2 * (s.setResonance sinf sqrtf res)._resonance)) := rfl
  rw [roundF32_literal_099] at h1
  exact ⟨h1, h2⟩

/-- Whatever stands for `sin` and `sqrt`, `setResonance(1.0f)` stores the float
`0.99f` = 4152361 / 4194304 and the damping `2 - 2 * 0.99f = 41943 / 2097152`. -/
theorem StateVariableFilter.setResonance_one (sinf sqrtf : ℚ → ℚ) (s : StateVariableFilter) :
    (s.setResonance sinf sqrtf 1)._resonance = 4152361 / 4194304 ∧
    (99 / 100 : ℚ) < (s.setResonance sinf sqrtf 1)._resonance ∧
    (s.setResonance sinf sqrtf 1)._q = 41943 / 2097152 ∧
    (s.setResonance sinf sqrtf 1)._q < 2 / 100 := by
  obtain ⟨h1, h2⟩ := StateVariableFilter.setResonance_fields sinf sqrtf s 1
  have hr : (s.setResonance sinf sqrtf 1)._resonance = 4152361 / 4194304 := by
    rw [h1]
    unfold constrain
    rw [if_neg (by norm_num), if_pos (by norm_num)]
  have hq : (s.setResonance sinf sqrtf 1)._q = 41943 / 2097152 := by
    rw [h2, hr]
    have e1 : roundF32 (2 * (4152361 / 4194304)) = 4152361 / 2097152 :=
      (roundF32_of_eq _ 4152361 (-21) (by norm_num) (by norm_num) (by norm_num)).trans
        (by norm_num)
    rw [e1]
    exact (roundF32_of_eq _ 41943 (-21) (by norm_num) (by norm_num) (by norm_num)).trans
      (by norm_num)
  rw [hr, hq]
  exact ⟨rfl, by norm_num, rfl, by norm_num⟩

/-- C22 (counterexample): on the filter at 44100 Hz (the functions standing for `sin`
and `sqrt` do not enter these two members; the identity is used), `setResonance(1.0f)`
stores the float `0.99f` = 4152361 / 4194304, which is above 0.99, and the damping
becomes `2 - 2 * 0.99f = 41943 / 2097152 = 0.01999998...`, which is below 0.02. -/
theorem svf_damping_below_two_hundredths :
    (StateVariableFilter.setResonance (fun x => x) (fun x => x)
        ⟨44100, 1000, 1 / 2, 0, 1, 1, 0, 0, 0⟩ 1)._resonance = 4152361 / 4194304 ∧
    (99 / 100 : ℚ) < (StateVariableFilter.setResonance (fun x => x) (fun x => x)
        ⟨44100, 1000, 1 / 2, 0, 1, 1, 0, 0, 0⟩ 1)._resonance ∧
    (StateVariableFilter.setResonance (fun x => x) (fun x => x)
        ⟨44100, 1000, 1 / 2, 0, 1, 1, 0, 0, 0⟩ 1)._q = 41943 / 2097152 ∧
    (StateVariableFilter.setResonance (fun x => x) (fun x => x)
        ⟨44100, 1000, 1 / 2, 0, 1, 1, 0, 0, 0⟩ 1)._q < 2 / 100 :=
  StateVariableFilter.setResonance_one (fun x => x) (fun x => x)
    ⟨44100, 1000, 1 / 2, 0, 1, 1, 0, 0, 0⟩

/-- C22 (amended): `setResonance(res)` stores `res` clamped to `[0, 0.99f]`, where
`0.99f` is the float 4152361 / 4194304 (0 below 0, `0.99f` above `0.99f`, `res`
otherwise); the recomputed damping is `q = fl (2 - fl (2 * resonance))` and lies in
`[41943 / 2097152, 2]`, so it is positive (its least value 0.01999998... is below
0.02); the operation is total. -/
theorem svf_setResonance_clamps (sinf sqrtf : ℚ → ℚ) (s : StateVariableFilter) (res : ℚ) :
    (s.setResonance sinf sqrtf res)._resonance
      = (if res < 0 then 0
         else if res > 4152361 / 4194304 then 4152361 / 4194304 else res) ∧
    0 ≤ (s.setResonance sinf sqrtf res)._resonance ∧
    (s.setResonance sinf sqrtf res)._resonance ≤ 4152361 / 4194304 ∧
    (s.setResonance sinf sqrtf res)._q
      = roundF32 (2 - roundF32 (2 * (s.setResonance sinf sqrtf res)._resonance)) ∧
    41943 / 2097152 ≤ (s.setResonance sinf sqrtf res)._q ∧
    (s.setResonance sinf sqrtf res)._q ≤ 2 ∧
    0 < (s.setResonance sinf sqrtf res)._q := by
  obtain ⟨hr, hq⟩ := StateVariableFilter.setResonance_fields sinf sqrtf s res
  have hr' : (s.setResonance sinf sqrtf res)._resonance
      = (if res < 0 then 0
         else if res > 4152361 / 4194304 then 4152361 / 4194304 else res) := hr
  have hb : 0 ≤ (s.setResonance sinf sqrtf res)._resonance ∧
      (s.setResonance sinf sqrtf res)._resonance ≤ 4152361 / 4194304 := by
    rw [hr']
    split_ifs with h1 h2
    · exact ⟨le_refl _, by norm_num⟩
    · exact ⟨by norm_num, le_refl _⟩
    · exact ⟨not_lt.1 h1, not_lt.1 h2⟩
  generalize (s.setResonance sinf sqrtf res)._resonance = r at hr' hq hb
  have e0 : roundF32 0 = 0 := by
    have := roundF32_natCast 0 (by norm_num)
    simpa using this
  have e2 : roundF32 2 = 2 := by
    have := roundF32_natCast 2 (by norm_num)
    simpa using this
  have etop : roundF32 (4152361 / 2097152) = 4152361 / 2097152 :=
    roundF32_of_eq _ 4152361 (-21) (by norm_num) (by norm_num) (by norm_num)
  have ebot : roundF32 (41943 / 2097152) = 41943 / 2097152 :=
    roundF32_of_eq _ 41943 (-21) (by norm_num) (by norm_num) (by norm_num)
  have hd0 : 0 ≤ roundF32 (2 * r) := roundF32_nonneg _ (by linarith [hb.1])
  have hd1 : roundF32 (2 * r) ≤ 4152361 / 2097152 := by
    have := roundF32_mono (show 2 * r ≤ 4152361 / 2097152 by linarith [hb.2])
    rw [etop] at this
    exact this
  have hlo : 41943 / 2097152 ≤ roundF32 (2 - roundF32 (2 * r)) := by
    have := roundF32_mono (show (41943 / 2097152 : ℚ) ≤ 2 - roundF32 (2 * r) by linarith)
    rw [ebot] at this
    exact this
  have hhi : roundF32 (2 - roundF32 (2 * r)) ≤ 2 := by
    have := roundF32_mono (show 2 - roundF32 (2 * r) ≤ 2 by linarith)
    rw [e2] at this
    exact this
  rw [hq]
  exact ⟨hr', hb.1, hb.2, rfl, hlo, hhi, by linarith⟩

/-- C22 (witness): resonance 3/4 on the filter at 44100 Hz, with the identity in place
of `sin` and `sqrt`: the stored resonance lies in `[0, 0.99f]` and the damping in
`[41943 / 2097152, 2]`. -/
theorem svf_setResonance_clamps_witness :
    0 ≤ (StateVariableFilter.setResonance (fun x => x) (fun x => x)
          ⟨44100, 1000, 1 / 2, 0, 1, 1, 0, 0, 0⟩ (3 / 4))._resonance ∧
    (StateVariableFilter.setResonance (fun x => x) (fun x => x)
          ⟨44100, 1000, 1 / 2, 0, 1, 1, 0, 0, 0⟩ (3 / 4))._resonance ≤ 4152361 / 4194304 ∧
    41943 / 2097152 ≤ (StateVariableFilter.setResonance (fun x => x) (fun x => x)
          ⟨44100, 1000, 1 / 2, 0, 1, 1, 0, 0, 0⟩ (3 / 4))._q ∧
    (StateVariableFilter.setResonance (fun x => x) (fun x => x)
          ⟨44100, 1000, 1 / 2, 0, 1, 1, 0, 0, 0⟩ (3 / 4))._q ≤ 2 ∧
    0 < (StateVariableFilter.setResonance (fun x => x) (fun x => x)
          ⟨44100, 1000, 1 / 2, 0, 1, 1, 0, 0, 0⟩ (3 / 4))._q :=
  ⟨(svf_setResonance_clamps (fun x => x) (fun x => x)
      ⟨44100, 1000, 1 / 2, 0, 1, 1, 0, 0, 0⟩ (3 / 4)).2.1,
   (svf_setResonance_clamps (fun x => x) (fun x => x)
      ⟨44100, 1000, 1 / 2, 0, 1, 1, 0, 0, 0⟩ (3 / 4)).2.2.1,
   (svf_setResonance_clamps (fun x => x) (fun x => x)
      ⟨44100, 1000, 1 / 2, 0, 1, 1, 0, 0, 0⟩ (3 / 4)).2.2.2.2.1,
   (svf_setResonance_clamps (fun x => x) (fun x => x)
      ⟨44100, 1000, 1 / 2, 0, 1, 1, 0, 0, 0⟩ (3 / 4)).2.2.2.2.2.1,
   (svf_setResonance_clamps (fun x => x) (fun x => x)
      ⟨44100, 1000, 1 / 2, 0, 1, 1, 0, 0, 0⟩ (3 / 4)).2.2.2.2.2.2⟩

/-! ## Envelope: triggers, `apply` and the transition structure -/

/-- C23: `noteOff()` in attack, decay, sustain or release sets the state to release and
leaves the level, the three rates and the sustain level unchanged; in idle it
changes nothing.  The envelope in state `st` is written `{ e with _state := st }`. -/
theorem noteOff_effect (e : ADSR) (st : EnvelopeState) :
    (ADSR.noteOff { e with _state := st })._state
      = (if st = EnvelopeState.IDLE then EnvelopeState.IDLE else EnvelopeState.RELEASE) ∧
    (ADSR.noteOff { e with _state := st })._level = e._level ∧
    (ADSR.noteOff { e with _state := st })._attackRate = e._attackRate ∧
    (ADSR.noteOff { e with _state := st })._decayRate = e._decayRate ∧
    (ADSR.noteOff { e with _state := st })._releaseRate = e._releaseRate ∧
    (ADSR.noteOff { e with _state := st })._sustainLevel = e._sustainLevel ∧
    ADSR.noteOff { e with _state := EnvelopeState.IDLE }
      = { e with _state := EnvelopeState.IDLE } := by
  cases st <;> simp [ADSR.noteOff]

/-- C24: `noteOn()` in any state sets the state to attack and leaves the level, the
three rates and the sustain level unchanged. -/
theorem noteOn_effect (e : ADSR) :
    e.noteOn._state = EnvelopeState.ATTACK ∧
    e.noteOn._level = e._level ∧
    e.noteOn._attackRate = e._attackRate ∧
    e.noteOn._decayRate = e._decayRate ∧
    e.noteOn._releaseRate = e._releaseRate ∧
    e.noteOn._sustainLevel = e._sustainLevel ∧
    e.noteOn = { e with _state := EnvelopeState.ATTACK } :=
  ⟨rfl, rfl, rfl, rfl, rfl, rfl, rfl⟩

/-- After one tick the level is a `uint16_t` value, provided it was one before. -/
theorem ADSR.tick_level_lt (w : Nat) (e : ADSR) (hl : e._level < 65536) :
    (e.tick w)._level < 65536 := by
  unfold ADSR.tick ADSR.nextSample
  cases hs : e._state <;> simp only []
  · norm_num
  · split_ifs
    · norm_num
    · exact Nat.mod_lt _ (by norm_num)
  · split_ifs
    · exact Nat.mod_lt _ (by norm_num)
    · exact Nat.mod_lt _ (by norm_num)
  · exact hl
  · split_ifs
    · exact Nat.mod_lt _ (by norm_num)
    · norm_num

/-- The byte returned by `nextSample()` is the top byte of the new level. -/
theorem ADSR.nextSample_top_byte (w : Nat) (e : ADSR) (hl : e._level < 65536) :
    (e.nextSample w).2 = (e.tick w)._level / 256 ∧ (e.nextSample w).2 ≤ 255 := by
  have h := ADSR.tick_level_lt w e hl
  have hv : (e.nextSample w).2 = (e.tick w)._level / 256 % 256 := rfl
  rw [hv]
  omega

/-- C25: for a `uint16_t` level and a byte `sample`, `apply(sample)` leaves the
envelope as one `nextSample()` call does and returns `floor (sample * e / 256)` with
`e` the byte `nextSample()` returns, the new level div 256; the result is 0 in idle
and never exceeds `sample`. -/
theorem apply_scales_sample (w : Nat) (e : ADSR) (sample : Nat)
    (hl : e._level < 65536) (hx : sample ≤ 255) :
    (e.apply w sample).1 = (e.nextSample w).1 ∧
    (e.nextSample w).2 = (e.nextSample w).1._level / 256 ∧
    (e.apply w sample).2 = sample * (e.nextSample w).2 / 256 ∧
    (e.apply w sample).2 ≤ sample ∧
    (e._state = EnvelopeState.IDLE → (e.apply w sample).2 = 0) := by
  obtain ⟨h1, h2⟩ := ADSR.nextSample_top_byte w e hl
  have hv : (e.apply w sample).2 = sample * (e.nextSample w).2 % 65536 / 256 % 256 := rfl
  have hprod : sample * (e.nextSample w).2 ≤ sample * 255 := Nat.mul_le_mul_left _ h2
  have hprod2 : sample * 255 ≤ 255 * 255 := Nat.mul_le_mul_right _ hx
  refine ⟨rfl, h1, ?_, ?_, ?_⟩
  · rw [hv]
    generalize sample * (e.nextSample w).2 = p at hprod
    omega
  · rw [hv]
    generalize sample * (e.nextSample w).2 = p at hprod
    omega
  · intro hs
    have h0 : (e.nextSample w).2 = 0 := by
      simp [ADSR.nextSample, hs]
    rw [hv, h0]
    simp

/-- C25 (witness): the default envelope in sustain (level 46080) and sample 200. -/
theorem apply_scales_sample_witness :
    (ADSR.apply 16 ⟨44100, EnvelopeState.SUSTAIN, 46080, 148, 29, 180, 14, 0, 10, 50, 100⟩ 200).1
      = (ADSR.nextSample 16
          ⟨44100, EnvelopeState.SUSTAIN, 46080, 148, 29, 180, 14, 0, 10, 50, 100⟩).1 ∧
    (ADSR.nextSample 16 ⟨44100, EnvelopeState.SUSTAIN, 46080, 148, 29, 180, 14, 0, 10, 50, 100⟩).2
      = (ADSR.nextSample 16
          ⟨44100, EnvelopeState.SUSTAIN, 46080, 148, 29, 180, 14, 0, 10, 50, 100⟩).1._level / 256 ∧
    (ADSR.apply 16 ⟨44100, EnvelopeState.SUSTAIN, 46080, 148, 29, 180, 14, 0, 10, 50, 100⟩ 200).2
      = 200 * (ADSR.nextSample 16
          ⟨44100, EnvelopeState.SUSTAIN, 46080, 148, 29, 180, 14, 0, 10, 50, 100⟩).2 / 256 ∧
    (ADSR.apply 16 ⟨44100, EnvelopeState.SUSTAIN, 46080, 148, 29, 180, 14, 0, 10, 50, 100⟩ 200).2
      ≤ 200 ∧
    ((⟨44100, EnvelopeState.SUSTAIN, 46080, 148, 29, 180, 14, 0, 10, 50, 100⟩ : ADSR)._state
        = EnvelopeState.IDLE →
      (ADSR.apply 16 ⟨44100, EnvelopeState.SUSTAIN, 46080, 148, 29, 180, 14, 0, 10, 50, 100⟩ 200).2
        = 0) :=
  apply_scales_sample 16 ⟨44100, EnvelopeState.SUSTAIN, 46080, 148, 29, 180, 14, 0, 10, 50, 100⟩
    200 (by decide) (by decide)

/-- Ticks keep the level a `uint16_t` value. -/
theorem ADSR.ticks_level_lt (w : Nat) (e : ADSR) (hl : e._level < 65536) (n : Nat) :
    (ADSR.ticks w n e)._level < 65536 := by
  induction n with
  | zero => exact hl
  | succ n ih => exact ADSR.tick_level_lt w _ ih

/-- C29: one tick leaves the state unchanged or performs one of attack -> decay,
decay -> sustain, release -> idle; a tick in idle stays in idle with level 0 and
returns 0; a tick in sustain changes nothing; a `uint16_t` level stays within
0..65535 after any number of ticks. -/
theorem tick_transitions (w : Nat) (e : ADSR) (hl : e._level < 65536) :
    ((e.tick w)._state = e._state ∨
      (e._state = EnvelopeState.ATTACK ∧ (e.tick w)._state = EnvelopeState.DECAY) ∨
      (e._state = EnvelopeState.DECAY ∧ (e.tick w)._state = EnvelopeState.SUSTAIN) ∨
      (e._state = EnvelopeState.RELEASE ∧ (e.tick w)._state = EnvelopeState.IDLE)) ∧
    (e._state = EnvelopeState.IDLE →
      (e.tick w)._state = EnvelopeState.IDLE ∧ (e.tick w)._level = 0 ∧
      (e.nextSample w).2 = 0) ∧
    (e._state = EnvelopeState.SUSTAIN → e.tick w = e) ∧
    (∀ n, (ADSR.ticks w n e)._level ≤ 65535) := by
  refine ⟨?_, ?_, ?_, ?_⟩
  · obtain ⟨sr, st, lv, ar, dr, sl, rr, rs, am, dm, rm⟩ := e
    cases st <;> simp only [ADSR.tick, ADSR.nextSample] <;> (try split_ifs) <;> simp
  · intro hs
    simp [ADSR.tick, ADSR.nextSample, hs]
  · intro hs
    simp [ADSR.tick, ADSR.nextSample, hs]
  · intro n
    have := ADSR.ticks_level_lt w e hl n
    omega

/-- C29 (witness): the default envelope in release at level 10, one tick from idle. -/
theorem tick_transitions_witness :
    ((ADSR.tick 16 ⟨44100, EnvelopeState.RELEASE, 10, 148, 29, 180, 14, 0, 10, 50, 100⟩)._state
        = (⟨44100, EnvelopeState.RELEASE, 10, 148, 29, 180, 14, 0, 10, 50, 100⟩ : ADSR)._state ∨
      ((⟨44100, EnvelopeState.RELEASE, 10, 148, 29, 180, 14, 0, 10, 50, 100⟩ : ADSR)._state
          = EnvelopeState.ATTACK ∧
        (ADSR.tick 16 ⟨44100, EnvelopeState.RELEASE, 10, 148, 29, 180, 14, 0, 10, 50, 100⟩)._state
          = EnvelopeState.DECAY) ∨
      ((⟨44100, EnvelopeState.RELEASE, 10, 148, 29, 180, 14, 0, 10, 50, 100⟩ : ADSR)._state
          = EnvelopeState.DECAY ∧
        (ADSR.tick 16 ⟨44100, EnvelopeState.RELEASE, 10, 148, 29, 180, 14, 0, 10, 50, 100⟩)._state
          = EnvelopeState.SUSTAIN) ∨
      ((⟨44100, EnvelopeState.RELEASE, 10, 148, 29, 180, 14, 0, 10, 50, 100⟩ : ADSR)._state
          = EnvelopeState.RELEASE ∧
        (ADSR.tick 16 ⟨44100, EnvelopeState.RELEASE, 10, 148, 29, 180, 14, 0, 10, 50, 100⟩)._state
          = EnvelopeState.IDLE)) ∧
    ((⟨44100, EnvelopeState.RELEASE, 10, 148, 29, 180, 14, 0, 10, 50, 100⟩ : ADSR)._state
        = EnvelopeState.IDLE →
      (ADSR.tick 16 ⟨44100, EnvelopeState.RELEASE, 10, 148, 29, 180, 14, 0, 10, 50, 100⟩)._state
        = EnvelopeState.IDLE ∧
      (ADSR.tick 16 ⟨44100, EnvelopeState.RELEASE, 10, 148, 29, 180, 14, 0, 10, 50, 100⟩)._level
        = 0 ∧
      (ADSR.nextSample 16
        ⟨44100, EnvelopeState.RELEASE, 10, 148, 29, 180, 14, 0, 10, 50, 100⟩).2 = 0) ∧
    ((⟨44100, EnvelopeState.RELEASE, 10, 148, 29, 180, 14, 0, 10, 50, 100⟩ : ADSR)._state
        = EnvelopeState.SUSTAIN →
      ADSR.tick 16 ⟨44100, EnvelopeState.RELEASE, 10, 148, 29, 180, 14, 0, 10, 50, 100⟩
        = ⟨44100, EnvelopeState.RELEASE, 10, 148, 29, 180, 14, 0, 10, 50, 100⟩) ∧
    (∀ n, (ADSR.ticks 16 n
      ⟨44100, EnvelopeState.RELEASE, 10, 148, 29, 180, 14, 0, 10, 50, 100⟩)._level ≤ 65535) :=
  tick_transitions 16 ⟨44100, EnvelopeState.RELEASE, 10, 148, 29, 180, 14, 0, 10, 50, 100⟩
    (by decide)

/-! ## MIDI conversion: the inverse conversion in exact arithmetic -/

/-- In exact real arithmetic, with the real `log2`, `frequencyToMidiNote(freq)` is 0
for `freq ≤ 0` and otherwise the note value `12 * log2 (freq / 440) + 69` rounded to
the nearest integer and clamped to `[0, 127]`; 440 Hz gives 69. -/
theorem frequencyToMidiNote_exact_closed_form (freq : ℝ) :
    frequencyToMidiNote freq
      = (if freq ≤ 0 then 0
         else Int.toNat (max 0 (min 127 (round (12 * Real.logb 2 (freq / 440) + 69))))) ∧
    frequencyToMidiNote freq ≤ 127 ∧
    frequencyToMidiNote 440 = 69 := by
  have key : ∀ x : ℝ, frequencyToMidiNote x
      = (if x ≤ 0 then 0
         else Int.toNat (max 0 (min 127 (round (12 * Real.logb 2 (x / 440) + 69))))) := by
    intro x
    unfold frequencyToMidiNote
    by_cases hpos : x ≤ 0
    · rw [if_pos hpos, if_pos hpos]
    · rw [if_neg hpos, if_neg hpos]
      simp only []
      generalize 12 * Real.logb 2 (x / 440) + 69 = note
      rw [round_eq]
      by_cases h0 : note < 0
      · rw [if_pos h0]
        have hfl : ⌊note + 1 / 2⌋ ≤ 0 := by
          have : ⌊note + 1 / 2⌋ < 1 := by
            rw [Int.floor_lt]; push_cast; linarith
          omega
        have : max 0 (min 127 ⌊note + 1 / 2⌋) = 0 := by omega
        rw [this]; rfl
      · rw [if_neg h0]
        by_cases h127 : note > 127
        · rw [if_pos h127]
          have hfl : (127 : ℤ) ≤ ⌊note + 1 / 2⌋ := by
            rw [Int.le_floor]; push_cast; linarith
          have : max 0 (min 127 ⌊note + 1 / 2⌋) = 127 := by omega
          rw [this]; rfl
        · rw [if_neg h127]
          have hfl1 : (0 : ℤ) ≤ ⌊note + 1 / 2⌋ := by
            rw [Int.le_floor]; push_cast; linarith
          have hfl2 : ⌊note + 1 / 2⌋ < 128 := by
            rw [Int.floor_lt]; push_cast; linarith
          have : max 0 (min 127 ⌊note + 1 / 2⌋) = ⌊note + 1 / 2⌋ := by omega
          rw [this]
          omega
  refine ⟨key freq, ?_, ?_⟩
  · rw [key freq]
    split_ifs
    · omega
    · omega
  · have hlog : Real.logb 2 ((440 : ℝ) / 440) = 0 := by
      rw [div_self (by norm_num)]; exact Real.logb_one
    have hr : round ((12 : ℝ) * 0 + 69) = 69 := by
      rw [round_eq, Int.floor_eq_iff]; norm_num
    rw [key 440, if_neg (by norm_num), hlog, hr]
    rfl

/-! ## MIDI conversion: the inverse conversion in `float` arithmetic -/

/-- Closed form of the exponent used by `applyPitchBend`. -/
theorem applyPitchBend_eq (f : ℝ) (b : Nat) (r : ℝ) :
    applyPitchBend f b r = f * (2 : ℝ) ^ (((b : ℝ) - 8192) / 8192 * r / 12) := rfl

/-- C27 (counterexample): at 440 Hz with the default range of 2 semitones the largest
bend value 16383 gives less than `440 * 2 ^ (2 / 12)`: only 8191/8192 of the range
is reached. -/
theorem pitchBend_full_up_below_range :
    applyPitchBend 440 16383 2 < 440 * (2 : ℝ) ^ ((2 : ℝ) / 12) ∧
    ¬ (applyPitchBend 440 16383 2 = 440 * (2 : ℝ) ^ ((2 : ℝ) / 12)) := by
  have hlt : applyPitchBend 440 16383 2 < 440 * (2 : ℝ) ^ ((2 : ℝ) / 12) := by
    rw [applyPitchBend_eq]
    have hexp : (((16383 : ℕ) : ℝ) - 8192) / 8192 * 2 / 12 < (2 : ℝ) / 12 := by norm_num
    have := Real.rpow_lt_rpow_of_exponent_lt (by norm_num : (1 : ℝ) < 2) hexp
    linarith
  exact ⟨hlt, ne_of_lt hlt⟩

/-- C27 (amended): `applyPitchBend(f, 8192, r) = f`, `applyPitchBend(f, 0, r) =
f * 2 ^ (-r / 12)`, `applyPitchBend(f, 16383, r) = f * 2 ^ ((8191 / 8192) * r / 12)`,
and for `f ≥ 0`, `r ≥ 0` the result does not decrease when the bend value grows. -/
theorem pitchBend_endpoints_and_monotone (f r : ℝ) (b1 b2 : Nat) :
    applyPitchBend f 8192 r = f ∧
    applyPitchBend f 0 r = f * (2 : ℝ) ^ (-r / 12) ∧
    applyPitchBend f 16383 r = f * (2 : ℝ) ^ ((8191 / 8192 : ℝ) * r / 12) ∧
    (0 ≤ f → 0 ≤ r → b1 ≤ b2 → applyPitchBend f b1 r ≤ applyPitchBend f b2 r) := by
  refine ⟨?_, ?_, ?_, ?_⟩
  · rw [applyPitchBend_eq]
    have : (((8192 : ℕ) : ℝ) - 8192) / 8192 * r / 12 = 0 := by norm_num
    rw [this, Real.rpow_zero, mul_one]
  · rw [applyPitchBend_eq]
    have : (((0 : ℕ) : ℝ) - 8192) / 8192 * r / 12 = -r / 12 := by norm_num
    rw [this]
  · rw [applyPitchBend_eq]
    have : (((16383 : ℕ) : ℝ) - 8192) / 8192 * r / 12 = (8191 / 8192 : ℝ) * r / 12 := by
      norm_num
    rw [this]
  · intro hf hr hb
    rw [applyPitchBend_eq, applyPitchBend_eq]
    have hb' : (b1 : ℝ) ≤ (b2 : ℝ) := by exact_mod_cast hb
    have hexp : ((b1 : ℝ) - 8192) / 8192 * r / 12 ≤ ((b2 : ℝ) - 8192) / 8192 * r / 12 := by
      have h1 : ((b1 : ℝ) - 8192) / 8192 ≤ ((b2 : ℝ) - 8192) / 8192 := by
        apply div_le_div_of_nonneg_right _ (by norm_num); linarith
      have h2 := mul_le_mul_of_nonneg_right h1 hr
      exact div_le_div_of_nonneg_right h2 (by norm_num)
    exact mul_le_mul_of_nonneg_left
      (Real.rpow_le_rpow_of_exponent_le (by norm_num) hexp) hf

/-- C27 (witness): 440 Hz, range 2, bend values 100 and 200. -/
theorem pitchBend_endpoints_and_monotone_witness :
    applyPitchBend 440 8192 2 = 440 ∧
    applyPitchBend 440 0 2 = 440 * (2 : ℝ) ^ (-(2 : ℝ) / 12) ∧
    applyPitchBend 440 16383 2 = 440 * (2 : ℝ) ^ ((8191 / 8192 : ℝ) * 2 / 12) ∧
    applyPitchBend 440 100 2 ≤ applyPitchBend 440 200 2 :=
  ⟨(pitchBend_endpoints_and_monotone 440 2 100 200).1,
   (pitchBend_endpoints_and_monotone 440 2 100 200).2.1,
   (pitchBend_endpoints_and_monotone 440 2 100 200).2.2.1,
   (pitchBend_endpoints_and_monotone 440 2 100 200).2.2.2
     (by norm_num) (by norm_num) (by norm_num)⟩

/-- C28: over the reals `detuneByCents(f, 0) = f`, `detuneByCents(f, 1200) = 2 * f`,
`detuneByCents(f, -1200) = f / 2`, and detuning by `a` and then by `b` cents is
detuning by `a + b` cents, for all integers `a` and `b` (in particular when `a + b`
fits the `int16_t` argument). -/
theorem detune_octaves_and_additivity (f : ℝ) (a b : Int) :
    detuneByCents f 0 = f ∧
    detuneByCents f 1200 = 2 * f ∧
    detuneByCents f (-1200) = f / 2 ∧
    detuneByCents (detuneByCents f a) b = detuneByCents f (a + b) := by
  have h20 : (0 : ℝ) < 2 := by norm_num
  refine ⟨?_, ?_, ?_, ?_⟩
  · unfold detuneByCents
    have : (((0 : Int) : ℝ)) / 1200 = 0 := by norm_num
    rw [this, Real.rpow_zero, mul_one]
  · unfold detuneByCents
    have : (((1200 : Int) : ℝ)) / 1200 = 1 := by norm_num
    rw [this, Real.rpow_one]; ring
  · unfold detuneByCents
    have : (((-1200 : Int) : ℝ)) / 1200 = -1 := by norm_num
    rw [this, Real.rpow_neg_one]; ring
  · unfold detuneByCents
    have : (((a + b : Int) : ℝ)) / 1200 = (a : ℝ) / 1200 + (b : ℝ) / 1200 := by
      push_cast; ring
    rw [this, Real.rpow_add h20]; ring

/-! ## LFO and oscillator waveform shaping -/

/-- With the same 8-bit index the LFO's raw sample is the oscillator's sample for
sine, square, sawtooth and triangle, and for pulse when the oscillator's pulse width
is 64. -/
theorem LFO.waveformValue_eq_oscillator (o : Oscillator) (hp : o._phase < 65536)
    (h : o._waveform ≠ Waveform.PULSE ∨ o._pulseWidth = 64) :
    LFO.waveformValue o._waveform (o._phase / 256) = o.nextSample.2 := by
  have hi : o._phase / 256 % 256 = o._phase / 256 := by omega
  cases hw : o._waveform
  · simp only [LFO.waveformValue, Oscillator.nextSample, hw, hi]
  · simp only [LFO.waveformValue, Oscillator.nextSample, hw, hi]
  · simp only [LFO.waveformValue, Oscillator.nextSample, hw, hi]
  · simp only [LFO.waveformValue, Oscillator.nextSample, hw, hi]
  · rcases h with h | h
    · exact absurd hw h
    · simp only [LFO.waveformValue, Oscillator.nextSample, hw, hi, h]

/-- C30 (counterexample): for pulse at index 64 the LFO's raw sample is 0 (its pulse is
high below index 64) while the oscillator with the default pulse width 128 returns
255. -/
theorem lfo_pulse_differs_from_oscillator :
    LFO.waveformValue Waveform.PULSE
        ((⟨44100, 1, 127, 64 * 65536, 380, Waveform.PULSE⟩ : LFO)._phase / 65536 % 256) = 0 ∧
    (Oscillator.nextSample ⟨44100, 440, 64 * 256, 653, Waveform.PULSE, 128⟩).2 = 255 ∧
    (⟨44100, 1, 127, 64 * 65536, 380, Waveform.PULSE⟩ : LFO)._phase / 65536 % 256 = 64 ∧
    (⟨44100, 440, 64 * 256, 653, Waveform.PULSE, 128⟩ : Oscillator)._phase / 256 % 256 = 64 := by
  decide

/-- C30 (amended): for an LFO and an oscillator with the same waveform and the same
8-bit phase index, the LFO's sample before depth scaling equals the oscillator's
sample for sine, square, sawtooth and triangle; for pulse it equals the sample of an
oscillator with pulse width 64, and differs from the oscillator with the default
pulse width 128 exactly for the indices 64..127. -/
theorem lfo_shaping_matches_oscillator (l : LFO) (o : Oscillator)
    (hw : l._waveform = o._waveform) (hl : l._phase < 16777216) (ho : o._phase < 65536)
    (hi : l._phase / 65536 = o._phase / 256) :
    (o._waveform ≠ Waveform.PULSE ∨ o._pulseWidth = 64 →
      LFO.waveformValue l._waveform (l._phase / 65536 % 256) = o.nextSample.2) ∧
    (o._waveform = Waveform.PULSE → o._pulseWidth = 128 →
      (LFO.waveformValue l._waveform (l._phase / 65536 % 256) ≠ o.nextSample.2
        ↔ 64 ≤ o._phase / 256 ∧ o._phase / 256 < 128)) := by
  have hi1 : l._phase / 65536 % 256 = o._phase / 256 := by omega
  have hi2 : o._phase / 256 % 256 = o._phase / 256 := by omega
  constructor
  · intro h
    rw [hw, hi1]
    exact LFO.waveformValue_eq_oscillator o ho h
  · intro hp hpw
    rw [hw, hi1]
    simp only [LFO.waveformValue, Oscillator.nextSample, hp, hi2, hpw]
    split_ifs <;> omega

/-- C30 (witness): triangle at index 200 on both sides. -/
theorem lfo_shaping_matches_oscillator_witness :
    ((⟨44100, 440, 200 * 256, 653, Waveform.TRIANGLE, 128⟩ : Oscillator)._waveform
        ≠ Waveform.PULSE ∨
      (⟨44100, 440, 200 * 256, 653, Waveform.TRIANGLE, 128⟩ : Oscillator)._pulseWidth = 64 →
      LFO.waveformValue (⟨44100, 1, 127, 200 * 65536, 380, Waveform.TRIANGLE⟩ : LFO)._waveform
          ((⟨44100, 1, 127, 200 * 65536, 380, Waveform.TRIANGLE⟩ : LFO)._phase / 65536 % 256)
        = (Oscillator.nextSample ⟨44100, 440, 200 * 256, 653, Waveform.TRIANGLE, 128⟩).2) ∧
    ((⟨44100, 440, 200 * 256, 653, Waveform.TRIANGLE, 128⟩ : Oscillator)._waveform
        = Waveform.PULSE →
      (⟨44100, 440, 200 * 256, 653, Waveform.TRIANGLE, 128⟩ : Oscillator)._pulseWidth = 128 →
      (LFO.waveformValue (⟨44100, 1, 127, 200 * 65536, 380, Waveform.TRIANGLE⟩ : LFO)._waveform
          ((⟨44100, 1, 127, 200 * 65536, 380, Waveform.TRIANGLE⟩ : LFO)._phase / 65536 % 256)
        ≠ (Oscillator.nextSample ⟨44100, 440, 200 * 256, 653, Waveform.TRIANGLE, 128⟩).2
        ↔ 64 ≤ (⟨44100, 440, 200 * 256, 653, Waveform.TRIANGLE, 128⟩ : Oscillator)._phase / 256 ∧
          (⟨44100, 440, 200 * 256, 653, Waveform.TRIANGLE, 128⟩ : Oscillator)._phase / 256
            < 128)) :=
  lfo_shaping_matches_oscillator ⟨44100, 1, 127, 200 * 65536, 380, Waveform.TRIANGLE⟩
    ⟨44100, 440, 200 * 256, 653, Waveform.TRIANGLE, 128⟩ rfl (by decide) (by decide) (by decide)

/-! ## Ladder filter: the `tanh` approximation -/

/-- The rational formula of `tanh` does not decrease, anywhere on the line. -/
theorem MoogFilter.tanh_formula_mono (a b : ℚ) (h : a ≤ b) :
    a * (27 + a * a) / (27 + 9 * (a * a)) ≤ b * (27 + b * b) / (27 + 9 * (b * b)) := by
  have ha : (0 : ℚ) < 27 + 9 * (a * a) := by nlinarith [mul_self_nonneg a]
  have hb : (0 : ℚ) < 27 + 9 * (b * b) := by nlinarith [mul_self_nonneg b]
  rw [div_le_div_iff₀ ha hb]
  have key : 0 ≤ (b - a) * ((a * b - 9) ^ 2 + 3 * (a - b) ^ 2) :=
    mul_nonneg (sub_nonneg.2 h) (by positivity)
  nlinarith [key]

/-- Between the clamp points `tanh` is the rational formula. -/
theorem MoogFilter.tanh_of_mem (x : ℚ) (h1 : -3 ≤ x) (h2 : x ≤ 3) :
    MoogFilter.tanh x = x * (27 + x * x) / (27 + 9 * (x * x)) := by
  unfold MoogFilter.tanh
  rw [if_neg (not_lt.2 h1), if_neg (not_lt.2 h2)]

/-- The approximation stays within `[-1, 1]`. -/
theorem MoogFilter.tanh_bounds (x : ℚ) : -1 ≤ MoogFilter.tanh x ∧ MoogFilter.tanh x ≤ 1 := by
  by_cases h1 : x < -3
  · unfold MoogFilter.tanh
    rw [if_pos h1]
    norm_num
  · by_cases h2 : x > 3
    · unfold MoogFilter.tanh
      rw [if_neg h1, if_pos h2]
      norm_num
    · have h1' : -3 ≤ x := not_lt.1 h1
      have h2' : x ≤ 3 := not_lt.1 h2
      rw [MoogFilter.tanh_of_mem x h1' h2']
      have hd : (0 : ℚ) < 27 + 9 * (x * x) := by nlinarith [mul_self_nonneg x]
      have hlo : 0 ≤ (x + 3) ^ 3 := pow_nonneg (by linarith) 3
      have hhi : 0 ≤ (3 - x) ^ 3 := pow_nonneg (by linarith) 3
      constructor
      · rw [le_div_iff₀ hd]; nlinarith [hlo]
      · rw [div_le_iff₀ hd]; nlinarith [hhi]

/-- C31: over exact rationals the `tanh` approximation of the ladder filter is the
rational formula on `[-3, 3]` and the constants outside; its magnitude is at most 1,
it is odd, it does not decrease on the whole line, and the rational formula is
exactly 1 at 3 and exactly -1 at -3, the values of the clamps. -/
theorem moog_tanh_bounded_odd_monotone (x y : ℚ) :
    |MoogFilter.tanh x| ≤ 1 ∧
    MoogFilter.tanh (-x) = -MoogFilter.tanh x ∧
    (x ≤ y → MoogFilter.tanh x ≤ MoogFilter.tanh y) ∧
    (x < -3 → MoogFilter.tanh x = -1) ∧
    (3 < x → MoogFilter.tanh x = 1) ∧
    (-3 ≤ x → x ≤ 3 → MoogFilter.tanh x = x * (27 + x * x) / (27 + 9 * (x * x))) ∧
    MoogFilter.tanh 3 = 1 ∧ MoogFilter.tanh (-3) = -1 ∧
    (3 : ℚ) * (27 + 3 * 3) / (27 + 9 * (3 * 3)) = 1 ∧
    (-3 : ℚ) * (27 + (-3) * (-3)) / (27 + 9 * ((-3) * (-3))) = -1 := by
  refine ⟨abs_le.2 (MoogFilter.tanh_bounds x), ?_, ?_, ?_, ?_, MoogFilter.tanh_of_mem x,
    ?_, ?_, by norm_num, by norm_num⟩
  · -- odd
    by_cases h1 : x < -3
    · have h3 : -x > 3 := by linarith
      have h4 : ¬ (-x < -3) := by linarith
      unfold MoogFilter.tanh
      rw [if_pos h1, if_neg h4, if_pos h3]
      norm_num
    · by_cases h2 : x > 3
      · have h3 : -x < -3 := by linarith
        unfold MoogFilter.tanh
        rw [if_neg h1, if_pos h2, if_pos h3]
      · have h1' : -3 ≤ x := not_lt.1 h1
        have h2' : x ≤ 3 := not_lt.1 h2
        rw [MoogFilter.tanh_of_mem x h1' h2',
          MoogFilter.tanh_of_mem (-x) (by linarith) (by linarith)]
        ring
  · -- monotone
    intro hxy
    by_cases h1 : x < -3
    · have hx : MoogFilter.tanh x = -1 := by
        unfold MoogFilter.tanh
        rw [if_pos h1]
      rw [hx]
      exact (MoogFilter.tanh_bounds y).1
    · by_cases h2 : y > 3
      · have h3 : ¬ (y < -3) := by linarith
        have hy : MoogFilter.tanh y = 1 := by
          unfold MoogFilter.tanh
          rw [if_neg h3, if_pos h2]
        rw [hy]
        exact (MoogFilter.tanh_bounds x).2
      · have h1' : -3 ≤ x := not_lt.1 h1
        have h2' : y ≤ 3 := not_lt.1 h2
        rw [MoogFilter.tanh_of_mem x h1' (by linarith),
          MoogFilter.tanh_of_mem y (by linarith) h2']
        exact MoogFilter.tanh_formula_mono x y hxy
  · intro h
    unfold MoogFilter.tanh
    rw [if_pos h]
  · intro h
    have h3 : ¬ (x < -3) := by linarith
    unfold MoogFilter.tanh
    rw [if_neg h3, if_pos h]
  · rw [MoogFilter.tanh_of_mem 3 (by norm_num) (by norm_num)]
    norm_num
  · rw [MoogFilter.tanh_of_mem (-3) (by norm_num) (by norm_num)]
    norm_num

/-- C31 (witness): the points 1 and 2; `tanh 1 = 7 / 9` and `tanh 2 = 62 / 63`. -/
theorem moog_tanh_bounded_odd_monotone_witness :
    MoogFilter.tanh 1 = 7 / 9 ∧ MoogFilter.tanh 2 = 62 / 63 ∧
    |MoogFilter.tanh 1| ≤ 1 ∧
    MoogFilter.tanh (-1) = -MoogFilter.tanh 1 ∧
    MoogFilter.tanh 1 ≤ MoogFilter.tanh 2 :=
  ⟨by rw [(moog_tanh_bounded_odd_monotone 1 2).2.2.2.2.2.1 (by norm_num) (by norm_num)]; norm_num,
   by rw [(moog_tanh_bounded_odd_monotone 2 2).2.2.2.2.2.1 (by norm_num) (by norm_num)]; norm_num,
   (moog_tanh_bounded_odd_monotone 1 2).1,
   (moog_tanh_bounded_odd_monotone 1 2).2.1,
   (moog_tanh_bounded_odd_monotone 1 2).2.2.1 (by norm_num)⟩

/-! ## One-pole filter: cutoff setter -/

/-- For a ratio strictly between 0 and 1 both rounded intermediates of `setCutoff`
stay in range: the difference in `[0, 1]`, the product in `[0, 255]`. -/
theorem OnePoleFilter.setCutoff_product_mem (r : ℚ) (h0 : 0 < r) (h1 : r < 1) :
    0 ≤ roundF32 (roundF32 (1 - r) * 255) ∧ roundF32 (roundF32 (1 - r) * 255) ≤ 255 := by
  have e1 : roundF32 1 = 1 := by
    have := roundF32_natCast 1 (by norm_num)
    simpa using this
  have e255 : roundF32 255 = 255 := by
    have := roundF32_natCast 255 (by norm_num)
    simpa using this
  have ht0 : 0 ≤ roundF32 (1 - r) := roundF32_nonneg _ (by linarith)
  have ht1 : roundF32 (1 - r) ≤ 1 := by
    have := roundF32_mono (show 1 - r ≤ 1 by linarith)
    rw [e1] at this
    exact this
  refine ⟨roundF32_nonneg _ (by positivity), ?_⟩
  have := roundF32_mono (show roundF32 (1 - r) * 255 ≤ 255 by linarith)
  rw [e255] at this
  exact this

/-- The coefficient `setCutoff` stores, case by case; the operation is total. -/
theorem OnePoleFilter.setCutoff_eq (f : OnePoleFilter) (r : ℚ) :
    f.setCutoff r
      = some { f with _coefficient :=
          if 1 ≤ r then 0
          else if r ≤ 0 then 255
          else Int.toNat ⌊roundF32 (roundF32 (1 - r) * 255)⌋ } := by
  unfold OnePoleFilter.setCutoff
  by_cases h1 : 1 ≤ r
  · rw [if_pos h1, if_pos h1]
  · by_cases h0 : r ≤ 0
    · rw [if_neg h1, if_pos h0, if_neg h1, if_pos h0]
    · rw [if_neg h1, if_neg h0, if_neg h1, if_neg h0]
      obtain ⟨hp0, hp1⟩ := OnePoleFilter.setCutoff_product_mem r (not_le.1 h0) (not_le.1 h1)
      rw [truncToUInt8_of_nonneg _ hp0 (by linarith)]
      rfl

/-- C32 (counterexample): for the ratio `2 ^ (-30)` the float difference
`1.0f - ratio` is 1, the product is 255 and `setCutoff` stores 255, where
`floor ((1 - ratio) * 255)` is 254. -/
theorem setCutoff_tiny_ratio_stores_255 :
    OnePoleFilter.setCutoff ⟨128, 0, 0⟩ (1 / 1073741824) = some ⟨255, 0, 0⟩ ∧
    cutoffCoefficientSpec (1 / 1073741824) = 254 ∧
    ⌊(1 - (1 / 1073741824 : ℚ)) * 255⌋ = 254 ∧
    (0 : ℚ) < 1 / 1073741824 ∧ (1 / 1073741824 : ℚ) < 1 := by
  have hfl : ⌊(1 - (1 / 1073741824 : ℚ)) * 255⌋ = 254 := by
    rw [Int.floor_eq_iff]
    norm_num
  have ht : roundF32 (1 - 1 / 1073741824) = 1 := by
    have := roundF32_of_near (1 - 1 / 1073741824) (1 / 16777216) (-1) 16777216
      (by norm_num) (by norm_num) (by norm_num) (by norm_num) (by norm_num) (by norm_num)
    rw [this]
    norm_num
  have hp : roundF32 (1 * 255) = 255 := by
    have := roundF32_natCast 255 (by norm_num)
    simpa using this
  have hfl2 : ⌊(255 : ℚ)⌋ = 255 := by
    exact_mod_cast Int.floor_intCast (α := ℚ) 255
  refine ⟨?_, ?_, hfl, by norm_num, by norm_num⟩
  · rw [OnePoleFilter.setCutoff_eq, if_neg (by norm_num), if_neg (by norm_num), ht, hp, hfl2]
    rfl
  · unfold cutoffCoefficientSpec
    rw [if_neg (by norm_num), if_neg (by norm_num), hfl]
    rfl

/-- C32 (amended): `setCutoff(ratio)` always stores a coefficient `c`: 0 when
`ratio ≥ 1`, 255 when `ratio ≤ 0`, and for `0 < ratio < 1` the float product
`fl (fl (1 - ratio) * 255)` truncated to an integer, which is
`floor ((1 - ratio) * 255)` whenever the difference and the product are floats (no
rounding occurs); `c` is at most 255 and does not increase when the ratio grows. -/
theorem setCutoff_coefficient_cases (f : OnePoleFilter) (r r2 : ℚ) :
    ∃ c c2 : ℕ,
      f.setCutoff r = some { f with _coefficient := c } ∧
      f.setCutoff r2 = some { f with _coefficient := c2 } ∧
      (1 ≤ r → c = 0) ∧
      (r ≤ 0 → c = 255) ∧
      (0 < r → r < 1 → (c : ℤ) = ⌊roundF32 (roundF32 (1 - r) * 255)⌋) ∧
      (0 < r → r < 1 → roundF32 (1 - r) = 1 - r →
        roundF32 ((1 - r) * 255) = (1 - r) * 255 → (c : ℤ) = ⌊(1 - r) * 255⌋) ∧
      c ≤ 255 ∧
      (r ≤ r2 → c2 ≤ c) := by
  have hmid : ∀ x : ℚ, 0 < x → x < 1 →
      0 ≤ ⌊roundF32 (roundF32 (1 - x) * 255)⌋ ∧
      ⌊roundF32 (roundF32 (1 - x) * 255)⌋ ≤ 255 := by
    intro x hx0 hx1
    obtain ⟨hp0, hp1⟩ := OnePoleFilter.setCutoff_product_mem x hx0 hx1
    refine ⟨Int.floor_nonneg.2 hp0, ?_⟩
    have := Int.floor_le_floor hp1
    have e : ⌊(255 : ℚ)⌋ = 255 := by exact_mod_cast Int.floor_intCast (α := ℚ) 255
    rw [e] at this
    exact this
  have hle : ∀ x : ℚ,
      (if 1 ≤ x then 0 else if x ≤ 0 then 255
        else Int.toNat ⌊roundF32 (roundF32 (1 - x) * 255)⌋) ≤ 255 := by
    intro x
    split_ifs with h1 h0
    · omega
    · omega
    · have := hmid x (not_le.1 h0) (not_le.1 h1)
      omega
  refine ⟨_, _, OnePoleFilter.setCutoff_eq f r, OnePoleFilter.setCutoff_eq f r2,
    ?_, ?_, ?_, ?_, hle r, ?_⟩
  · intro h1
    rw [if_pos h1]
  · intro h0
    rw [if_neg (by linarith), if_pos h0]
  · intro h0 h1
    rw [if_neg (not_le.2 h1), if_neg (not_le.2 h0)]
    exact Int.toNat_of_nonneg (hmid r h0 h1).1
  · intro h0 h1 e1 e2
    rw [if_neg (not_le.2 h1), if_neg (not_le.2 h0), e1, e2]
    have := hmid r h0 h1
    rw [e1, e2] at this
    exact Int.toNat_of_nonneg this.1
  · intro h
    by_cases h2 : 1 ≤ r2
    · rw [if_pos h2]
      exact Nat.zero_le _
    · by_cases h0 : r ≤ 0
      · rw [if_neg (show ¬ (1 ≤ r) by linarith), if_pos h0]
        exact hle r2
      · have hr0 : 0 < r := not_le.1 h0
        rw [if_neg h2, if_neg (show ¬ (r2 ≤ 0) by linarith),
          if_neg (show ¬ (1 ≤ r) by linarith), if_neg h0]
        apply Int.toNat_le_toNat
        apply Int.floor_le_floor
        apply roundF32_mono
        have := roundF32_mono (show 1 - r2 ≤ 1 - r by linarith)
        linarith

/-- C32 (witness): the ratios 1/4 and 1/2, where no rounding occurs, store 191 and
127. -/
theorem setCutoff_coefficient_cases_witness :
    ∃ c c2 : ℕ,
      OnePoleFilter.setCutoff ⟨128, 0, 0⟩ (1 / 4) = some ⟨c, 0, 0⟩ ∧
      OnePoleFilter.setCutoff ⟨128, 0, 0⟩ (1 / 2) = some ⟨c2, 0, 0⟩ ∧
      (c : ℤ) = ⌊(1 - (1 / 4 : ℚ)) * 255⌋ ∧ c ≤ 255 ∧ c2 ≤ c := by
  obtain ⟨c, c2, h1, h2, _, _, _, h6, h7, h8⟩ :=
    setCutoff_coefficient_cases ⟨128, 0, 0⟩ (1 / 4) (1 / 2)
  exact ⟨c, c2, h1, h2,
    h6 (by norm_num) (by norm_num)
      (roundF32_of_eq _ 3 (-2) (by norm_num) (by norm_num) (by norm_num))
      (roundF32_of_eq _ 765 (-2) (by norm_num) (by norm_num) (by norm_num)),
    h7, h8 (by norm_num)⟩

/-! ## Envelope: durations too long for a 16-bit rate -/

/-- With attack rate 0 an attack tick below full scale changes nothing. -/
theorem ADSR.tick_attack_rate_zero (w : Nat) (a : ADSR)
    (hs : a._state = EnvelopeState.ATTACK) (hr : a._attackRate = 0) (hl : a._level < 65535) :
    a.tick w = a := by
  rw [ADSR.tick_attack w a hs, hr, Nat.add_zero, Nat.mod_eq_of_lt (by omega),
    if_neg (by omega), ← hr]

/-- With release rate 0 a release tick at a positive level changes nothing. -/
theorem ADSR.tick_release_rate_zero (w : Nat) (a : ADSR)
    (hs : a._state = EnvelopeState.RELEASE) (hr : a._releaseRate = 0) (h0 : 0 < a._level)
    (hl : a._level < 65536) :
    a.tick w = a := by
  rw [ADSR.tick_release w a hs, hr, if_pos h0, Nat.sub_zero, Nat.add_mod_right,
    Nat.mod_eq_of_lt hl, ← hr]

/-- An envelope that one tick leaves unchanged is unchanged by any number of ticks. -/
theorem ADSR.ticks_of_tick_eq (w : Nat) (a : ADSR) (h : a.tick w = a) (n : Nat) :
    ADSR.ticks w n a = a := by
  induction n with
  | zero => rfl
  | succ n ih => rw [ADSR.ticks, ih, h]

/-- C33 (counterexample): at sample rate 96000 the duration 44740 ms has
`44740 * 96000 div 1000 = 4295040 > 65535`, but the 32-bit product wraps to 72704,
`samples` is 72 and every setter stores the rate `65535 div 72 = 910`, not 0. -/
theorem long_duration_rate_not_zero_when_product_wraps :
    ADSR.new 96000 = some ⟨96000, EnvelopeState.IDLE, 0, 68, 13, 180, 6, 0, 10, 50, 100⟩ ∧
    65535 < 44740 * 96000 / 1000 ∧
    (44740 * 96000) % 4294967296 = 72704 ∧
    ADSR.setAttack ⟨96000, EnvelopeState.IDLE, 0, 68, 13, 180, 6, 0, 10, 50, 100⟩ 44740
      = some ⟨96000, EnvelopeState.IDLE, 0, 910, 13, 180, 6, 0, 44740, 50, 100⟩ ∧
    ADSR.setDecay ⟨96000, EnvelopeState.IDLE, 0, 68, 13, 180, 6, 0, 10, 50, 100⟩ 44740
      = some ⟨96000, EnvelopeState.IDLE, 0, 68, 910, 180, 6, 0, 10, 44740, 100⟩ ∧
    ADSR.setRelease ⟨96000, EnvelopeState.IDLE, 0, 68, 13, 180, 6, 0, 10, 50, 100⟩ 44740
      = some ⟨96000, EnvelopeState.IDLE, 0, 68, 13, 180, 910, 0, 10, 50, 44740⟩ := by
  decide

/-- C33 (amended): whenever the 32-bit sample count `((ms * sampleRate) mod 2^32)
div 1000` exceeds 65535 (the plain quotient `ms * sampleRate div 1000` when the
product is below 2^32), `setAttack`, `setDecay` and `setRelease` store the rate 0;
with attack rate 0 an envelope in Attack with level below 65535 is unchanged by any
number of ticks, and with release rate 0 an envelope in Release with a positive
level is unchanged by any number of ticks, so it never reaches Idle. -/
theorem long_duration_rate_zero_and_stuck (w : Nat) (e : ADSR) (ms : Nat)
    (h : 65535 < (ms * e._sampleRate) % 4294967296 / 1000) :
    (ms * e._sampleRate < 4294967296 →
      (ms * e._sampleRate) % 4294967296 / 1000 = ms * e._sampleRate / 1000) ∧
    e.setAttack ms = some { e with _attackMs := ms, _attackRate := 0 } ∧
    e.setDecay ms = some { e with _decayMs := ms, _decayRate := 0 } ∧
    e.setRelease ms = some { e with _releaseMs := ms, _releaseRate := 0 } ∧
    (∀ (a : ADSR) (n : Nat), a._state = EnvelopeState.ATTACK → a._attackRate = 0 →
      a._level < 65535 →
      ADSR.ticks w n a = a ∧ (ADSR.ticks w n a)._level = a._level ∧
      (ADSR.ticks w n a)._state = EnvelopeState.ATTACK) ∧
    (∀ (a : ADSR) (n : Nat), a._state = EnvelopeState.RELEASE → a._releaseRate = 0 →
      0 < a._level → a._level < 65536 →
      ADSR.ticks w n a = a ∧ (ADSR.ticks w n a)._state ≠ EnvelopeState.IDLE) := by
  have hms : ms ≠ 0 := by
    intro h0
    rw [h0, Nat.zero_mul] at h
    exact absurd h (by decide)
  have hs : ¬ ((ms * e._sampleRate) % 4294967296 / 1000 = 0) := by omega
  have hq : 65535 / ((ms * e._sampleRate) % 4294967296 / 1000) % 65536 = 0 := by
    rw [Nat.div_eq_of_lt h]
  refine ⟨fun hlt => by rw [Nat.mod_eq_of_lt hlt], ?_, ?_, ?_, ?_, ?_⟩
  · unfold ADSR.setAttack
    rw [if_neg hms]
    simp only [if_neg hs, hq]
  · unfold ADSR.setDecay
    rw [if_neg hms]
    simp only [if_neg hs, hq]
  · unfold ADSR.setRelease
    rw [if_neg hms]
    simp only [if_neg hs, hq]
  · intro a n hst hr hl
    have hfix := ADSR.ticks_of_tick_eq w a (ADSR.tick_attack_rate_zero w a hst hr hl) n
    rw [hfix]
    exact ⟨rfl, rfl, hst⟩
  · intro a n hst hr h0 hl
    have hfix := ADSR.ticks_of_tick_eq w a (ADSR.tick_release_rate_zero w a hst hr h0 hl) n
    rw [hfix, hst]
    exact ⟨rfl, by decide⟩

/-- C33 (witness): 2000 ms at 44100 Hz gives 88200 samples; the three setters store
the rate 0, and after `noteOn` the envelope with that attack rate is still in Attack
at level 0 after 1000000 ticks. -/
theorem long_duration_rate_zero_and_stuck_witness :
    65535 < 2000 * 44100 / 1000 ∧
    ADSR.setAttack ⟨44100, EnvelopeState.IDLE, 0, 148, 29, 180, 14, 0, 10, 50, 100⟩ 2000
      = some ⟨44100, EnvelopeState.IDLE, 0, 0, 29, 180, 14, 0, 2000, 50, 100⟩ ∧
    ADSR.setDecay ⟨44100, EnvelopeState.IDLE, 0, 148, 29, 180, 14, 0, 10, 50, 100⟩ 2000
      = some ⟨44100, EnvelopeState.IDLE, 0, 148, 0, 180, 14, 0, 10, 2000, 100⟩ ∧
    ADSR.setRelease ⟨44100, EnvelopeState.IDLE, 0, 148, 29, 180, 14, 0, 10, 50, 100⟩ 2000
      = some ⟨44100, EnvelopeState.IDLE, 0, 148, 29, 180, 0, 0, 10, 50, 2000⟩ ∧
    (ADSR.ticks 16 1000000
        (ADSR.noteOn ⟨44100, EnvelopeState.IDLE, 0, 0, 29, 180, 14, 0, 2000, 50, 100⟩))._state
      = EnvelopeState.ATTACK ∧
    (ADSR.ticks 16 1000000
        ⟨44100, EnvelopeState.RELEASE, 46080, 148, 29, 180, 0, 46080, 10, 50, 2000⟩)._state
      ≠ EnvelopeState.IDLE :=
  ⟨by decide,
   (long_duration_rate_zero_and_stuck 16
      ⟨44100, EnvelopeState.IDLE, 0, 148, 29, 180, 14, 0, 10, 50, 100⟩ 2000 (by decide)).2.1,
   (long_duration_rate_zero_and_stuck 16
      ⟨44100, EnvelopeState.IDLE, 0, 148, 29, 180, 14, 0, 10, 50, 100⟩ 2000 (by decide)).2.2.1,
   (long_duration_rate_zero_and_stuck 16
      ⟨44100, EnvelopeState.IDLE, 0, 148, 29, 180, 14, 0, 10, 50, 100⟩ 2000 (by decide)).2.2.2.1,
   ((long_duration_rate_zero_and_stuck 16
      ⟨44100, EnvelopeState.IDLE, 0, 148, 29, 180, 14, 0, 10, 50, 100⟩ 2000
      (by decide)).2.2.2.2.1
      (ADSR.noteOn ⟨44100, EnvelopeState.IDLE, 0, 0, 29, 180, 14, 0, 2000, 50, 100⟩) 1000000
      rfl rfl (by decide)).2.2,
   ((long_duration_rate_zero_and_stuck 16
      ⟨44100, EnvelopeState.IDLE, 0, 148, 29, 180, 14, 0, 10, 50, 100⟩ 2000
      (by decide)).2.2.2.2.2
      ⟨44100, EnvelopeState.RELEASE, 46080, 148, 29, 180, 0, 46080, 10, 50, 2000⟩ 1000000
      rfl rfl (by decide) (by decide)).2⟩

/-! ## LFO: shallow depth and vibrato -/

/-- C34: for an LFO with depth at most 128, whatever its waveform and phase, the
integer `nextSample() - 128` formed by `nextSampleFloat()` is strictly negative
(`nextSample()` is at most 127); `nextSampleFloat()` is therefore never positive, and
`modulateFrequency(base, maxDeviation)` with `base > 0` and `maxDeviation ≥ 0`
returns at most `base`. -/
theorem lfo_shallow_depth_never_positive (l : LFO) (base maxDeviation : ℚ)
    (hd : l._depth ≤ 128) (hb : 0 < base) (hm : 0 ≤ maxDeviation) :
    l.nextSample.2 ≤ 127 ∧
    (l.nextSample.2 : Int) - 128 < 0 ∧
    l.nextSampleFloat.2
      = (((l.nextSample.2 : Int) - 128 : Int) : ℚ) / 128 * ((l._depth : ℚ) / 255) ∧
    l.nextSampleFloat.2 ≤ 0 ∧
    (l.modulateFrequency base maxDeviation).2
      = base * (1 + l.nextSampleFloat.2 * maxDeviation) ∧
    (l.modulateFrequency base maxDeviation).2 ≤ base ∧
    (l.modulateFrequency base maxDeviation).1 = l.nextSample.1 := by
  obtain ⟨_, _, h3⟩ := LFO.nextSample_snd l (by omega)
  have hs : l.nextSample.2 ≤ 127 := by omega
  have hneg : (l.nextSample.2 : Int) - 128 < 0 := by omega
  have hval : l.nextSampleFloat.2
      = (((l.nextSample.2 : Int) - 128 : Int) : ℚ) / 128 * ((l._depth : ℚ) / 255) := rfl
  have hnegq : (((l.nextSample.2 : Int) - 128 : Int) : ℚ) < 0 := by exact_mod_cast hneg
  have hd0 : (0 : ℚ) ≤ (l._depth : ℚ) / 255 := by positivity
  have hfl : l.nextSampleFloat.2 ≤ 0 := by
    rw [hval]
    exact mul_nonpos_of_nonpos_of_nonneg
      (div_nonpos_of_nonpos_of_nonneg (le_of_lt hnegq) (by norm_num)) hd0
  have hmf : (l.modulateFrequency base maxDeviation).2
      = base * (1 + l.nextSampleFloat.2 * maxDeviation) := rfl
  have hmod : l.nextSampleFloat.2 * maxDeviation ≤ 0 :=
    mul_nonpos_of_nonpos_of_nonneg hfl hm
  refine ⟨hs, hneg, hval, hfl, hmf, ?_, rfl⟩
  rw [hmf]
  nlinarith

/-- C34 (witness): the default LFO at 44100 Hz (sine, depth 127, phase 0) with base
frequency 440 and the default maximum deviation 0.05. -/
theorem lfo_shallow_depth_never_positive_witness :
    (LFO.nextSample ⟨44100, 1, 127, 0, 380, Waveform.SINE⟩).2 ≤ 127 ∧
    (LFO.nextSampleFloat ⟨44100, 1, 127, 0, 380, Waveform.SINE⟩).2 ≤ 0 ∧
    (LFO.modulateFrequency ⟨44100, 1, 127, 0, 380, Waveform.SINE⟩ 440 (5 / 100)).2 ≤ 440 :=
  ⟨(lfo_shallow_depth_never_positive ⟨44100, 1, 127, 0, 380, Waveform.SINE⟩ 440 (5 / 100)
      (by decide) (by norm_num) (by norm_num)).1,
   (lfo_shallow_depth_never_positive ⟨44100, 1, 127, 0, 380, Waveform.SINE⟩ 440 (5 / 100)
      (by decide) (by norm_num) (by norm_num)).2.2.2.1,
   (lfo_shallow_depth_never_positive ⟨44100, 1, 127, 0, 380, Waveform.SINE⟩ 440 (5 / 100)
      (by decide) (by norm_num) (by norm_num)).2.2.2.2.2.1⟩

/-! ## One-pole filter: approach from below -/

/-- With a coefficient of at least 1 and a previous output below the input, the
output stays below the input. -/
theorem OnePoleFilter.process_lt (f : OnePoleFilter) (x : Nat)
    (hc1 : 1 ≤ f._coefficient) (hc : f._coefficient ≤ 255) (hy : f._lastOutput < x)
    (hx : x ≤ 255) :
    (f.process x).2 < x := by
  obtain ⟨hval, _, _, _⟩ := OnePoleFilter.process_eq f x hc (by omega) hx
  rw [hval, Nat.div_lt_iff_lt_mul (by norm_num)]
  have hsum : x * (256 - f._coefficient) + x * f._coefficient = x * 256 := by
    rw [← Nat.mul_add, Nat.sub_add_cancel (by omega)]
  have hlt : f._lastOutput * f._coefficient < x * f._coefficient :=
    Nat.mul_lt_mul_of_pos_right hy (by omega)
  omega

/-- The state after `process` differs from the state before only in the last output. -/
theorem OnePoleFilter.process_fst (f : OnePoleFilter) (x : Nat) :
    (f.process x).1 = { f with _lastOutput := (f.process x).2 } := rfl

/-- Fed a held input from below, every output stays below the input. -/
theorem OnePoleFilter.processAll_held_lt (x : Nat) (hx : x ≤ 255) (n : Nat) :
    ∀ f : OnePoleFilter, 1 ≤ f._coefficient → f._coefficient ≤ 255 → f._lastOutput < x →
      ∀ y ∈ (f.processAll (List.replicate n x)).2, y < x := by
  induction n with
  | zero =>
    intro f _ _ _ y hy
    simp [OnePoleFilter.processAll] at hy
  | succ n ih =>
    intro f hc1 hc hlt y hy
    have hstep := OnePoleFilter.process_lt f x hc1 hc hlt hx
    rw [List.replicate_succ, OnePoleFilter.processAll] at hy
    rcases List.mem_cons.1 hy with h | h
    · rw [h]; exact hstep
    · exact ih (f.process x).1 hc1 hc hstep y h

/-- With coefficient 255 and last output 0 every byte is answered by 0 and the
filter does not change. -/
theorem OnePoleFilter.process_stuck (f : OnePoleFilter) (x : Nat)
    (hc : f._coefficient = 255) (hy : f._lastOutput = 0) (hx : x ≤ 255) :
    (f.process x).2 = 0 ∧ (f.process x).1 = f := by
  have hval : (f.process x).2 = 0 := by
    show ((x * (256 - f._coefficient)) % 65536
        + (f._lastOutput * f._coefficient) % 65536) % 65536 / 256 % 256 = 0
    rw [hc, hy]
    omega
  refine ⟨hval, ?_⟩
  rw [OnePoleFilter.process_fst, hval, ← hy]

/-- With coefficient 255 and last output 0 every sequence of bytes is answered by
zeros. -/
theorem OnePoleFilter.processAll_stuck (xs : List Nat) :
    ∀ f : OnePoleFilter, f._coefficient = 255 → f._lastOutput = 0 → (∀ x ∈ xs, x ≤ 255) →
      (f.processAll xs).2 = List.replicate xs.length 0 ∧ (f.processAll xs).1 = f := by
  induction xs with
  | nil =>
    intro f _ _ _
    exact ⟨rfl, rfl⟩
  | cons x xs ih =>
    intro f hc hy hxs
    obtain ⟨h1, h2⟩ := OnePoleFilter.process_stuck f x hc hy (hxs x (List.mem_cons_self _ _))
    have hrest := ih f hc hy (fun z hz => hxs z (List.mem_cons_of_mem _ hz))
    rw [OnePoleFilter.processAll, h2, h1, List.length_cons, List.replicate_succ]
    exact ⟨by rw [hrest.1], hrest.2⟩

/-- C35: for a coefficient `c` with `1 ≤ c ≤ 255`, a byte `x` and a previous output
`y < x`, `process(x) < x`, and fed the held input `x` any number of times every
output stays below `x`; with `c = 255` and previous output 0, `process(x) = 0` for
every byte `x` and the filter is unchanged, so after `reset` every sequence of bytes
is answered by zeros only. -/
theorem onePole_never_reaches_input_from_below (f : OnePoleFilter) (x : Nat)
    (hc1 : 1 ≤ f._coefficient) (hc : f._coefficient ≤ 255) (hy : f._lastOutput < x)
    (hx : x ≤ 255) :
    (f.process x).2 < x ∧
    (∀ n : Nat, ∀ y ∈ (f.processAll (List.replicate n x)).2, y < x) ∧
    (∀ (g : OnePoleFilter) (z : Nat), g._coefficient = 255 → g._lastOutput = 0 → z ≤ 255 →
      (g.process z).2 = 0 ∧ (g.process z).1 = g) ∧
    (∀ (g : OnePoleFilter) (zs : List Nat), g._coefficient = 255 → (∀ z ∈ zs, z ≤ 255) →
      (g.reset.processAll zs).2 = List.replicate zs.length 0) :=
  ⟨OnePoleFilter.process_lt f x hc1 hc hy hx,
   fun n => OnePoleFilter.processAll_held_lt x hx n f hc1 hc hy,
   fun g z hg hg0 hz => OnePoleFilter.process_stuck g z hg hg0 hz,
   fun g zs hg hzs => (OnePoleFilter.processAll_stuck zs g.reset hg rfl hzs).1⟩

/-- C35 (witness): the default coefficient 128 with previous output 10 and input 250
gives 130; with coefficient 255 the reset filter answers 255, 200, 7 by zeros. -/
theorem onePole_never_reaches_input_from_below_witness :
    (OnePoleFilter.process ⟨128, 10, 0⟩ 250).2 < 250 ∧
    (OnePoleFilter.process ⟨255, 0, 0⟩ 255).2 = 0 ∧
    ((OnePoleFilter.reset ⟨255, 99, 0⟩).processAll [255, 200, 7]).2 = [0, 0, 0] :=
  ⟨(onePole_never_reaches_input_from_below ⟨128, 10, 0⟩ 250
      (by decide) (by decide) (by decide) (by decide)).1,
   ((onePole_never_reaches_input_from_below ⟨128, 10, 0⟩ 250
      (by decide) (by decide) (by decide) (by decide)).2.2.1
      ⟨255, 0, 0⟩ 255 rfl rfl (by decide)).1,
   (onePole_never_reaches_input_from_below ⟨128, 10, 0⟩ 250
      (by decide) (by decide) (by decide) (by decide)).2.2.2
      ⟨255, 99, 0⟩ [255, 200, 7] rfl (by decide)⟩

/-! ## Oscillator: period of the phase accumulator -/

/-- The phase is back at its start after `k` calls exactly when 65536 divides
`k * increment`. -/
theorem Oscillator.phase_back_iff (o : Oscillator) (hp : o._phase < 65536) (k : Nat) :
    (Oscillator.ticks k o)._phase = o._phase ↔ 65536 ∣ k * o._phaseIncrement := by
  rw [Oscillator.ticks_eq o hp, Nat.dvd_iff_mod_eq_zero]
  show (o._phase + k * o._phaseIncrement) % 65536 = o._phase ↔ _
  generalize k * o._phaseIncrement = m
  omega

/-- Divisibility of `k * inc` by 65536 in terms of `k` alone. -/
theorem dvd_mul_iff_quotient_dvd (inc k : Nat) :
    65536 ∣ k * inc ↔ 65536 / Nat.gcd inc 65536 ∣ k := by
  have hg : 0 < Nat.gcd inc 65536 := Nat.gcd_pos_of_pos_right _ (by norm_num)
  have hgd : Nat.gcd inc 65536 ∣ 65536 := Nat.gcd_dvd_right _ _
  have hgi : Nat.gcd inc 65536 ∣ inc := Nat.gcd_dvd_left _ _
  have hcop : Nat.Coprime (65536 / Nat.gcd inc 65536) (inc / Nat.gcd inc 65536) :=
    (Nat.coprime_div_gcd_div_gcd hg).symm
  have h1 : 65536 = 65536 / Nat.gcd inc 65536 * Nat.gcd inc 65536 :=
    (Nat.div_mul_cancel hgd).symm
  have h2 : k * inc = k * (inc / Nat.gcd inc 65536) * Nat.gcd inc 65536 := by
    rw [Nat.mul_assoc, Nat.div_mul_cancel hgi]
  constructor
  · intro h
    rw [h2] at h
    nth_rewrite 1 [h1] at h
    have h3 := Nat.dvd_of_mul_dvd_mul_right hg h
    exact hcop.dvd_of_dvd_mul_right h3
  · intro h
    rw [h2]
    nth_rewrite 1 [h1]
    exact Nat.mul_dvd_mul_right (Dvd.dvd.mul_right h _) _

/-- C36: for every oscillator (start phase below 65536, any phase increment), after
65536 calls of `nextSample()` the phase is back at its start; the phase is back
after `k` calls exactly when `65536 / gcd(inc, 65536)` divides `k`, so that number is
positive, brings the phase back, and no smaller positive number of calls does. -/
theorem phase_period_is_quotient_by_gcd (o : Oscillator) (hp : o._phase < 65536) :
    (Oscillator.ticks 65536 o)._phase = o._phase ∧
    (∀ k : Nat, (Oscillator.ticks k o)._phase = o._phase
      ↔ 65536 / Nat.gcd o._phaseIncrement 65536 ∣ k) ∧
    0 < 65536 / Nat.gcd o._phaseIncrement 65536 ∧
    (Oscillator.ticks (65536 / Nat.gcd o._phaseIncrement 65536) o)._phase = o._phase ∧
    (∀ k : Nat, 0 < k → (Oscillator.ticks k o)._phase = o._phase →
      65536 / Nat.gcd o._phaseIncrement 65536 ≤ k) := by
  have hiff : ∀ k : Nat, (Oscillator.ticks k o)._phase = o._phase
      ↔ 65536 / Nat.gcd o._phaseIncrement 65536 ∣ k := fun k =>
    (Oscillator.phase_back_iff o hp k).trans (dvd_mul_iff_quotient_dvd o._phaseIncrement k)
  have hT : 0 < 65536 / Nat.gcd o._phaseIncrement 65536 :=
    Nat.div_pos (Nat.le_of_dvd (by norm_num) (Nat.gcd_dvd_right _ _))
      (Nat.gcd_pos_of_pos_right _ (by norm_num))
  refine ⟨?_, hiff, hT, (hiff _).2 (dvd_refl _), ?_⟩
  · exact (Oscillator.phase_back_iff o hp 65536).2 (Dvd.intro _ rfl)
  · intro k hk hback
    exact Nat.le_of_dvd hk ((hiff k).1 hback)

/-- C36 (witness): increment 655 (441 Hz at 44100 Hz) and start phase 12345:
`gcd(655, 65536) = 1`, the phase is back after 65536 calls and not after 100. -/
theorem phase_period_is_quotient_by_gcd_witness :
    65536 / Nat.gcd 655 65536 = 65536 ∧
    (Oscillator.ticks 65536 ⟨44100, 441, 12345, 655, Waveform.SINE, 128⟩)._phase = 12345 ∧
    ¬ ((Oscillator.ticks 100 ⟨44100, 441, 12345, 655, Waveform.SINE, 128⟩)._phase = 12345) :=
  ⟨by decide,
   (phase_period_is_quotient_by_gcd ⟨44100, 441, 12345, 655, Waveform.SINE, 128⟩
      (by decide)).1,
   fun h =>
     absurd
       ((phase_period_is_quotient_by_gcd ⟨44100, 441, 12345, 655, Waveform.SINE, 128⟩
          (by decide)).2.2.2.2 100 (by decide) h)
       (by decide)⟩

end Synth
